import Mathlib

/-!
# Foldcessing: collection, aggregation, line map, wraparound translation, stream rewriting

A shallow embedding of `src/foldcessing.c`.

Conventions of the embedding:

* a C string is the `List Char` of its bytes before the terminating NUL;
* an `int` is an `Int`; the sums and products of `translate_line` are taken in `Int`
  (signed overflow is undefined in C, so the embedding describes the runs without it: every
  product is at most `10 * 65536`, and a sum is formed only after the one before it was
  found to be at most `total_lines`);
* the globals `line_map`, `file_count` and `total_lines` are explicit arguments: the line
  map is the list of its first `file_count` entries;
* a bounded buffer written by `snprintf`/`strncat` keeps what fits, as in C;
* a loop is a recursive function; where a fuel argument bounds the recursion, the fuel
  given is shown to let the loop run to its own exit;
* a pointer into a string is the rest of the string from that position on, and `long` has
  32 bits, as on the platform the program is written for;
* a write past the end of an array is an outcome of its own (`Collected.overflow`, `none`
  in `candidates_loop_checked`), never silently dropped.
-/

namespace Foldcessing

/-! ## Constants -/

/-- `#define MAX_PATH_LEN 4096` -/
def MAX_PATH_LEN : Nat := 4096

/-- `#define MAX_FILES 10000` -/
def MAX_FILES : Nat := 10000

/-- `#define MAX_LINE 8192` -/
def MAX_LINE : Nat := 8192

/-- `#define LINE_WRAP 65536` (local to `translate_line`). -/
def LINE_WRAP : Int := 65536

/-! ## Data model -/

/-- `typedef struct { char path[..]; char relative[..]; } FileEntry;` -/
structure FileEntry where
  path : List Char
  relative : List Char
  deriving DecidableEq, Repr

/-- `typedef struct { int start_line; int end_line; char relative[..]; } LineMapping;` -/
structure LineMapping where
  start_line : Int
  end_line : Int
  relative : List Char
  deriving DecidableEq, Repr

/-- `typedef struct { int file_index; int actual_line; int original_line; } MatchCandidate;` -/
structure MatchCandidate where
  file_index : Nat
  actual_line : Int
  original_line : Int
  deriving DecidableEq, Repr

/-! ## C library pieces used by the program -/

/-- The text printed by `%d`. -/
def fmt_d (n : Int) : List Char :=
  if n < 0 then '-' :: Nat.toDigits 10 n.natAbs else Nat.toDigits 10 n.toNat

/-- The string left in a buffer of `size` bytes by `snprintf(buf, size, ...)` whose
formatted text is `s`: at most `size - 1` bytes are kept. -/
def snprintf (size : Nat) (s : List Char) : List Char :=
  s.take (size - 1)

/-- The string `dst` after `strncat(dst, src, n)`: at most `n` bytes of `src` are appended. -/
def strncat (dst src : List Char) (n : Nat) : List Char :=
  dst ++ src.take n

/-! ## `translate_line` -/

/-- The literal `"output.pde:"`. -/
def output_pde_marker : List Char :=
  ['o', 'u', 't', 'p', 'u', 't', '.', 'p', 'd', 'e', ':']

/-- The literal `" or "`. -/
def or_sep : List Char := [' ', 'o', 'r', ' ']

/-- The literal `" (line wrapping)"`. -/
def wrap_flag : List Char :=
  [' ', '(', 'l', 'i', 'n', 'e', ' ', 'w', 'r', 'a', 'p', 'p', 'i', 'n', 'g', ')']

/-- Range test of the inner loop: `candidate_line >= start_line && candidate_line <= end_line`. -/
def in_range (e : LineMapping) (candidate_line : Int) : Prop :=
  candidate_line ≥ e.start_line ∧ candidate_line ≤ e.end_line

instance (e : LineMapping) (c : Int) : Decidable (in_range e c) := by
  unfold in_range; infer_instance

/-- The inner loop `for (i = 0; i < file_count; i++)` of `translate_line`, entered at index
`i` with the entries from `i` on: the first entry whose range holds `candidate_line`
gives the candidate, and the loop breaks. -/
def find_match (candidate_line : Int) : List LineMapping → Nat → Option MatchCandidate
  | [], _ => none
  | e :: es, i =>
    if in_range e candidate_line then
      some ⟨i, candidate_line, candidate_line - e.start_line + 1⟩
    else find_match candidate_line es (i + 1)

/-- The outer loop `for (k = ..; k * LINE_WRAP < total_lines && k < 10; k++)` of
`translate_line`, entered at `k` with the candidates recorded so far. The loop runs at most
ten times, so `fuel = 10` lets it run to its own exit. -/
def candidates_loop (line_map : List LineMapping) (total_lines line_num : Int) :
    Nat → Nat → List MatchCandidate → List MatchCandidate
  | 0, _, candidates => candidates
  | fuel + 1, k, candidates =>
    if (k : Int) * LINE_WRAP < total_lines ∧ k < 10 then
      let candidate_line := line_num + (k : Int) * LINE_WRAP
      if candidate_line > total_lines then candidates
      else
        match find_match candidate_line line_map 0 with
        | some c => candidates_loop line_map total_lines line_num fuel (k + 1) (candidates ++ [c])
        | none => candidates_loop line_map total_lines line_num fuel (k + 1) candidates
    else candidates

/-- The array `candidates[0 .. candidate_count)` at the end of the search loop of
`translate_line`. -/
def translate_candidates (line_map : List LineMapping) (total_lines line_num : Int) :
    List MatchCandidate :=
  candidates_loop line_map total_lines line_num 10 0 []

/-- The field `line_map[i].relative`. -/
def relative_at (line_map : List LineMapping) (i : Nat) : List Char :=
  match line_map[i]? with
  | some e => e.relative
  | none => []

/-- The buffer `part` after `snprintf(part, 512, "%s%s:%d", (j > 0) ? " or " : "", ...)`. -/
def render_part (line_map : List LineMapping) (j : Nat) (c : MatchCandidate) : List Char :=
  snprintf 512 ((if j > 0 then or_sep else []) ++ relative_at line_map c.file_index
    ++ ':' :: fmt_d c.original_line)

/-- The loop `for (j = ..; j < candidate_count; j++)` that fills `temp`, entered at `j`. -/
def render_parts (line_map : List LineMapping) :
    List MatchCandidate → Nat → List Char → List Char
  | [], _, temp => temp
  | c :: cs, j, temp =>
    render_parts line_map cs (j + 1)
      (strncat temp (render_part line_map j c) (MAX_LINE - temp.length - 1))

/-- The reporting part of `translate_line`, by the number of candidates. -/
def render_candidates (line_map : List LineMapping) (line_num : Int) (output_size : Nat) :
    List MatchCandidate → List Char
  | [] => snprintf output_size (output_pde_marker ++ fmt_d line_num)
  | [c] =>
    snprintf output_size (relative_at line_map c.file_index ++ ':' :: fmt_d c.original_line)
  | cs =>
    let temp := render_parts line_map cs 0 []
    let temp := strncat temp wrap_flag (MAX_LINE - temp.length - 1)
    snprintf output_size temp

/-- The addresses `(line_map[i].relative, original_line)` of the candidates, in the order
in which the reporting part of `translate_line` prints them. -/
def rendered_addresses (line_map : List LineMapping) (total_lines line_num : Int) :
    List (List Char × Int) :=
  (translate_candidates line_map total_lines line_num).map
    (fun c => (relative_at line_map c.file_index, c.original_line))

/-- The string left in `output` by `translate_line(line_num, output, output_size)`. -/
def translate_line (line_map : List LineMapping) (total_lines line_num : Int)
    (output_size : Nat) : List Char :=
  render_candidates line_map line_num output_size
    (translate_candidates line_map total_lines line_num)

/-! ## Aggregation (the concatenation loop of `main`)

The stream read from a fragment is the list of bytes the C library hands to `fgets`, the
synthetic unit is the list of bytes handed to `fprintf`/`fputs`. `fopen` is the file system:
it gives the content of the file at a path, or `none` when the file cannot be opened. -/

/-- The literal `"//>/>/>"` that starts a header line. -/
def header_mark : List Char := ['/', '/', '>', '/', '>', '/', '>']

/-- The NUL byte. -/
def NUL : Char := Char.ofNat 0

/-- The C string held by a buffer: its bytes before the first NUL. -/
def c_str (buf : List Char) : List Char :=
  buf.takeWhile (fun c => c ≠ NUL)

/-- The bytes `fgets` moves into its buffer when `room` bytes may still be stored: it stops
after a newline, at the end of the stream, or when the room is used up. The second
component is the unread rest of the stream. -/
def fgets_take : Nat → List Char → List Char × List Char
  | 0, s => ([], s)
  | _ + 1, [] => ([], [])
  | room + 1, c :: cs =>
    if c = '\n' then ([c], cs)
    else ((fgets_take room cs).1.cons c, (fgets_take room cs).2)

/-- `fgets(line, size, in)`: `none` (NULL) at the end of the stream, else the bytes stored in
`line` (at most `size - 1`) and the unread rest. -/
def fgets (size : Nat) (s : List Char) : Option (List Char × List Char) :=
  match s with
  | [] => none
  | _ :: _ => some (fgets_take (size - 1) s)

/-- The bytes written by `fputs(line, out)`. -/
def fputs (line : List Char) : List Char := c_str line

/-- The loop `while (fgets(line, sizeof(line), in)) { fputs(line, out); current_line++; }`.
Every turn reads at least one byte, so `fuel = ` the length of the stream lets the loop run
to the end of the stream. -/
def copy_lines : Nat → List Char → List Char → Int → List Char × Int
  | 0, _, out, current_line => (out, current_line)
  | fuel + 1, s, out, current_line =>
    match fgets MAX_LINE s with
    | none => (out, current_line)
    | some (line, rest) => copy_lines fuel rest (out ++ fputs line) (current_line + 1)

/-- The state of the concatenation loop: the bytes written to `out`, the running counter
`current_line`, and the entries of `line_map` filled so far. -/
structure AggState where
  out : List Char
  current_line : Int
  line_map : List LineMapping
  deriving DecidableEq, Repr

/-- One turn of `for (i = 0; i < file_count; i++)` in `main`, for the fragment `f`. -/
def aggregate_file (fopen : List Char → Option (List Char)) (st : AggState) (f : FileEntry) :
    AggState :=
  let start_line := st.current_line + 1
  let out := st.out ++ header_mark ++ f.relative ++ ['\n']
  let current_line := st.current_line + 1
  let copied :=
    match fopen f.path with
    | some content => copy_lines content.length content out current_line
    | none => (out, current_line)
  let end_line := copied.2 - 1
  { out := copied.1 ++ ['\n'],
    current_line := copied.2 + 1,
    line_map := st.line_map ++ [⟨start_line, end_line, f.relative⟩] }

/-- The concatenation loop from a given state. -/
def aggregate_loop (fopen : List Char → Option (List Char)) (files : List FileEntry)
    (st : AggState) : AggState :=
  files.foldl (aggregate_file fopen) st

/-- The result of aggregation: the loop run from `current_line = 1` on an empty unit. -/
def aggregate (fopen : List Char → Option (List Char)) (files : List FileEntry) : AggState :=
  aggregate_loop fopen files ⟨[], 1, []⟩

/-- The value stored in `total_lines` after the loop: `current_line - 1`. -/
def total_lines_of (st : AggState) : Int := st.current_line - 1

/-- The chunks returned by the successive `fgets` calls on a stream (with fuel as in
`copy_lines`). -/
def fgets_chunks : Nat → List Char → List (List Char)
  | 0, _ => []
  | fuel + 1, s =>
    match fgets MAX_LINE s with
    | none => []
    | some (line, rest) => line :: fgets_chunks fuel rest

/-- The number of content lines copied for the fragment `f`: the number of successful
`fgets` calls, none when the file cannot be opened. -/
def lines_copied (fopen : List Char → Option (List Char)) (f : FileEntry) : Nat :=
  match fopen f.path with
  | some content => (fgets_chunks content.length content).length
  | none => 0

/-- The lines of a text, delimited by `'\n'`. -/
def text_lines : List Char → List (List Char)
  | [] => [[]]
  | c :: cs =>
    if c = '\n' then [] :: text_lines cs
    else
      match text_lines cs with
      | [] => [[c]]
      | l :: ls => (c :: l) :: ls

/-- The line numbered `n` (from 1) of a text. -/
def text_line (t : List Char) (n : Int) : Option (List Char) :=
  if n ≤ 0 then none else (text_lines t).get? (n.toNat - 1)

/-! ## `wildcard_match` -/

/-- The C `tolower` in the "C" locale: only `A`..`Z` change. -/
def tolower (c : Char) : Char := c.toLower

/-- The loop `while (*pattern == '*') pattern++;`. -/
def skip_stars : List Char → List Char
  | [] => []
  | p :: ps => if p = '*' then skip_stars ps else p :: ps

/-- The loop `while (*str) { if (wildcard_match(pattern, str)) return 1; str++; } return 0;`
where `m` is `wildcard_match(pattern, ·)` for the pattern behind the star. -/
def star_scan (m : List Char → Bool) : List Char → Bool
  | [] => false
  | c :: cs => if m (c :: cs) then true else star_scan m cs

/-- `wildcard_match(pattern, str) != 0`. A turn of the outer `while (*pattern && *str)` that
advances both pointers is the call on the two tails. -/
def wildcard_match : List Char → List Char → Bool
  | [], [] => true
  | [], _ :: _ => false
  | p :: ps, [] => (skip_stars (p :: ps)).isEmpty
  | p :: ps, c :: cs =>
    if p = '*' then
      if ps.isEmpty then true
      else star_scan (wildcard_match ps) (c :: cs)
    else if p = '?' ∨ tolower p = tolower c then wildcard_match ps cs
    else false

/-- Reference glob relation, from the words of the specification: `GlobMatch p s` holds when
the whole of `s` can be split to match `p`, where `*` takes any (possibly empty) run of
characters, `?` takes exactly one character, and any other pattern character takes one
character equal to it ignoring ASCII case. -/
inductive GlobMatch : List Char → List Char → Prop
  | nil : GlobMatch [] []
  | star (ps run rest : List Char) : GlobMatch ps rest → GlobMatch ('*' :: ps) (run ++ rest)
  | any (ps : List Char) (c : Char) (cs : List Char) :
      GlobMatch ps cs → GlobMatch ('?' :: ps) (c :: cs)
  | lit (p : Char) (ps : List Char) (c : Char) (cs : List Char) :
      p ≠ '*' → p ≠ '?' → tolower p = tolower c → GlobMatch ps cs →
      GlobMatch (p :: ps) (c :: cs)

/-- Equality of two strings ignoring ASCII case. -/
def eq_ignore_case (a b : List Char) : Prop :=
  a.map tolower = b.map tolower

/-! ## `collect_files`

The directory tree is what `FindFirstFile`/`FindNextFile` report: a directory lists its
children in the order of enumeration, each child a file or a directory, and a directory
whose listing is `none` is one that `FindFirstFile` cannot open. The ignore patterns are
the first `ignore_count` entries of `config.ignore_patterns`. -/

/-- A child reported by the enumeration: `cFileName`, the directory attribute, and for a
directory the listing found at its path. -/
inductive Node where
  | file (name : List Char) : Node
  | dir (name : List Char) (listing : Option (List Node)) : Node

/-- The field `cFileName`. -/
def Node.name : Node → List Char
  | .file name => name
  | .dir name _ => name

/-- `_stricmp(s1, s2)`: the difference of the first two lower-cased bytes that differ. -/
def strcasecmp_win : List Char → List Char → Int
  | [], [] => 0
  | [], b :: _ => 0 - ((tolower b).toNat : Int)
  | a :: _, [] => ((tolower a).toNat : Int)
  | a :: as, b :: bs =>
    if tolower a = tolower b then strcasecmp_win as bs
    else ((tolower a).toNat : Int) - ((tolower b).toNat : Int)

/-- `should_ignore(relative_path) != 0`, over the configured patterns. -/
def should_ignore : List (List Char) → List Char → Bool
  | [], _ => false
  | pattern :: patterns, relative_path =>
    if wildcard_match pattern relative_path then true
    else should_ignore patterns relative_path

/-- `ends_with(str, suffix) != 0`. -/
def ends_with (str suffix : List Char) : Bool :=
  if suffix.length > str.length then false
  else strcasecmp_win (str.drop (str.length - suffix.length)) suffix = 0

/-- The literal `"output"`. -/
def output_name : List Char := ['o', 'u', 't', 'p', 'u', 't']

/-- The literal `".pde"`. -/
def pde_suffix : List Char := ['.', 'p', 'd', 'e']

/-- The buffer `full_path` after `snprintf(full_path, .., "%s\\%s", dir_path, cFileName)`. -/
def child_path (dir_path name : List Char) : List Char :=
  snprintf MAX_PATH_LEN (dir_path ++ '\\' :: name)

/-- The buffer `new_relative`: the name alone under the root, else
`"<relative_path>/<name>"`. -/
def child_relative (relative_path name : List Char) : List Char :=
  if relative_path.length = 0 then snprintf MAX_PATH_LEN name
  else snprintf MAX_PATH_LEN (relative_path ++ '/' :: name)

/-- The pair `directories[i]`, `dir_relatives[i]`, with the listing that `FindFirstFile`
finds at that path. -/
structure DirItem where
  path : List Char
  relative : List Char
  listing : Option (List Node)

/-- The number of slots of each per-directory array (`malloc(sizeof(char*) * 1000)`). -/
def DIR_SLOTS : Nat := 1000

/-- The outcome of a collection: the array `files[0 .. file_count)`, or a write past the
end of a per-directory array (undefined in C), or the fuel of the embedding used up. -/
inductive Collected where
  | ok (files : List FileEntry) : Collected
  | overflow : Collected
  | out_of_fuel : Collected
  deriving DecidableEq

/-- One turn of the enumeration loop `do { ... } while (FindNextFile(..))` for the child
`n`: the arrays after the turn, `none` when a write goes past their end. -/
def scan_child (ignore : List (List Char)) (dir_path relative_path : List Char) (n : Node)
    (directories : List DirItem) (pde_files : List FileEntry) :
    Option (List DirItem × List FileEntry) :=
  if n.name = ['.'] ∨ n.name = ['.', '.'] then some (directories, pde_files)
  else
    match n with
    | .dir name listing =>
      if strcasecmp_win name output_name = 0 then some (directories, pde_files)
      else if should_ignore ignore (child_relative relative_path name) then
        some (directories, pde_files)
      else if directories.length < DIR_SLOTS then
        some (directories ++ [⟨child_path dir_path name, child_relative relative_path name,
          listing⟩], pde_files)
      else none
    | .file name =>
      if should_ignore ignore (child_relative relative_path name) then
        some (directories, pde_files)
      else if ends_with name pde_suffix then
        if pde_files.length < DIR_SLOTS then
          some (directories, pde_files ++ [⟨child_path dir_path name,
            child_relative relative_path name⟩])
        else none
      else some (directories, pde_files)

/-- The enumeration loop over the children of a directory. -/
def scan_children (ignore : List (List Char)) (dir_path relative_path : List Char) :
    List Node → List DirItem → List FileEntry → Option (List DirItem × List FileEntry)
  | [], directories, pde_files => some (directories, pde_files)
  | n :: ns, directories, pde_files =>
    match scan_child ignore dir_path relative_path n directories pde_files with
    | none => none
    | some (directories, pde_files) =>
      scan_children ignore dir_path relative_path ns directories pde_files

/-- `strrchr(path, '\\') + 1`: the bytes after the last backslash, `none` when there is no
backslash (`strrchr` gives NULL). -/
def after_last_backslash : List Char → Option (List Char)
  | [] => none
  | c :: cs =>
    match after_last_backslash cs with
    | some name => some name
    | none => if c = '\\' then some cs else none

/-- The swap test of both sorts:
`name_i && name_j && strcasecmp_win(name_i + 1, name_j + 1) > 0`. -/
def name_gt (path_i path_j : List Char) : Bool :=
  match after_last_backslash path_i, after_last_backslash path_j with
  | some name_i, some name_j => strcasecmp_win name_i name_j > 0
  | _, _ => false

/-- The inner loop `for (j = i + 1; j < count; j++)` of a sort, with the element at index
`i` in hand and the elements behind it passed in order: a swap puts the element in hand into
slot `j` and takes the one that was there. The result is the element left at index `i` and
the elements behind it. -/
def sort_pass {α : Type} (gt : α → α → Bool) : α → List α → α × List α
  | x, [] => (x, [])
  | x, y :: ys =>
    if gt x y then ((sort_pass gt y ys).1, x :: (sort_pass gt y ys).2)
    else ((sort_pass gt x ys).1, y :: (sort_pass gt x ys).2)

/-- The outer loop `for (i = ..; i < count - 1; i++)` of a sort with `turns` turns left, on
the elements from index `i` on. -/
def exchange_sort {α : Type} (gt : α → α → Bool) : Nat → List α → List α
  | 0, l => l
  | _ + 1, [] => []
  | turns + 1, x :: xs =>
    (sort_pass gt x xs).1 :: exchange_sort gt turns (sort_pass gt x xs).2

/-- The sort of `directories`/`dir_relatives`. -/
def sort_directories (directories : List DirItem) : List DirItem :=
  exchange_sort (fun a b => name_gt a.path b.path) (directories.length - 1) directories

/-- The sort of `pde_files`/`pde_relatives`. -/
def sort_pde_files (pde_files : List FileEntry) : List FileEntry :=
  exchange_sort (fun a b => name_gt a.path b.path) (pde_files.length - 1) pde_files

/-- The body of `for (i = 0; i < pde_count; i++)`: the file is stored when
`file_count < MAX_FILES`. -/
def add_file (files : List FileEntry) (f : FileEntry) : List FileEntry :=
  if files.length < MAX_FILES then files ++ [f] else files

/-- The loop `for (i = 0; i < dir_count; i++) collect_files(directories[i], ..)`, where
`collect` is `collect_files`. -/
def collect_directories
    (collect : List Char → List Char → Option (List Node) → List FileEntry → Collected) :
    List DirItem → List FileEntry → Collected
  | [], files => Collected.ok files
  | d :: ds, files =>
    match collect d.path d.relative d.listing files with
    | Collected.ok files => collect_directories collect ds files
    | Collected.overflow => Collected.overflow
    | Collected.out_of_fuel => Collected.out_of_fuel

/-- `collect_files(dir_path, relative_path)` on a directory with the given listing, from
the global array `files`; `fuel` bounds the depth of the recursion. -/
def collect_files_fuel (ignore : List (List Char)) :
    Nat → List Char → List Char → Option (List Node) → List FileEntry → Collected
  | 0, _, _, _, _ => Collected.out_of_fuel
  | fuel + 1, dir_path, relative_path, listing, files =>
    match listing with
    | none => Collected.ok files
    | some children =>
      match scan_children ignore dir_path relative_path children [] [] with
      | none => Collected.overflow
      | some (directories, pde_files) =>
        match collect_directories (collect_files_fuel ignore fuel)
            (sort_directories directories) files with
        | Collected.ok files => Collected.ok ((sort_pde_files pde_files).foldl add_file files)
        | Collected.overflow => Collected.overflow
        | Collected.out_of_fuel => Collected.out_of_fuel

mutual
/-- The number of nested calls of `collect_files` that a listing can need. -/
def depth_listing : Option (List Node) → Nat
  | none => 0
  | some children => depth_children children + 1
/-- The largest depth among the children. -/
def depth_children : List Node → Nat
  | [] => 0
  | n :: ns => max (depth_node n) (depth_children ns)
/-- The depth of one child. -/
def depth_node : Node → Nat
  | .file _ => 0
  | .dir _ listing => depth_listing listing
end

/-- `collect_files(dir_path, relative_path)`, with the fuel that the depth of the tree
asks for. -/
def collect_files (ignore : List (List Char)) (dir_path relative_path : List Char)
    (listing : Option (List Node)) (files : List FileEntry) : Collected :=
  collect_files_fuel ignore (depth_listing listing + 1) dir_path relative_path listing files

/-! ## `process_output_line`

`strtol` and `strstr` are the C library functions, modelled from the C standard. A pointer
into the line is the rest of the line from that position on, so two pointers into the same
line are equal exactly when the two rests have the same length. `long` has 32 bits on the
platform the program is written for (Windows), as `int` has. -/

/-- `LONG_MAX` for a 32-bit `long`. -/
def LONG_MAX : Int := 2147483647

/-- `LONG_MIN` for a 32-bit `long`. -/
def LONG_MIN : Int := -2147483648

/-- `isspace(c)` in the C locale: space, `\t`, `\n`, `\v`, `\f`, `\r`. -/
def isspace (c : Char) : Bool :=
  c = ' ' || c = '\t' || c = '\n' || c = Char.ofNat 11 || c = Char.ofNat 12 || c = '\r'

/-- `isdigit(c)`. -/
def isdigit (c : Char) : Bool := c.isDigit

/-- The value of a decimal digit. -/
def digit_value (c : Char) : Nat := c.toNat - 48

/-- The number written by a run of decimal digits. -/
def digits_value (ds : List Char) : Nat :=
  ds.foldl (fun acc c => acc * 10 + digit_value c) 0

/-- `strtol(nptr, &endptr, 10)`: the value returned and `endptr`. White space is skipped,
one sign is accepted, then the longest run of digits is converted; a value out of range
is replaced by `LONG_MAX` or `LONG_MIN`. When no digit is found the value is 0 and
`endptr` is `nptr`. -/
def strtol (nptr : List Char) : Int × List Char :=
  let s := nptr.dropWhile isspace
  let negative := s.head? = some '-'
  let t := if s.head? = some '-' ∨ s.head? = some '+' then s.tail else s
  let ds := t.takeWhile isdigit
  if ds.isEmpty then (0, nptr)
  else
    let v : Int := digits_value ds
    (if negative then max (-v) LONG_MIN else min v LONG_MAX, t.dropWhile isdigit)

/-- Whether the string at `s` begins with the bytes of `needle`. -/
def starts_with : List Char → List Char → Bool
  | [], _ => true
  | _ :: _, [] => false
  | a :: as, b :: bs => a = b && starts_with as bs

/-- `strstr(s, needle)`: `none` is NULL; `some (before, found)` splits `s` at the first
occurrence of `needle`, `found` being the string at the pointer returned. -/
def strstr : List Char → List Char → Option (List Char × List Char)
  | [], needle => if needle.isEmpty then some ([], []) else none
  | c :: cs, needle =>
    if starts_with needle (c :: cs) then some ([], c :: cs)
    else (strstr cs needle).map (fun r => (c :: r.1, r.2))

/-- The block `int col_num = -1; if (*end_ptr == ':') { col_num = strtol(end_ptr + 1,
&col_end, 10); if (col_end != end_ptr + 1) end_ptr = col_end; }`: the values of `col_num`
and `end_ptr` after it. -/
def parse_column (end_ptr : List Char) : Int × List Char :=
  match end_ptr with
  | ':' :: after =>
    let col_num := (strtol after).1
    let col_end := (strtol after).2
    if col_end.length ≠ after.length then (col_num, col_end) else (col_num, end_ptr)
  | _ => (-1, end_ptr)

/-- The loop `while (*end_ptr == ':') { strtol(end_ptr + 1, &skip_end, 10); if (skip_end ==
end_ptr + 1) break; end_ptr = skip_end; }`: the value of `end_ptr` after it. Every turn that
goes on moves `end_ptr` forward, so `fuel = strlen(end_ptr)` lets the loop run to its own
exit. -/
def skip_segments : Nat → List Char → List Char
  | 0, end_ptr => end_ptr
  | fuel + 1, end_ptr =>
    match end_ptr with
    | ':' :: after =>
      let skip_end := (strtol after).2
      if skip_end.length = after.length then end_ptr else skip_segments fuel skip_end
    | _ => end_ptr

/-- The text printed after the translated address: `col_num`, when it is not negative, and
the string at `end_ptr` once the column and the further `:number` segments are passed.
The argument is the pointer set by the `strtol` that read `line_num`. -/
def position_text (end_ptr : List Char) : List Char :=
  let col_num := (parse_column end_ptr).1
  let end_ptr := (parse_column end_ptr).2
  let end_ptr := skip_segments end_ptr.length end_ptr
  (if col_num ≥ 0 then ':' :: fmt_d col_num else []) ++ end_ptr

/-- The text printed once a line number is found: `end_ptr` is the pointer set by the
`strtol` that read `line_num`. `start` is looked up from the beginning of `buffer`, where
the marker occurs since it occurs further on. -/
def print_translated (line_map : List LineMapping) (total_lines : Int) (buffer : List Char)
    (line_num : Int) (end_ptr : List Char) : List Char :=
  let translated := translate_line line_map total_lines line_num MAX_PATH_LEN
  let start := match strstr buffer output_pde_marker with
    | some (before, _) => before
    | none => buffer
  start ++ translated ++ position_text end_ptr

/-- The loop `while ((ptr = strstr(ptr, "output.pde:")) != NULL)` of `process_output_line`,
entered with `ptr`, and the final `printf("%s", line)` when the loop ends without a
translation. The result is the text printed. Every turn moves `ptr` forward by at least 11
bytes, so `fuel = strlen(ptr) + 1` lets the loop run to its own exit. -/
def process_scan (line_map : List LineMapping) (total_lines : Int) (buffer : List Char) :
    Nat → List Char → List Char
  | 0, _ => buffer
  | fuel + 1, ptr =>
    match strstr ptr output_pde_marker with
    | none => buffer
    | some (_, found) =>
      let ptr := found.drop 11
      let line_num := (strtol ptr).1
      let end_ptr := (strtol ptr).2
      if end_ptr.length ≠ ptr.length ∧ line_num > 0 then
        print_translated line_map total_lines buffer line_num end_ptr
      else process_scan line_map total_lines buffer fuel ptr

/-- The text printed by `process_output_line(line)`. The copy `strcpy(buffer, line)` is
taken to fit: the callers pass a string of fewer than `MAX_LINE` bytes. -/
def process_output_line (line_map : List LineMapping) (total_lines : Int)
    (line : List Char) : List Char :=
  process_scan line_map total_lines line (line.length + 1) line

/-! ## Stream reassembly (the chunk loops and the final flush of `main`) -/

/-- The state of one stream: the bytes `line_buffer[0 .. pos)` and the text printed so
far. -/
structure Reassembly where
  line_buffer : List Char
  emitted : List Char
  deriving DecidableEq, Repr

/-- One turn of `for (DWORD i = 0; i < bytes_read; i++)` on the byte `ch`. -/
def reassemble_byte (line_map : List LineMapping) (total_lines : Int) (st : Reassembly)
    (ch : Char) : Reassembly :=
  if ch = '\n' ∨ ch = '\r' then
    if st.line_buffer.length > 0 then
      { line_buffer := [],
        emitted := st.emitted
          ++ process_output_line line_map total_lines (c_str st.line_buffer) ++ ['\n'] }
    else st
  else if st.line_buffer.length < MAX_LINE - 1 then
    { st with line_buffer := st.line_buffer ++ [ch] }
  else st

/-- The loop over the bytes of one chunk handed back by `ReadFile`. -/
def feed_chunk (line_map : List LineMapping) (total_lines : Int) (st : Reassembly)
    (chunk : List Char) : Reassembly :=
  chunk.foldl (reassemble_byte line_map total_lines) st

/-- The chunks of one stream fed in the order in which they are read. -/
def feed_chunks (line_map : List LineMapping) (total_lines : Int) (st : Reassembly)
    (chunks : List (List Char)) : Reassembly :=
  chunks.foldl (feed_chunk line_map total_lines) st

/-- The block `if (pos > 0) { line_buffer[pos] = 0; process_output_line(line_buffer);
printf("\n"); }` after the loops. -/
def final_flush (line_map : List LineMapping) (total_lines : Int) (st : Reassembly) :
    Reassembly :=
  if st.line_buffer.length > 0 then
    { st with emitted := st.emitted
        ++ process_output_line line_map total_lines (c_str st.line_buffer) ++ ['\n'] }
  else st

/-! ## `wildcard_match` with its recursion made explicit -/

/-- The inner loop of `wildcard_match` over a callee `m` that may fail to return. -/
def star_scan_fuel (m : List Char → Option Int) : List Char → Option Int
  | [] => some 0
  | c :: cs =>
    match m (c :: cs) with
    | none => none
    | some r => if r ≠ 0 then some 1 else star_scan_fuel m cs

/-- The value returned by `wildcard_match(pattern, str)` when at most `fuel` steps (turns of
the outer loop and nested calls) lie on any path of the computation; `none` when a path
needs more. -/
def wildcard_match_fuel : Nat → List Char → List Char → Option Int
  | 0, _, _ => none
  | fuel + 1, pattern, str =>
    match pattern, str with
    | p :: ps, c :: cs =>
      if p = '*' then
        if ps.isEmpty then some 1
        else star_scan_fuel (wildcard_match_fuel fuel ps) (c :: cs)
      else if p = '?' ∨ tolower p = tolower c then wildcard_match_fuel fuel ps cs
      else some 0
    | pattern, str =>
      some (if (skip_stars pattern).isEmpty ∧ str.isEmpty then 1 else 0)

/-- The arguments of the calls made by the inner loop `while (*str) { if
(wildcard_match(pattern, str)) return 1; str++; }`, in order. -/
def star_calls (pattern : List Char) : List Char → List (List Char × List Char)
  | [] => []
  | c :: cs =>
    (pattern, c :: cs) ::
      (if wildcard_match pattern (c :: cs) then [] else star_calls pattern cs)

/-- The arguments of the recursive calls made directly by one call
`wildcard_match(pattern, str)`, in order. -/
def wildcard_calls : List Char → List Char → List (List Char × List Char)
  | p :: ps, c :: cs =>
    if p = '*' then
      if ps.isEmpty then [] else star_calls ps (c :: cs)
    else if p = '?' ∨ tolower p = tolower c then wildcard_calls ps cs
    else []
  | _, _ => []

/-! ## The search loop of `translate_line` with its array bound and its arithmetic -/

/-- The search loop of `translate_line` over the array `MatchCandidate candidates[10]`:
`none` when a write to `candidates[candidate_count]` is at an index that is not below 10,
else the array at the end of the loop. -/
def candidates_loop_checked (line_map : List LineMapping) (total_lines line_num : Int) :
    Nat → Nat → List MatchCandidate → Option (List MatchCandidate)
  | 0, _, candidates => some candidates
  | fuel + 1, k, candidates =>
    if (k : Int) * LINE_WRAP < total_lines ∧ k < 10 then
      let candidate_line := line_num + (k : Int) * LINE_WRAP
      if candidate_line > total_lines then some candidates
      else
        match find_match candidate_line line_map 0 with
        | some c =>
          if candidates.length < 10 then
            candidates_loop_checked line_map total_lines line_num fuel (k + 1)
              (candidates ++ [c])
          else none
        | none => candidates_loop_checked line_map total_lines line_num fuel (k + 1) candidates
    else some candidates

/-- The values of `k * LINE_WRAP` that the search loop evaluates from turn `k` on: one in
every test of the loop condition (the body evaluates the same product again). The test is
made at most eleven times, the last one at `k = 10`, so `fuel = 11` lets the loop run to its
own exit. -/
def loop_products (total_lines line_num : Int) : Nat → Nat → List Int
  | 0, _ => []
  | fuel + 1, k =>
    (k : Int) * LINE_WRAP ::
      (if (k : Int) * LINE_WRAP < total_lines ∧ k < 10 then
        if line_num + (k : Int) * LINE_WRAP > total_lines then []
        else loop_products total_lines line_num fuel (k + 1)
      else [])

/-- The values of `line_num + (k * LINE_WRAP)` that the search loop evaluates from turn `k`
on, each with its `k`. -/
def loop_sums (total_lines line_num : Int) : Nat → Nat → List (Nat × Int)
  | 0, _ => []
  | fuel + 1, k =>
    if (k : Int) * LINE_WRAP < total_lines ∧ k < 10 then
      (k, line_num + (k : Int) * LINE_WRAP) ::
        (if line_num + (k : Int) * LINE_WRAP > total_lines then []
        else loop_sums total_lines line_num fuel (k + 1))
    else []

/-! ## The calls made by the stream reassembly -/

/-- The state of one stream with the calls made so far: the bytes `line_buffer[0 .. pos)`
and the strings handed to `process_output_line`, in order. -/
structure CallTrace where
  line_buffer : List Char
  calls : List (List Char)
  deriving DecidableEq, Repr

/-- One turn of `for (DWORD i = 0; i < bytes_read; i++)` on the byte `ch`, recording the
call `process_output_line(line_buffer)` instead of what it prints. -/
def trace_byte (st : CallTrace) (ch : Char) : CallTrace :=
  if ch = '\n' ∨ ch = '\r' then
    if st.line_buffer.length > 0 then
      { line_buffer := [], calls := st.calls ++ [c_str st.line_buffer] }
    else st
  else if st.line_buffer.length < MAX_LINE - 1 then
    { st with line_buffer := st.line_buffer ++ [ch] }
  else st

/-- The loop over the bytes of one chunk, recording the calls. -/
def trace_chunk (st : CallTrace) (chunk : List Char) : CallTrace :=
  chunk.foldl trace_byte st

/-- The final flush, recording the call. -/
def trace_flush (st : CallTrace) : CallTrace :=
  if st.line_buffer.length > 0 then
    { st with calls := st.calls ++ [c_str st.line_buffer] }
  else st

/-! ## Auxiliary definitions used in the statements and proofs -/

/-- Two line map entries share no line. -/
def ranges_disjoint (a b : LineMapping) : Prop :=
  ∀ L : Int, ¬ (in_range a L ∧ in_range b L)

/-- The ranges of a line map are pairwise disjoint. -/
def disjoint_map (line_map : List LineMapping) : Prop :=
  line_map.Pairwise ranges_disjoint

/-- What turn `k` of the search loop of `translate_line` records when it is reached: the
turn is reached exactly when its own guard and its own break test pass, because both
tests, once failed, fail for every later `k`. -/
def turn_candidate (line_map : List LineMapping) (total_lines line_num : Int) (k : Nat) :
    Option MatchCandidate :=
  if (k : Int) * LINE_WRAP < total_lines ∧ k < 10 ∧ line_num + (k : Int) * LINE_WRAP ≤ total_lines
  then find_match (line_num + (k : Int) * LINE_WRAP) line_map 0
  else none

/-- A relative path of 4095 bytes, the longest that `char relative[MAX_PATH_LEN]` holds. -/
def long_relative : List Char := List.replicate 4095 'a'

/-- A relative path of 600 bytes. -/
def long_name : List Char := List.replicate 600 'a'

/-- The text `"<relative>:<n>"` of one address. -/
def address_text (relative : List Char) (n : Int) : List Char :=
  relative ++ ':' :: fmt_d n

/-- The line map entries written by the concatenation loop when it is entered with
`current_line = c`, in closed form. -/
def entries_from (fopen : List Char → Option (List Char)) : Int → List FileEntry →
    List LineMapping
  | _, [] => []
  | c, f :: fs =>
    ⟨c + 1, c + lines_copied fopen f, f.relative⟩
      :: entries_from fopen (c + lines_copied fopen f + 2) fs

/-- The value of `current_line` when the concatenation loop, entered with
`current_line = c`, ends. -/
def final_line (fopen : List Char → Option (List Char)) : Int → List FileEntry → Int
  | c, [] => c
  | c, f :: fs => final_line fopen (c + lines_copied fopen f + 2) fs

/-- The footprint (header, content, separator) of `a` lies wholly before that of `b`. -/
def footprint_before (a b : LineMapping) : Prop :=
  a.end_line + 1 < b.start_line - 1

/-- The text made of the given lines, each followed by a newline. -/
def unlines (ls : List (List Char)) : List Char :=
  (ls.map (fun l => l ++ ['\n'])).flatten

/-- A line that one `fgets` call reads whole and `fputs` writes whole: no newline and no
NUL inside, and room for it and its newline in the `MAX_LINE` buffer. -/
def good_line (l : List Char) : Prop :=
  '\n' ∉ l ∧ NUL ∉ l ∧ l.length + 1 ≤ MAX_LINE - 1

/-- The lines that the concatenation loop writes for one fragment whose content is made of
the lines `content_lines f`: the header, the content, the blank separator. -/
def block_lines (content_lines : FileEntry → List (List Char)) (f : FileEntry) :
    List (List Char) :=
  (header_mark ++ f.relative) :: (content_lines f ++ [[]])

/-- The file system of the example runs: `"1"` holds `a` without a final newline, `"2"`
holds `b` and a newline, nothing else can be opened. -/
def example_fopen (path : List Char) : Option (List Char) :=
  if path = ['1'] then some ['a']
  else if path = ['2'] then some ['b', '\n']
  else none

/-- The same file system with a final newline in both files. -/
def terminated_fopen (path : List Char) : Option (List Char) :=
  if path = ['1'] then some ['a', '\n']
  else if path = ['2'] then some ['b', '\n']
  else none

/-- The lines of the files of `terminated_fopen`. -/
def terminated_lines (f : FileEntry) : List (List Char) :=
  if f.path = ['1'] then [['a']] else [['b']]

/-- The fragments of the example runs. -/
def example_files : List FileEntry :=
  [⟨['1'], ['f', '1']⟩, ⟨['2'], ['f', '2']⟩]

/-- A file of the tree with where it lies: its name, full path and relative path, and the
name and relative path of every directory above it, from the root down. -/
structure Located where
  name : List Char
  path : List Char
  relative : List Char
  above : List (List Char × List Char)
  deriving DecidableEq

mutual
/-- The files beneath a directory with the given listing. -/
def located_listing (dir_path relative_path : List Char)
    (above : List (List Char × List Char)) : Option (List Node) → List Located
  | none => []
  | some children => located_children dir_path relative_path above children
/-- The files beneath the given children. -/
def located_children (dir_path relative_path : List Char)
    (above : List (List Char × List Char)) : List Node → List Located
  | [] => []
  | n :: ns =>
    located_node dir_path relative_path above n
      ++ located_children dir_path relative_path above ns
/-- The files at or beneath one child. The entries `.` and `..` stand for the directory
itself and its parent: nothing lies beneath them. -/
def located_node (dir_path relative_path : List Char)
    (above : List (List Char × List Char)) : Node → List Located
  | .file name =>
    [⟨name, child_path dir_path name, child_relative relative_path name, above⟩]
  | .dir name listing =>
    if name = ['.'] ∨ name = ['.', '.'] then []
    else
      located_listing (child_path dir_path name) (child_relative relative_path name)
        (above ++ [(name, child_relative relative_path name)]) listing
end

/-- The pair stored in `files[]` for a file. -/
def Located.entry (loc : Located) : FileEntry := ⟨loc.path, loc.relative⟩

/-- No directory of the chain is called `output` (ignoring case) or has an ignored relative
path. -/
def chain_clean (ignore : List (List Char)) (above : List (List Char × List Char)) : Bool :=
  above.all (fun d => !(decide (strcasecmp_win d.1 output_name = 0))
    && !(should_ignore ignore d.2))

/-- A `.pde` file (extension compared ignoring case) whose relative path is not ignored and
that lies beneath no ignored directory and beneath no directory called `output`, the name
compared ignoring case. -/
def eligible (ignore : List (List Char)) (loc : Located) : Bool :=
  ends_with loc.name pde_suffix && !(should_ignore ignore loc.relative)
    && chain_clean ignore loc.above

/-- The same with the directory name compared exactly: no directory above is named
`output`. -/
def eligible_exact_name (ignore : List (List Char)) (loc : Located) : Bool :=
  ends_with loc.name pde_suffix && !(should_ignore ignore loc.relative)
    && loc.above.all (fun d => !(decide (d.1 = output_name)) && !(should_ignore ignore d.2))

/-- The entry that a turn of the enumeration loop adds to `directories`, if any. -/
def dir_item (ignore : List (List Char)) (dir_path relative_path : List Char) :
    Node → Option DirItem
  | .file _ => none
  | .dir name listing =>
    if name = ['.'] ∨ name = ['.', '.'] then none
    else if strcasecmp_win name output_name = 0 then none
    else if should_ignore ignore (child_relative relative_path name) then none
    else some ⟨child_path dir_path name, child_relative relative_path name, listing⟩

/-- The entry that a turn of the enumeration loop adds to `pde_files`, if any. -/
def pde_item (ignore : List (List Char)) (dir_path relative_path : List Char) :
    Node → Option FileEntry
  | .dir _ _ => none
  | .file name =>
    if name = ['.'] ∨ name = ['.', '.'] then none
    else if should_ignore ignore (child_relative relative_path name) then none
    else if ends_with name pde_suffix then
      some ⟨child_path dir_path name, child_relative relative_path name⟩
    else none

mutual
/-- The eligible files beneath a directory, in the order of enumeration. -/
def eligible_listing (ignore : List (List Char)) (dir_path relative_path : List Char) :
    Option (List Node) → List FileEntry
  | none => []
  | some children => eligible_children ignore dir_path relative_path children
/-- The eligible files beneath the given children. -/
def eligible_children (ignore : List (List Char)) (dir_path relative_path : List Char) :
    List Node → List FileEntry
  | [] => []
  | n :: ns =>
    eligible_node ignore dir_path relative_path n
      ++ eligible_children ignore dir_path relative_path ns
/-- The eligible files at or beneath one child. -/
def eligible_node (ignore : List (List Char)) (dir_path relative_path : List Char) :
    Node → List FileEntry
  | .file name =>
    if name = ['.'] ∨ name = ['.', '.'] then []
    else if should_ignore ignore (child_relative relative_path name) then []
    else if ends_with name pde_suffix then
      [⟨child_path dir_path name, child_relative relative_path name⟩]
    else []
  | .dir name listing =>
    if name = ['.'] ∨ name = ['.', '.'] then []
    else if strcasecmp_win name output_name = 0 then []
    else if should_ignore ignore (child_relative relative_path name) then []
    else
      eligible_listing ignore (child_path dir_path name) (child_relative relative_path name)
        listing
end

mutual
/-- No directory of the tree lists more children than a per-directory array has slots. -/
def small_listing : Option (List Node) → Bool
  | none => true
  | some children => decide (children.length ≤ DIR_SLOTS) && small_children children
/-- The same for every child. -/
def small_children : List Node → Bool
  | [] => true
  | n :: ns => small_node n && small_children ns
/-- The same for one child. -/
def small_node : Node → Bool
  | .file _ => true
  | .dir _ listing => small_listing listing
end

/-- The tree of the example runs: `b.pde`, an ignored `lib`, `Zed` with two sketches and a
note, and `Output` with a sketch. -/
def example_tree : Option (List Node) :=
  some [.file ['b', '.', 'p', 'd', 'e'],
    .dir ['l', 'i', 'b'] (some [.file ['x', '.', 'p', 'd', 'e']]),
    .dir ['Z', 'e', 'd'] (some [.file ['q', '.', 'P', 'D', 'E'],
      .file ['a', '.', 'p', 'd', 'e'], .file ['n', '.', 't', 'x', 't']]),
    .dir ['O', 'u', 't', 'p', 'u', 't'] (some [.file ['o', '.', 'p', 'd', 'e']])]

/-- A tree whose only sketch lies beneath a directory called `Output`. -/
def capital_output_tree : Option (List Node) :=
  some [.dir ['O', 'u', 't', 'p', 'u', 't'] (some [.file ['a', '.', 'p', 'd', 'e']])]

/-- The sketch of `capital_output_tree`, under the root `C:`. -/
def capital_output_sketch : Located :=
  ⟨['a', '.', 'p', 'd', 'e'],
    ['C', ':', '\\', 'O', 'u', 't', 'p', 'u', 't', '\\', 'a', '.', 'p', 'd', 'e'],
    ['O', 'u', 't', 'p', 'u', 't', '/', 'a', '.', 'p', 'd', 'e'],
    [(['O', 'u', 't', 'p', 'u', 't'], ['O', 'u', 't', 'p', 'u', 't'])]⟩

/-- The listing found at a child: a file has none. -/
def Node.listing : Node → Option (List Node)
  | .file _ => none
  | .dir _ listing => listing

/-- The pair `directories[i]`, `dir_relatives[i]` made for the child `n` of the directory
at `dir_path`, with the listing found there. -/
def child_item (dir_path relative_path : List Char) (n : Node) : DirItem :=
  ⟨child_path dir_path n.name, child_relative relative_path n.name, n.listing⟩

/-- The pair `pde_files[i]`, `pde_relatives[i]` made for the child `n`. -/
def child_entry (dir_path relative_path : List Char) (n : Node) : FileEntry :=
  ⟨child_path dir_path n.name, child_relative relative_path n.name⟩

/-- A subdirectory that the enumeration loop keeps: a directory other than `.` and `..`
that is not called `output` (ignoring case) and whose relative path no pattern matches. -/
def kept_directory (ignore : List (List Char)) (relative_path : List Char) : Node → Bool
  | .file _ => false
  | .dir name _ =>
    !(decide (name = ['.'] ∨ name = ['.', '.']))
      && !(decide (strcasecmp_win name output_name = 0))
      && !(should_ignore ignore (child_relative relative_path name))

/-- A file of the directory itself that the enumeration loop keeps: a file whose relative
path no pattern matches and whose name ends with `.pde` (ignoring case). -/
def own_file (ignore : List (List Char)) (relative_path : List Char) : Node → Bool
  | .dir _ _ => false
  | .file name =>
    !(decide (name = ['.'] ∨ name = ['.', '.']))
      && !(should_ignore ignore (child_relative relative_path name))
      && ends_with name pde_suffix

/-- A name that the enumeration can report for a child of the directory at `dir_path`: a
C string (no NUL byte) that holds no backslash and whose path fits in the buffer
`full_path`. -/
def valid_name (dir_path name : List Char) : Bool :=
  decide (NUL ∉ name) && decide ('\\' ∉ name)
    && decide ((dir_path ++ '\\' :: name).length ≤ MAX_PATH_LEN - 1)

/-- Ascending order of names as `strcasecmp_win` compares them. -/
def name_le (a b : Node) : Prop := strcasecmp_win a.name b.name ≤ 0

/-- The exchange sort of `collect_files` seen on the children themselves: it compares the
names found behind the last backslash of the children's paths. -/
def sort_children (dir_path : List Char) (l : List Node) : List Node :=
  exchange_sort (fun a b => name_gt (child_path dir_path a.name) (child_path dir_path b.name))
    (l.length - 1) l

mutual
/-- Every name of the tree is valid where it lies. -/
def valid_listing (dir_path : List Char) : Option (List Node) → Bool
  | none => true
  | some children => valid_children dir_path children
/-- The same for the given children of the directory at `dir_path`. -/
def valid_children (dir_path : List Char) : List Node → Bool
  | [] => true
  | n :: ns => valid_node dir_path n && valid_children dir_path ns
/-- The same for one child and what lies beneath it. -/
def valid_node (dir_path : List Char) : Node → Bool
  | .file name => valid_name dir_path name
  | .dir name listing =>
    valid_name dir_path name && valid_listing (child_path dir_path name) listing
end

mutual
/-- In every directory of the tree the names of the children are pairwise distinct
ignoring case. -/
def distinct_listing : Option (List Node) → Bool
  | none => true
  | some children => distinct_children children
/-- The same for the given children. -/
def distinct_children : List Node → Bool
  | [] => true
  | n :: ns =>
    ns.all (fun m => decide (strcasecmp_win n.name m.name ≠ 0))
      && distinct_node n && distinct_children ns
/-- The same beneath one child. -/
def distinct_node : Node → Bool
  | .file _ => true
  | .dir _ listing => distinct_listing listing
end

mutual
/-- The second listing is the first one enumerated in another order: its children are a
permutation of children that are, one by one, the children of the first in another order
of enumeration. -/
def shuffled_listing : Option (List Node) → Option (List Node) → Prop
  | none, none => True
  | none, some _ => False
  | some _, none => False
  | some children, some children2 =>
    ∃ l : List Node, l.Perm children2 ∧ shuffled_children children l
/-- The children are, one by one, the same in another order of enumeration. -/
def shuffled_children : List Node → List Node → Prop
  | [], [] => True
  | [], _ :: _ => False
  | _ :: _, [] => False
  | n :: ns, m :: ms => shuffled_node n m ∧ shuffled_children ns ms
/-- The same file, or the same directory with its listing in another order. -/
def shuffled_node : Node → Node → Prop
  | .file name, .file name2 => name = name2
  | .file _, .dir _ _ => False
  | .dir _ _, .file _ => False
  | .dir name listing, .dir name2 listing2 =>
    name = name2 ∧ shuffled_listing listing listing2
end

/-- Strictly ascending order of names as `strcasecmp_win` compares them. -/
def name_lt (a b : Node) : Prop := strcasecmp_win a.name b.name < 0

/-- Names that differ when case is ignored. -/
def name_ne (a b : Node) : Prop := strcasecmp_win a.name b.name ≠ 0

/-- The children of the directory of the ordering examples: two sketches and the
subdirectories `Zed` and `abc`. -/
def order_children : List Node :=
  [.file ['b', '.', 'p', 'd', 'e'],
    .dir ['Z', 'e', 'd'] (some [.file ['q', '.', 'P', 'D', 'E'],
      .file ['a', '.', 'p', 'd', 'e']]),
    .dir ['a', 'b', 'c'] (some [.file ['z', '.', 'p', 'd', 'e']]),
    .file ['A', '.', 'p', 'd', 'e']]

/-- The sequence collected from `order_children` under the root `C:`. -/
def order_sequence : List FileEntry :=
  [⟨"C:\\abc\\z.pde".toList, "abc/z.pde".toList⟩,
    ⟨"C:\\Zed\\a.pde".toList, "Zed/a.pde".toList⟩,
    ⟨"C:\\Zed\\q.PDE".toList, "Zed/q.PDE".toList⟩,
    ⟨"C:\\A.pde".toList, "A.pde".toList⟩,
    ⟨"C:\\b.pde".toList, "b.pde".toList⟩]

/-- A tree with sketches `b.pde` and `c.pde` and the subdirectory `Zed`. -/
def shuffle_tree : Option (List Node) :=
  some [.file ['b', '.', 'p', 'd', 'e'],
    .dir ['Z', 'e', 'd'] (some [.file ['q', '.', 'P', 'D', 'E'],
      .file ['a', '.', 'p', 'd', 'e']]),
    .file ['c', '.', 'p', 'd', 'e']]

/-- The tree `shuffle_tree` enumerated in another order, in both directories. -/
def shuffle_tree_other : Option (List Node) :=
  some [.dir ['Z', 'e', 'd'] (some [.file ['a', '.', 'p', 'd', 'e'],
      .file ['q', '.', 'P', 'D', 'E']]),
    .file ['c', '.', 'p', 'd', 'e'],
    .file ['b', '.', 'p', 'd', 'e']]

/-- A directory with the sketch `b.pde` and a subdirectory `output` that holds the sketch
`a.pde`. -/
def output_dir_children : List Node :=
  [.dir output_name (some [.file ['a', '.', 'p', 'd', 'e']]),
    .file ['b', '.', 'p', 'd', 'e']]

/-- A listing of the 1000 sketches `0.pde`, `1.pde`, ... `999.pde`. -/
def thousand_sketches : List Node :=
  (List.range 1000).map (fun (i : Nat) => Node.file (fmt_d (i : Int) ++ pde_suffix))

/-- The eleven subdirectories `d0`, `d1`, ... `d10`, each listing `thousand_sketches`. -/
def eleven_directories : List Node :=
  (List.range 11).map (fun (j : Nat) => Node.dir ('d' :: fmt_d (j : Int)) (some thousand_sketches))

/-- A byte that ends a line for the reassembly: `\n` or `\r`. -/
def is_terminator (c : Char) : Bool := c = '\n' || c = '\r'

/-- The maximal non-empty runs of non-terminator bytes of a stream, in order: the pieces
between the terminators, without the empty ones. -/
def byte_runs (stream : List Char) : List (List Char) :=
  (stream.splitOnP is_terminator).filter (fun run => !run.isEmpty)

/-- The text printed for the given calls of `process_output_line`, each followed by the
`printf("\n")`. -/
def printed (line_map : List LineMapping) (total_lines : Int) (calls : List (List Char)) :
    List Char :=
  (calls.map (fun line => process_output_line line_map total_lines line ++ ['\n'])).flatten

/-- A logical line of 8200 bytes. -/
def long_line : List Char := List.replicate 8200 'x'

/-- The uncapped collection that C22 speaks of: `collect_files` with the test
`file_count < MAX_FILES` left out, so that every file of `pde_files` is stored. -/
def collect_uncapped_fuel (ignore : List (List Char)) :
    Nat → List Char → List Char → Option (List Node) → List FileEntry → Collected
  | 0, _, _, _, _ => Collected.out_of_fuel
  | fuel + 1, dir_path, relative_path, listing, files =>
    match listing with
    | none => Collected.ok files
    | some children =>
      match scan_children ignore dir_path relative_path children [] [] with
      | none => Collected.overflow
      | some (directories, pde_files) =>
        match collect_directories (collect_uncapped_fuel ignore fuel)
            (sort_directories directories) files with
        | Collected.ok files => Collected.ok (files ++ sort_pde_files pde_files)
        | Collected.overflow => Collected.overflow
        | Collected.out_of_fuel => Collected.out_of_fuel

/-- The uncapped collection with the fuel that the depth of the tree asks for. -/
def collect_uncapped (ignore : List (List Char)) (dir_path relative_path : List Char)
    (listing : Option (List Node)) (files : List FileEntry) : Collected :=
  collect_uncapped_fuel ignore (depth_listing listing + 1) dir_path relative_path listing files

/-- A directory that lists the 10001 sketches `0.pde`, `1.pde`, ... `10000.pde`. -/
def crowded_directory : List Node :=
  (List.range 10001).map (fun (i : Nat) => Node.file (fmt_d (i : Int) ++ pde_suffix))

end Foldcessing

/-! # Theorems -/

namespace Foldcessing

/-! ## The search loop of `translate_line` -/

theorem find_match_none_iff (c : Int) (lm : List LineMapping) (i : Nat) :
    find_match c lm i = none ↔ ∀ e ∈ lm, ¬ in_range e c := by
  induction lm generalizing i with
  | nil => simp [find_match]
  | cons e es ih =>
    unfold find_match
    by_cases h : in_range e c
    · simp [h]
    · simp [h, ih]

theorem find_match_some (c : Int) (lm : List LineMapping) (i : Nat) (m : MatchCandidate)
    (h : find_match c lm i = some m) :
    ∃ e, lm[m.file_index - i]? = some e ∧ i ≤ m.file_index ∧ in_range e c ∧
      m.actual_line = c ∧ m.original_line = c - e.start_line + 1 := by
  induction lm generalizing i with
  | nil => simp [find_match] at h
  | cons e es ih =>
    unfold find_match at h
    by_cases hr : in_range e c
    · simp [hr] at h
      subst h
      exact ⟨e, by simp, le_refl _, hr, rfl, rfl⟩
    · simp [hr] at h
      obtain ⟨e', h1, h2, h3, h4, h5⟩ := ih (i + 1) h
      refine ⟨e', ?_, by omega, h3, h4, h5⟩
      have : m.file_index - i = (m.file_index - (i + 1)) + 1 := by omega
      rw [this]
      simpa using h1

theorem find_match_of_disjoint (c : Int) (lm : List LineMapping) (i0 i : Nat) (e : LineMapping)
    (hd : disjoint_map lm) (hi : lm[i]? = some e) (hr : in_range e c) :
    find_match c lm i0 = some ⟨i0 + i, c, c - e.start_line + 1⟩ := by
  induction lm generalizing i0 i with
  | nil => simp at hi
  | cons a as ih =>
    unfold disjoint_map at hd
    rw [List.pairwise_cons] at hd
    unfold find_match
    cases i with
    | zero =>
      simp at hi
      subst hi
      simp [hr]
    | succ j =>
      simp at hi
      have hmem : e ∈ as := List.getElem?_mem hi
      have hna : ¬ in_range a c := fun ha => hd.1 e hmem c ⟨ha, hr⟩
      simp only [hna, if_false]
      have := ih (i0 + 1) j hd.2 hi
      rw [this]
      congr 2
      omega

theorem turn_candidate_none_of_le (lm : List LineMapping) (total r : Int) (k k' : Nat)
    (hk : ¬ ((k : Int) * LINE_WRAP < total ∧ k < 10 ∧ r + (k : Int) * LINE_WRAP ≤ total))
    (hle : k ≤ k') : turn_candidate lm total r k' = none := by
  unfold turn_candidate
  have hw : LINE_WRAP = 65536 := rfl
  rw [hw] at hk ⊢
  have hle' : (k : Int) ≤ (k' : Int) := by exact_mod_cast hle
  rw [if_neg]
  intro h
  apply hk
  refine ⟨by omega, by omega, by omega⟩

theorem candidates_loop_eq (lm : List LineMapping) (total r : Int) (fuel k : Nat)
    (acc : List MatchCandidate) :
    candidates_loop lm total r fuel k acc
      = acc ++ (List.range' k fuel).filterMap (turn_candidate lm total r) := by
  induction fuel generalizing k acc with
  | zero => simp [candidates_loop]
  | succ fuel ih =>
    have hnone : ∀ (hk : ¬ ((k : Int) * LINE_WRAP < total ∧ k < 10 ∧
        r + (k : Int) * LINE_WRAP ≤ total)),
        (List.range' k (fuel + 1)).filterMap (turn_candidate lm total r) = [] := by
      intro hk
      rw [List.filterMap_eq_nil_iff]
      intro k' hk'
      rw [List.mem_range'_1] at hk'
      exact turn_candidate_none_of_le lm total r k k' hk hk'.1
    unfold candidates_loop
    by_cases hg : (k : Int) * LINE_WRAP < total ∧ k < 10
    · by_cases hb : r + (k : Int) * LINE_WRAP > total
      · simp only [hg, and_self, if_true, hb]
        rw [hnone (by intro h; omega)]
        simp
      · have hturn : turn_candidate lm total r k = find_match (r + (k : Int) * LINE_WRAP) lm 0 := by
          unfold turn_candidate
          rw [if_pos ⟨hg.1, hg.2, by omega⟩]
        simp only [hg, and_self, if_true, hb, if_false]
        rw [List.range'_succ, List.filterMap_cons, hturn]
        cases hf : find_match (r + (k : Int) * LINE_WRAP) lm 0 with
        | none => simp [ih]
        | some c => simp [ih]
    · rw [if_neg hg, hnone (by intro h; exact hg ⟨h.1, h.2.1⟩)]
      simp

theorem translate_candidates_eq (lm : List LineMapping) (total r : Int) :
    translate_candidates lm total r
      = (List.range 10).filterMap (turn_candidate lm total r) := by
  unfold translate_candidates
  rw [candidates_loop_eq, List.range_eq_range']
  simp

/-- More fuel changes nothing: with `fuel = 10` the search loop has run to its own exit. -/
theorem candidates_loop_fuel (lm : List LineMapping) (total r : Int) (more : Nat) :
    candidates_loop lm total r (10 + more) 0 [] = translate_candidates lm total r := by
  unfold translate_candidates
  have hsplit : List.range' 0 (10 + more) = List.range' 0 10 ++ List.range' (0 + 10) more := by
    rw [Nat.add_comm 10 more]
    exact (List.range'_append_1 0 10 more).symm
  rw [candidates_loop_eq, candidates_loop_eq, hsplit, List.filterMap_append]
  have : (List.range' (0 + 10) more).filterMap (turn_candidate lm total r) = [] := by
    rw [List.filterMap_eq_nil_iff]
    intro k hk
    rw [List.mem_range'_1] at hk
    unfold turn_candidate
    rw [if_neg]
    intro h
    omega
  rw [this]
  simp

/-! ## Text of `%d` and of the bounded buffers -/

theorem fmt_d_length_le (n : Int) (e : Nat) (he : 0 < e) (h : n.natAbs < 10 ^ e) :
    (fmt_d n).length ≤ e + 1 := by
  have key : ∀ m : Nat, m < 10 ^ e → (Nat.toDigits 10 m).length ≤ e := fun m hm =>
    Nat.toDigitsCore_length 10 (by decide) (m + 1) m e hm he
  unfold fmt_d
  split
  · simp only [List.length_cons]
    exact Nat.succ_le_succ (key _ h)
  · have : n.toNat = n.natAbs := by omega
    rw [this]
    exact Nat.le_succ_of_le (key _ h)

theorem snprintf_of_fits (size : Nat) (s : List Char) (h : s.length ≤ size - 1) :
    snprintf size s = s := by
  unfold snprintf
  exact List.take_of_length_le h

theorem snprintf_length_le (size : Nat) (s : List Char) :
    (snprintf size s).length ≤ size - 1 := by
  unfold snprintf
  simp

theorem strncat_of_fits (dst src : List Char) (n : Nat) (h : src.length ≤ n) :
    strncat dst src n = dst ++ src := by
  unfold strncat
  rw [List.take_of_length_le h]

theorem translate_line_length_le (lm : List LineMapping) (total r : Int) (size : Nat) :
    (translate_line lm total r size).length ≤ size - 1 := by
  unfold translate_line
  generalize translate_candidates lm total r = cs
  match cs with
  | [] => exact snprintf_length_le _ _
  | [c] => exact snprintf_length_le _ _
  | c :: d :: cs => exact snprintf_length_le _ _

/-! ## C1: wraparound recovery -/

/-- C1. For a line map with pairwise disjoint ranges, any `total_lines` and any true line `L`
with `1 ≤ L ≤ total_lines` and `L < 10 * 65536` lying in the range of fragment `i`: when the
reported line `r = L mod 65536` is positive, the search of `translate_line(r)` records the
candidate `(i, L, L - start_i + 1)`, so the addresses it renders contain
`(relative_i, L - start_i + 1)`. -/
theorem C1_wraparound_recovery (lm : List LineMapping) (total L : Int) (i : Nat)
    (e : LineMapping) (hd : disjoint_map lm) (hi : lm[i]? = some e)
    (h1 : 1 ≤ L) (hL : L ≤ total) (hcap : L < 10 * 65536) (hr : in_range e L)
    (hpos : L % 65536 > 0) :
    (⟨i, L, L - e.start_line + 1⟩ : MatchCandidate) ∈ translate_candidates lm total (L % 65536)
      ∧ (e.relative, L - e.start_line + 1) ∈ rendered_addresses lm total (L % 65536) := by
  have hc : (⟨i, L, L - e.start_line + 1⟩ : MatchCandidate)
      ∈ translate_candidates lm total (L % 65536) := by
    rw [translate_candidates_eq, List.mem_filterMap]
    refine ⟨(L / 65536).toNat, ?_, ?_⟩
    · rw [List.mem_range]
      omega
    · have hk : (((L / 65536).toNat : Nat) : Int) = L / 65536 := by
        rw [Int.toNat_of_nonneg]
        omega
      have hsum : L % 65536 + L / 65536 * 65536 = L := by omega
      unfold turn_candidate
      have hw : LINE_WRAP = 65536 := rfl
      rw [hw, hk, hsum, if_pos ⟨by omega, by omega, hL⟩]
      have := find_match_of_disjoint L lm 0 i e hd hi hr
      simpa using this
  refine ⟨hc, ?_⟩
  unfold rendered_addresses
  rw [List.mem_map]
  exact ⟨_, hc, by simp [relative_at, hi]⟩

/-- A run of C1: line 65538 of a unit of 70000 lines is reported as line 2. -/
theorem C1_wraparound_recovery_witness :
    (⟨1, 65538, 2⟩ : MatchCandidate) ∈
      translate_candidates [⟨2, 5, ['a']⟩, ⟨65537, 65540, ['b']⟩] 70000 (65538 % 65536)
      ∧ (['b'], (2 : Int)) ∈
        rendered_addresses [⟨2, 5, ['a']⟩, ⟨65537, 65540, ['b']⟩] 70000 (65538 % 65536) :=
  C1_wraparound_recovery [⟨2, 5, ['a']⟩, ⟨65537, 65540, ['b']⟩] 70000 65538 1
    ⟨65537, 65540, ['b']⟩
    (by
      simp only [disjoint_map, List.pairwise_cons, List.mem_singleton, forall_eq,
        List.not_mem_nil, false_imp_iff, implies_true, List.Pairwise.nil, and_true]
      intro L
      simp only [in_range]
      omega)
    (by simp) (by decide) (by decide) (by decide) (by simp [in_range]) (by decide)

/-! ## C2: round trip without wraparound -/

theorem range_ten : List.range 10 = [0, 1, 2, 3, 4, 5, 6, 7, 8, 9] := by decide

theorem turn_candidate_of_disjoint (lm : List LineMapping) (total r : Int) (k i : Nat)
    (e : LineMapping) (hd : disjoint_map lm) (hi : lm[i]? = some e)
    (hk : k < 10) (hg : (k : Int) * 65536 < total) (hb : r + (k : Int) * 65536 ≤ total)
    (hr : in_range e (r + (k : Int) * 65536)) :
    turn_candidate lm total r k
      = some ⟨i, r + (k : Int) * 65536, r + (k : Int) * 65536 - e.start_line + 1⟩ := by
  unfold turn_candidate
  have hw : LINE_WRAP = 65536 := rfl
  rw [hw, if_pos ⟨hg, hk, hb⟩]
  simpa using find_match_of_disjoint (r + (k : Int) * 65536) lm 0 i e hd hi hr

theorem turn_candidate_none_of_guard (lm : List LineMapping) (total r : Int) (k : Nat)
    (hg : total ≤ (k : Int) * 65536) : turn_candidate lm total r k = none := by
  unfold turn_candidate
  have hw : LINE_WRAP = 65536 := rfl
  rw [hw, if_neg]
  intro h
  omega

/-- C2, as amended. For a line map with pairwise disjoint ranges lying within
`1..total_lines`, `total_lines ≤ 65536`, a fragment `i` and `1 ≤ n ≤ end_i - start_i + 1`:
`translate_line(start_i + n - 1)` finds the single candidate `(i, n)` and, when the text
`"<relative_i>:<n>"` is at most 4095 bytes long, leaves exactly that text in the caller's
4096-byte buffer. -/
theorem C2_round_trip (lm : List LineMapping) (total : Int) (i : Nat) (e : LineMapping)
    (n : Int) (hd : disjoint_map lm)
    (hwithin : ∀ x ∈ lm, 1 ≤ x.start_line ∧ x.end_line ≤ total)
    (htot : total ≤ 65536) (hi : lm[i]? = some e)
    (hn : 1 ≤ n ∧ n ≤ e.end_line - e.start_line + 1)
    (hfit : (address_text e.relative n).length ≤ 4095) :
    translate_candidates lm total (e.start_line + n - 1) = [⟨i, e.start_line + n - 1, n⟩]
      ∧ translate_line lm total (e.start_line + n - 1) MAX_PATH_LEN
          = address_text e.relative n := by
  have hmem : e ∈ lm := List.getElem?_mem hi
  have hw := hwithin e hmem
  have h0 : turn_candidate lm total (e.start_line + n - 1) 0
      = some ⟨i, e.start_line + n - 1, n⟩ := by
    have := turn_candidate_of_disjoint lm total (e.start_line + n - 1) 0 i e hd hi
      (by decide) (by simp; omega) (by simp; omega) (by simp [in_range]; omega)
    rw [this]
    simp
    omega
  have hk : ∀ k : Nat, 1 ≤ k → turn_candidate lm total (e.start_line + n - 1) k = none := by
    intro k hk
    apply turn_candidate_none_of_guard
    have : (1 : Int) ≤ (k : Int) := by exact_mod_cast hk
    omega
  have hc : translate_candidates lm total (e.start_line + n - 1)
      = [⟨i, e.start_line + n - 1, n⟩] := by
    rw [translate_candidates_eq, range_ten]
    simp [List.filterMap_cons, h0, hk]
  refine ⟨hc, ?_⟩
  unfold translate_line
  rw [hc]
  simp only [render_candidates, relative_at, hi]
  exact snprintf_of_fits _ _ (by simpa [MAX_PATH_LEN, address_text] using hfit)

/-- A run of C2: line 3 of the fragment that starts at line 2. -/
theorem C2_round_trip_witness :
    translate_candidates [⟨2, 5, ['a']⟩, ⟨8, 9, ['b']⟩] 10 (2 + 3 - 1) = [⟨0, 2 + 3 - 1, 3⟩]
      ∧ translate_line [⟨2, 5, ['a']⟩, ⟨8, 9, ['b']⟩] 10 (2 + 3 - 1) MAX_PATH_LEN
          = address_text ['a'] 3 :=
  C2_round_trip [⟨2, 5, ['a']⟩, ⟨8, 9, ['b']⟩] 10 0 ⟨2, 5, ['a']⟩ 3
    (by
      simp only [disjoint_map, List.pairwise_cons, List.mem_singleton, forall_eq,
        List.not_mem_nil, false_imp_iff, implies_true, List.Pairwise.nil, and_true]
      intro L
      simp only [in_range]
      omega)
    (by simp) (by decide) (by simp) (by decide) (by decide)

theorem translate_line_long_relative (p : List Char) (hp : p.length = 4095) :
    translate_line [⟨2, 2, p⟩] 3 (2 + 1 - 1) MAX_PATH_LEN = p := by
  have hc : translate_candidates [⟨2, 2, p⟩] 3 (2 + 1 - 1) = [⟨0, 2, 1⟩] := by
    rw [translate_candidates_eq, range_ten]
    simp [List.filterMap_cons, turn_candidate, find_match, in_range, LINE_WRAP]
  unfold translate_line
  rw [hc]
  simp only [render_candidates, relative_at, snprintf, MAX_PATH_LEN]
  simp [List.take_append_eq_append_take, hp, List.take_of_length_le]

/-- C2 fails as stated: with a relative path of 4095 bytes (the longest that
`line_map[i].relative` can hold) the text `"<relative>:1"` has 4097 bytes, and the
4096-byte buffer keeps the 4095 bytes of the path alone. -/
theorem C2_counterexample :
    disjoint_map [⟨2, 2, long_relative⟩]
      ∧ (∀ x ∈ [(⟨2, 2, long_relative⟩ : LineMapping)],
          1 ≤ x.start_line ∧ x.end_line ≤ (3 : Int))
      ∧ (3 : Int) ≤ 65536
      ∧ [(⟨2, 2, long_relative⟩ : LineMapping)][0]? = some ⟨2, 2, long_relative⟩
      ∧ ((1 : Int) ≤ 1 ∧ (1 : Int) ≤ 2 - 2 + 1)
      ∧ translate_line [⟨2, 2, long_relative⟩] 3 (2 + 1 - 1) MAX_PATH_LEN = long_relative
      ∧ translate_line [⟨2, 2, long_relative⟩] 3 (2 + 1 - 1) MAX_PATH_LEN
          ≠ address_text long_relative 1 := by
  have hlen : long_relative.length = 4095 := List.length_replicate _ _
  have ht := translate_line_long_relative long_relative hlen
  refine ⟨by simp [disjoint_map], by simp, by decide, by simp, by decide, ht, ?_⟩
  rw [ht]
  intro h
  have := congrArg List.length h
  simp [address_text] at this

/-! ## C3: wraparound enumeration -/

theorem three_candidates (lm : List LineMapping) (total r : Int) (iA iB iC : Nat)
    (eA eB eC : LineMapping) (hd : disjoint_map lm)
    (hA : lm[iA]? = some eA) (hB : lm[iB]? = some eB) (hC : lm[iC]? = some eC)
    (hrA : in_range eA r) (hrB : in_range eB (r + 65536))
    (hrC : in_range eC (r + 2 * 65536))
    (hlo : 2 * 65536 < total) (hhi : total ≤ 3 * 65536) (hwithin : r + 2 * 65536 ≤ total) :
    translate_candidates lm total r
        = [⟨iA, r, r - eA.start_line + 1⟩, ⟨iB, r + 65536, r + 65536 - eB.start_line + 1⟩,
           ⟨iC, r + 2 * 65536, r + 2 * 65536 - eC.start_line + 1⟩] := by
  have h0 : turn_candidate lm total r 0 = some ⟨iA, r, r - eA.start_line + 1⟩ := by
    have := turn_candidate_of_disjoint lm total r 0 iA eA hd hA
      (by decide) (by simp; omega) (by simp; omega) (by simpa using hrA)
    rw [this]
    simp
  have h1 : turn_candidate lm total r 1
      = some ⟨iB, r + 65536, r + 65536 - eB.start_line + 1⟩ := by
    have := turn_candidate_of_disjoint lm total r 1 iB eB hd hB
      (by decide) (by simp; omega) (by simp; omega) (by simpa using hrB)
    rw [this]
    simp
  have h2 : turn_candidate lm total r 2
      = some ⟨iC, r + 2 * 65536, r + 2 * 65536 - eC.start_line + 1⟩ := by
    have := turn_candidate_of_disjoint lm total r 2 iC eC hd hC
      (by decide) (by simp; omega) (by simp; omega) (by simpa using hrC)
    rw [this]
    simp
  have hk : ∀ k : Nat, 3 ≤ k → turn_candidate lm total r k = none := by
    intro k hk
    apply turn_candidate_none_of_guard
    have : (3 : Int) ≤ (k : Int) := by exact_mod_cast hk
    omega
  rw [translate_candidates_eq, range_ten]
  simp only [List.filterMap_cons, List.filterMap_nil, h0, h1, h2, hk 3 (by decide),
    hk 4 (by decide), hk 5 (by decide), hk 6 (by decide), hk 7 (by decide),
    hk 8 (by decide), hk 9 (by decide)]

theorem render_three (lm : List LineMapping) (r : Int) (cA cB cC : MatchCandidate)
    (hfitA : (address_text (relative_at lm cA.file_index) cA.original_line).length ≤ 511)
    (hfitB : (or_sep ++ address_text (relative_at lm cB.file_index) cB.original_line).length
      ≤ 511)
    (hfitC : (or_sep ++ address_text (relative_at lm cC.file_index) cC.original_line).length
      ≤ 511) :
    render_candidates lm r MAX_PATH_LEN [cA, cB, cC]
      = address_text (relative_at lm cA.file_index) cA.original_line
        ++ or_sep ++ address_text (relative_at lm cB.file_index) cB.original_line
        ++ or_sep ++ address_text (relative_at lm cC.file_index) cC.original_line
        ++ wrap_flag := by
  have hwl : wrap_flag.length = 16 := rfl
  generalize hsA : address_text (relative_at lm cA.file_index) cA.original_line = sA at *
  generalize hsB : address_text (relative_at lm cB.file_index) cB.original_line = sB at *
  generalize hsC : address_text (relative_at lm cC.file_index) cC.original_line = sC at *
  simp only [address_text] at hsA hsB hsC
  simp only [List.length_append] at hfitB hfitC
  have hp0 : render_part lm 0 cA = sA := by
    simp only [render_part, Nat.lt_irrefl, if_false, List.nil_append, hsA]
    exact snprintf_of_fits _ _ (by omega)
  have hp1 : render_part lm 1 cB = or_sep ++ sB := by
    simp only [render_part, Nat.zero_lt_one, if_true, List.append_assoc, hsB]
    exact snprintf_of_fits _ _ (by simp only [List.length_append]; omega)
  have hp2 : render_part lm 2 cC = or_sep ++ sC := by
    simp only [render_part, Nat.zero_lt_succ, if_true, List.append_assoc, hsC]
    exact snprintf_of_fits _ _ (by simp only [List.length_append]; omega)
  simp only [render_candidates, render_parts, hp0, hp1, hp2, List.length_nil, zero_add]
  rw [strncat_of_fits [] sA _ (by simp only [MAX_LINE, List.length_nil]; omega)]
  rw [strncat_of_fits _ (or_sep ++ sB) _
    (by simp only [MAX_LINE, List.length_append, List.length_nil]; omega)]
  rw [strncat_of_fits _ (or_sep ++ sC) _
    (by simp only [MAX_LINE, List.length_append, List.length_nil]; omega)]
  rw [strncat_of_fits _ wrap_flag _
    (by simp only [MAX_LINE, List.length_append, List.length_nil, hwl]; omega)]
  rw [snprintf_of_fits _ _
    (by simp only [MAX_PATH_LEN, List.length_append, List.length_nil, hwl]; omega)]
  simp only [List.nil_append, List.append_assoc]

/-- C3, as amended. With `total_lines = 2 * 65536 + 5`, a line map with pairwise disjoint
ranges and a requested line `r` such that `r`, `r + 65536` and `r + 2 * 65536` lie in the
ranges of the fragments `A`, `B`, `C`: when moreover `r + 2 * 65536 ≤ total_lines` and each
alternative, with its `" or "` separator, is at most 511 bytes long, `translate_line(r)`
finds exactly the three candidates in ascending `k` order and renders
`"A:<r-startA+1> or B:<r+65536-startB+1> or C:<r+2*65536-startC+1> (line wrapping)"`. -/
theorem C3_wraparound_enumeration (lm : List LineMapping) (r : Int) (iA iB iC : Nat)
    (eA eB eC : LineMapping) (hd : disjoint_map lm)
    (hA : lm[iA]? = some eA) (hB : lm[iB]? = some eB) (hC : lm[iC]? = some eC)
    (hrA : in_range eA r) (hrB : in_range eB (r + 65536))
    (hrC : in_range eC (r + 2 * 65536))
    (hwithin : r + 2 * 65536 ≤ 2 * 65536 + 5)
    (hfitA : (address_text eA.relative (r - eA.start_line + 1)).length ≤ 511)
    (hfitB : (or_sep ++ address_text eB.relative (r + 65536 - eB.start_line + 1)).length
      ≤ 511)
    (hfitC : (or_sep ++ address_text eC.relative (r + 2 * 65536 - eC.start_line + 1)).length
      ≤ 511) :
    translate_candidates lm (2 * 65536 + 5) r
        = [⟨iA, r, r - eA.start_line + 1⟩, ⟨iB, r + 65536, r + 65536 - eB.start_line + 1⟩,
           ⟨iC, r + 2 * 65536, r + 2 * 65536 - eC.start_line + 1⟩]
      ∧ translate_line lm (2 * 65536 + 5) r MAX_PATH_LEN
        = address_text eA.relative (r - eA.start_line + 1)
          ++ or_sep ++ address_text eB.relative (r + 65536 - eB.start_line + 1)
          ++ or_sep ++ address_text eC.relative (r + 2 * 65536 - eC.start_line + 1)
          ++ wrap_flag := by
  have hc := three_candidates lm (2 * 65536 + 5) r iA iB iC eA eB eC hd hA hB hC hrA hrB hrC
    (by decide) (by decide) hwithin
  refine ⟨hc, ?_⟩
  have hrelA : relative_at lm iA = eA.relative := by simp [relative_at, hA]
  have hrelB : relative_at lm iB = eB.relative := by simp [relative_at, hB]
  have hrelC : relative_at lm iC = eC.relative := by simp [relative_at, hC]
  unfold translate_line
  rw [hc, render_three lm r _ _ _ (by simpa only [hrelA] using hfitA)
    (by simpa only [hrelB] using hfitB) (by simpa only [hrelC] using hfitC)]
  simp only [hrelA, hrelB, hrelC]

/-- A run of C3: line 4 with fragments at lines 2..5, 65540..65550 and 131075..131076. -/
theorem C3_wraparound_enumeration_witness :
    translate_candidates
        [⟨2, 5, ['A']⟩, ⟨65540, 65550, ['B']⟩, ⟨131075, 131076, ['C']⟩] (2 * 65536 + 5) 4
        = [⟨0, 4, 4 - 2 + 1⟩, ⟨1, 4 + 65536, 4 + 65536 - 65540 + 1⟩,
           ⟨2, 4 + 2 * 65536, 4 + 2 * 65536 - 131075 + 1⟩]
      ∧ translate_line
        [⟨2, 5, ['A']⟩, ⟨65540, 65550, ['B']⟩, ⟨131075, 131076, ['C']⟩] (2 * 65536 + 5) 4
        MAX_PATH_LEN
        = address_text ['A'] (4 - 2 + 1)
          ++ or_sep ++ address_text ['B'] (4 + 65536 - 65540 + 1)
          ++ or_sep ++ address_text ['C'] (4 + 2 * 65536 - 131075 + 1)
          ++ wrap_flag :=
  C3_wraparound_enumeration
    [⟨2, 5, ['A']⟩, ⟨65540, 65550, ['B']⟩, ⟨131075, 131076, ['C']⟩] 4 0 1 2
    ⟨2, 5, ['A']⟩ ⟨65540, 65550, ['B']⟩ ⟨131075, 131076, ['C']⟩
    (by
      simp only [disjoint_map, List.pairwise_cons, List.mem_cons, List.mem_singleton,
        forall_eq_or_imp, forall_eq, List.not_mem_nil, false_imp_iff, implies_true,
        List.Pairwise.nil, and_true]
      refine ⟨⟨?_, ?_⟩, ?_⟩ <;> intro L <;> simp only [in_range] <;> omega)
    (by simp) (by simp) (by simp) (by simp [in_range]) (by simp [in_range])
    (by simp [in_range]) (by decide) (by decide) (by decide) (by decide)

theorem translate_line_long_name (p : List Char) (hp : p.length = 600) :
    (translate_line [⟨2, 5, p⟩, ⟨65540, 65550, ['B']⟩, ⟨131075, 131076, ['C']⟩]
      (2 * 65536 + 5) 4 MAX_PATH_LEN).length = 541 := by
  have hc : translate_candidates
      [⟨2, 5, p⟩, ⟨65540, 65550, ['B']⟩, ⟨131075, 131076, ['C']⟩] (2 * 65536 + 5) 4
      = [⟨0, 4, 3⟩, ⟨1, 65540, 1⟩, ⟨2, 131076, 2⟩] := by
    rw [translate_candidates_eq, range_ten]
    simp [List.filterMap_cons, turn_candidate, find_match, in_range, LINE_WRAP]
  unfold translate_line
  rw [hc]
  have h3 : fmt_d 3 = ['3'] := by decide
  have h1 : fmt_d 1 = ['1'] := by decide
  have h2 : fmt_d 2 = ['2'] := by decide
  simp only [render_candidates, render_parts, render_part, relative_at, snprintf, strncat,
    MAX_LINE, MAX_PATH_LEN, or_sep, wrap_flag, h1, h2, h3]
  simp [List.length_take, hp]

/-- C3 fails as stated, in two ways. With `total_lines = 2 * 65536 + 5` and the lines 10,
`10 + 65536` and `10 + 2 * 65536` in three distinct fragments of a disjoint line map, the
third value exceeds `total_lines`, the search stops before it, and two candidates are
reported. And with line 4 in a fragment whose relative path has 600 bytes, all three
candidates are found but the first alternative is cut to 511 bytes: the text has 541 bytes,
not the 632 of the three full addresses. -/
theorem C3_counterexample :
    (disjoint_map [⟨10, 10, ['A']⟩, ⟨65546, 65546, ['B']⟩, ⟨131082, 131082, ['C']⟩]
      ∧ in_range ⟨10, 10, ['A']⟩ 10
      ∧ in_range ⟨65546, 65546, ['B']⟩ (10 + 65536)
      ∧ in_range ⟨131082, 131082, ['C']⟩ (10 + 2 * 65536)
      ∧ translate_line [⟨10, 10, ['A']⟩, ⟨65546, 65546, ['B']⟩, ⟨131082, 131082, ['C']⟩]
          (2 * 65536 + 5) 10 MAX_PATH_LEN
        = address_text ['A'] 1 ++ or_sep ++ address_text ['B'] 1 ++ wrap_flag
      ∧ translate_line [⟨10, 10, ['A']⟩, ⟨65546, 65546, ['B']⟩, ⟨131082, 131082, ['C']⟩]
          (2 * 65536 + 5) 10 MAX_PATH_LEN
        ≠ address_text ['A'] 1 ++ or_sep ++ address_text ['B'] 1
            ++ or_sep ++ address_text ['C'] 1 ++ wrap_flag)
    ∧ (disjoint_map [⟨2, 5, long_name⟩, ⟨65540, 65550, ['B']⟩, ⟨131075, 131076, ['C']⟩]
      ∧ in_range ⟨2, 5, long_name⟩ 4
      ∧ in_range ⟨65540, 65550, ['B']⟩ (4 + 65536)
      ∧ in_range ⟨131075, 131076, ['C']⟩ (4 + 2 * 65536)
      ∧ translate_line [⟨2, 5, long_name⟩, ⟨65540, 65550, ['B']⟩, ⟨131075, 131076, ['C']⟩]
          (2 * 65536 + 5) 4 MAX_PATH_LEN
        ≠ address_text long_name (4 - 2 + 1) ++ or_sep
            ++ address_text ['B'] (4 + 65536 - 65540 + 1)
            ++ or_sep ++ address_text ['C'] (4 + 2 * 65536 - 131075 + 1) ++ wrap_flag) := by
  have hlen : long_name.length = 600 := List.length_replicate _ _
  refine ⟨⟨?_, by decide, by decide, by decide, by decide, by decide⟩,
    ⟨?_, by simp [in_range], by simp [in_range], by simp [in_range], ?_⟩⟩
  · simp only [disjoint_map, List.pairwise_cons, List.mem_cons, List.mem_singleton,
      forall_eq_or_imp, forall_eq, List.not_mem_nil, false_imp_iff, implies_true,
      List.Pairwise.nil, and_true]
    refine ⟨⟨?_, ?_⟩, ?_⟩ <;> intro L <;> simp only [in_range] <;> omega
  · simp only [disjoint_map, List.pairwise_cons, List.mem_cons, List.mem_singleton,
      forall_eq_or_imp, forall_eq, List.not_mem_nil, false_imp_iff, implies_true,
      List.Pairwise.nil, and_true]
    refine ⟨⟨?_, ?_⟩, ?_⟩ <;> intro L <;> simp only [in_range] <;> omega
  · intro h
    have h1 := congrArg List.length h
    rw [translate_line_long_name long_name hlen] at h1
    have e1 : fmt_d (4 - 2 + 1) = ['3'] := by decide
    have e2 : fmt_d (4 + 65536 - 65540 + 1) = ['1'] := by decide
    have e3 : fmt_d (4 + 2 * 65536 - 131075 + 1) = ['2'] := by decide
    simp only [address_text, e1, e2, e3, List.length_append, List.length_cons,
      List.length_nil, hlen, or_sep, wrap_flag] at h1
    omega

/-! ## C4: the unresolved literal -/

/-- C4. For every line map and every requested line `r` (an `int`): when `r > total_lines`,
or more generally when no value `r + k * 65536 ≤ total_lines` with `0 ≤ k < 10` lies in a
fragment's range, `translate_line(r)` records no candidate and leaves the literal
`"output.pde:<r>"`, with `r` unchanged, in the caller's buffer. -/
theorem C4_no_match_literal (lm : List LineMapping) (total r : Int)
    (hint : -2147483648 ≤ r ∧ r ≤ 2147483647)
    (h : total < r ∨ ∀ k : Nat, k < 10 → r + (k : Int) * 65536 ≤ total →
      ∀ e ∈ lm, ¬ in_range e (r + (k : Int) * 65536)) :
    translate_candidates lm total r = []
      ∧ translate_line lm total r MAX_PATH_LEN = output_pde_marker ++ fmt_d r := by
  have hc : translate_candidates lm total r = [] := by
    rw [translate_candidates_eq, List.filterMap_eq_nil_iff]
    intro k _
    unfold turn_candidate
    have hw : LINE_WRAP = 65536 := rfl
    rw [hw]
    split
    · rename_i hk
      rcases h with h | h
      · omega
      · exact (find_match_none_iff _ _ _).mpr (h k hk.2.1 hk.2.2)
    · rfl
  refine ⟨hc, ?_⟩
  unfold translate_line
  rw [hc]
  simp only [render_candidates]
  apply snprintf_of_fits
  have hlen := fmt_d_length_le r 10 (by decide) (by omega)
  have hm : output_pde_marker.length = 11 := rfl
  simp only [List.length_append, hm, MAX_PATH_LEN]
  omega

/-- A run of C4: line 9 of a unit of 8 lines. -/
theorem C4_no_match_literal_witness :
    translate_candidates [⟨2, 5, ['a']⟩] 8 9 = []
      ∧ translate_line [⟨2, 5, ['a']⟩] 8 9 MAX_PATH_LEN = output_pde_marker ++ fmt_d 9 :=
  C4_no_match_literal [⟨2, 5, ['a']⟩] 8 9 (by decide) (Or.inl (by decide))

/-! ## C5: what a single address means -/

theorem filterMap_length_one {α β : Type} (f : α → Option β) (l : List α) (hnd : l.Nodup)
    (h : (l.filterMap f).length = 1) : ∃! a, a ∈ l ∧ (f a).isSome = true := by
  induction l with
  | nil => simp at h
  | cons a l ih =>
    rw [List.nodup_cons] at hnd
    rw [List.filterMap_cons] at h
    cases hfa : f a with
    | none =>
      rw [hfa] at h
      obtain ⟨x, ⟨hx1, hx2⟩, hx3⟩ := ih hnd.2 h
      refine ⟨x, ⟨List.mem_cons_of_mem _ hx1, hx2⟩, ?_⟩
      rintro y ⟨hy1, hy2⟩
      rcases List.mem_cons.mp hy1 with rfl | hy1
      · rw [hfa] at hy2
        simp at hy2
      · exact hx3 y ⟨hy1, hy2⟩
    | some b =>
      rw [hfa] at h
      simp only [List.length_cons, add_left_eq_self, List.length_eq_zero] at h
      rw [List.filterMap_eq_nil_iff] at h
      refine ⟨a, ⟨List.mem_cons_self _ _, by simp [hfa]⟩, ?_⟩
      rintro y ⟨hy1, hy2⟩
      rcases List.mem_cons.mp hy1 with rfl | hy1
      · rfl
      · rw [h y hy1] at hy2
        simp at hy2

theorem turn_candidate_isSome_iff (lm : List LineMapping) (total r : Int) (k : Nat)
    (hr : 1 ≤ r) :
    (turn_candidate lm total r k).isSome = true ↔
      (k < 10 ∧ r + (k : Int) * 65536 ≤ total ∧ ∃ e ∈ lm, in_range e (r + (k : Int) * 65536)) := by
  unfold turn_candidate
  have hw : LINE_WRAP = 65536 := rfl
  rw [hw]
  have hfm : ∀ c : Int, (find_match c lm 0).isSome = true ↔ ∃ e ∈ lm, in_range e c := by
    intro c
    rw [← Option.ne_none_iff_isSome, Ne, find_match_none_iff]
    push_neg
    rfl
  constructor
  · intro h
    split at h
    · rename_i hk
      exact ⟨hk.2.1, hk.2.2, (hfm _).mp h⟩
    · simp at h
  · rintro ⟨h1, h2, h3⟩
    rw [if_pos ⟨by omega, h1, h2⟩]
    exact (hfm _).mpr h3

/-- C5, as amended. For every line map, every `total_lines` and every requested line
`r ≥ 1`: if `translate_line(r)` reports one address (`candidate_count == 1`), then there is
exactly one `k` with `0 ≤ k < 10` such that `r + k * 65536 ≤ total_lines` and
`r + k * 65536` lies in some fragment's range. -/
theorem C5_single_address (lm : List LineMapping) (total r : Int) (hr : 1 ≤ r)
    (h : (translate_candidates lm total r).length = 1) :
    ∃! k : Nat, k < 10 ∧ r + (k : Int) * 65536 ≤ total ∧
      ∃ e ∈ lm, in_range e (r + (k : Int) * 65536) := by
  rw [translate_candidates_eq] at h
  obtain ⟨k, ⟨_, hk2⟩, hk3⟩ := filterMap_length_one _ _ (List.nodup_range 10) h
  refine ⟨k, (turn_candidate_isSome_iff lm total r k hr).mp hk2, ?_⟩
  intro y hy
  exact hk3 y ⟨List.mem_range.mpr hy.1, (turn_candidate_isSome_iff lm total r y hr).mpr hy⟩

/-- A run of C5: line 2 of a unit of 8 lines. -/
theorem C5_single_address_witness :
    ∃! k : Nat, k < 10 ∧ (2 : Int) + (k : Int) * 65536 ≤ 8 ∧
      ∃ e ∈ [(⟨2, 5, ['a']⟩ : LineMapping)], in_range e (2 + (k : Int) * 65536) :=
  C5_single_address [⟨2, 5, ['a']⟩] 8 2 (by decide) (by decide)

/-- C5 fails as stated: in a unit of `10 * 65536 + 5` lines whose line map holds lines 2 and
`2 + 10 * 65536`, `translate_line(2)` reports the one address `a:1`, found at `k = 0`, while
`k = 10` is a second value within `total_lines` that lies in a fragment's range: the search
stops after `k = 9`. -/
theorem C5_counterexample :
    disjoint_map [⟨2, 2, ['a']⟩, ⟨655362, 655362, ['b']⟩]
      ∧ translate_candidates [⟨2, 2, ['a']⟩, ⟨655362, 655362, ['b']⟩] 655365 2 = [⟨0, 2, 1⟩]
      ∧ translate_line [⟨2, 2, ['a']⟩, ⟨655362, 655362, ['b']⟩] 655365 2 MAX_PATH_LEN
          = address_text ['a'] 1
      ∧ ¬ ∃! k : Nat, (2 : Int) + (k : Int) * 65536 ≤ 655365 ∧
          ∃ e ∈ [(⟨2, 2, ['a']⟩ : LineMapping), ⟨655362, 655362, ['b']⟩],
            in_range e (2 + (k : Int) * 65536) := by
  refine ⟨?_, by decide, by decide, ?_⟩
  · simp only [disjoint_map, List.pairwise_cons, List.mem_singleton, forall_eq,
      List.not_mem_nil, false_imp_iff, implies_true, List.Pairwise.nil, and_true]
    intro L
    simp only [in_range]
    omega
  · rintro ⟨k, _, huniq⟩
    have h0 := huniq 0 ⟨by decide, ⟨2, 2, ['a']⟩, by simp, by decide⟩
    have h10 := huniq 10 ⟨by decide, ⟨655362, 655362, ['b']⟩, by simp, by decide⟩
    omega

/-! ## The concatenation loop -/

theorem copy_lines_eq (fuel : Nat) (s out : List Char) (cl : Int) :
    copy_lines fuel s out cl
      = (out ++ ((fgets_chunks fuel s).map fputs).flatten, cl + (fgets_chunks fuel s).length) := by
  induction fuel generalizing s out cl with
  | zero => simp [copy_lines, fgets_chunks]
  | succ fuel ih =>
    unfold copy_lines fgets_chunks
    cases h : fgets MAX_LINE s with
    | none => simp
    | some lr =>
      obtain ⟨line, rest⟩ := lr
      simp only [ih, List.map_cons, List.flatten_cons, List.append_assoc, List.length_cons,
        Nat.cast_add, Nat.cast_one, Prod.mk.injEq, true_and]
      omega

theorem aggregate_file_current_line (fopen : List Char → Option (List Char)) (st : AggState)
    (f : FileEntry) :
    (aggregate_file fopen st f).current_line = st.current_line + lines_copied fopen f + 2 := by
  unfold aggregate_file lines_copied
  cases h : fopen f.path with
  | none => simp; omega
  | some content => simp [copy_lines_eq]; omega

theorem aggregate_file_line_map (fopen : List Char → Option (List Char)) (st : AggState)
    (f : FileEntry) :
    (aggregate_file fopen st f).line_map
      = st.line_map
        ++ [⟨st.current_line + 1, st.current_line + lines_copied fopen f, f.relative⟩] := by
  unfold aggregate_file lines_copied
  cases h : fopen f.path with
  | none => simp
  | some content => simp [copy_lines_eq]; omega

theorem aggregate_loop_eq (fopen : List Char → Option (List Char)) (files : List FileEntry)
    (st : AggState) :
    (aggregate_loop fopen files st).line_map
        = st.line_map ++ entries_from fopen st.current_line files
      ∧ (aggregate_loop fopen files st).current_line
        = final_line fopen st.current_line files := by
  induction files generalizing st with
  | nil => simp [aggregate_loop, entries_from, final_line]
  | cons f fs ih =>
    have := ih (aggregate_file fopen st f)
    simp only [aggregate_loop, List.foldl_cons] at this ⊢
    rw [this.1, this.2, aggregate_file_line_map, aggregate_file_current_line]
    simp [entries_from, final_line]

theorem aggregate_line_map (fopen : List Char → Option (List Char)) (files : List FileEntry) :
    (aggregate fopen files).line_map = entries_from fopen 1 files := by
  have := (aggregate_loop_eq fopen files ⟨[], 1, []⟩).1
  simpa [aggregate] using this

theorem aggregate_total_lines (fopen : List Char → Option (List Char))
    (files : List FileEntry) :
    total_lines_of (aggregate fopen files) = final_line fopen 1 files - 1 := by
  have := (aggregate_loop_eq fopen files ⟨[], 1, []⟩).2
  simp only [total_lines_of, aggregate] at this ⊢
  rw [this]

theorem fgets_take_append (room : Nat) (s : List Char) :
    (fgets_take room s).1 ++ (fgets_take room s).2 = s := by
  induction s generalizing room with
  | nil => cases room <;> simp [fgets_take]
  | cons c cs ih =>
    cases room with
    | zero => simp [fgets_take]
    | succ room =>
      unfold fgets_take
      split
      · simp
      · simp [ih room]

theorem fgets_take_rest_length (room : Nat) (c : Char) (cs : List Char) :
    (fgets_take (room + 1) (c :: cs)).2.length ≤ cs.length := by
  induction cs generalizing room c with
  | nil =>
    unfold fgets_take
    split
    · simp
    · cases room <;> simp [fgets_take]
  | cons d ds ih =>
    unfold fgets_take
    split
    · simp
    · cases room with
      | zero => simp [fgets_take]
      | succ room =>
        have := ih room d
        simp only [List.length_cons] at this ⊢
        omega

/-- With the fuel that `copy_lines` is given, the successive `fgets` calls read the whole
stream: the loop ends at the end of the file, not with the fuel. -/
theorem fgets_chunks_flatten (fuel : Nat) (s : List Char) (h : s.length ≤ fuel) :
    (fgets_chunks fuel s).flatten = s := by
  induction fuel generalizing s with
  | zero =>
    have : s = [] := List.length_eq_zero.mp (by omega)
    simp [fgets_chunks, this]
  | succ fuel ih =>
    cases s with
    | nil => simp [fgets_chunks, fgets]
    | cons c cs =>
      have hrest := fgets_take_rest_length (MAX_LINE - 1 - 1) c cs
      have hroom : MAX_LINE - 1 = (MAX_LINE - 1 - 1) + 1 := by decide
      simp only [fgets_chunks, fgets, List.flatten_cons]
      rw [ih _ (by
        rw [hroom]
        simp only [List.length_cons] at h
        omega)]
      exact fgets_take_append _ _

/-! ## Shape of the line map -/

theorem entries_from_length (fopen : List Char → Option (List Char)) (c : Int)
    (files : List FileEntry) : (entries_from fopen c files).length = files.length := by
  induction files generalizing c with
  | nil => rfl
  | cons f fs ih => simp [entries_from, ih]

theorem final_line_ge (fopen : List Char → Option (List Char)) (c : Int)
    (files : List FileEntry) : c ≤ final_line fopen c files := by
  induction files generalizing c with
  | nil => simp [final_line]
  | cons f fs ih =>
    have := ih (c + lines_copied fopen f + 2)
    simp only [final_line]
    omega

theorem entries_from_bounds (fopen : List Char → Option (List Char)) (c : Int)
    (files : List FileEntry) :
    ∀ e ∈ entries_from fopen c files,
      c < e.start_line ∧ e.start_line - 1 ≤ e.end_line
        ∧ e.end_line + 1 < final_line fopen c files := by
  induction files generalizing c with
  | nil => simp [entries_from]
  | cons f fs ih =>
    intro e he
    simp only [entries_from, List.mem_cons] at he
    have hfin := final_line_ge fopen (c + lines_copied fopen f + 2) fs
    simp only [final_line]
    rcases he with rfl | he
    · simp only
      omega
    · have := ih (c + lines_copied fopen f + 2) e he
      omega

theorem entries_from_pairwise (fopen : List Char → Option (List Char)) (c : Int)
    (files : List FileEntry) : (entries_from fopen c files).Pairwise footprint_before := by
  induction files generalizing c with
  | nil => simp [entries_from]
  | cons f fs ih =>
    simp only [entries_from, List.pairwise_cons]
    refine ⟨?_, ih _⟩
    intro e he
    have := entries_from_bounds fopen (c + lines_copied fopen f + 2) fs e he
    simp only [footprint_before]
    omega

theorem entries_from_cover (fopen : List Char → Option (List Char)) (c : Int)
    (files : List FileEntry) (L : Int) (h1 : c ≤ L) (h2 : L < final_line fopen c files) :
    (∃ e ∈ entries_from fopen c files, L = e.start_line - 1)
      ∨ (∃ e ∈ entries_from fopen c files, L = e.end_line + 1)
      ∨ (∃ e ∈ entries_from fopen c files, in_range e L) := by
  induction files generalizing c with
  | nil =>
    simp only [final_line] at h2
    omega
  | cons f fs ih =>
    simp only [final_line] at h2
    simp only [entries_from, List.mem_cons, exists_eq_or_imp, in_range]
    by_cases hL : L < c + lines_copied fopen f + 2
    · by_cases ha : L = c
      · exact Or.inl (Or.inl (by omega))
      · by_cases hb : L = c + lines_copied fopen f + 1
        · exact Or.inr (Or.inl (Or.inl (by omega)))
        · exact Or.inr (Or.inr (Or.inl (by constructor <;> omega)))
    · rcases ih (c + lines_copied fopen f + 2) (by omega) h2 with h | h | h
      · exact Or.inl (Or.inr h)
      · exact Or.inr (Or.inl (Or.inr h))
      · exact Or.inr (Or.inr (Or.inr h))

theorem pairwise_getElem_lt {α : Type} (R : α → α → Prop) (l : List α)
    (h : l.Pairwise R) (i j : Nat) (a b : α) (hi : l[i]? = some a) (hj : l[j]? = some b)
    (hij : i < j) : R a b := by
  induction l generalizing i j with
  | nil => simp at hi
  | cons x xs ih =>
    rw [List.pairwise_cons] at h
    cases j with
    | zero => omega
    | succ j =>
      simp only [List.getElem?_cons_succ] at hj
      cases i with
      | zero =>
        simp only [List.getElem?_cons_zero, Option.some.injEq] at hi
        subst hi
        exact h.1 b (List.getElem?_mem hj)
      | succ i =>
        simp only [List.getElem?_cons_succ] at hi
        exact ih h.2 i j hi hj (by omega)

theorem lines_copied_pos (fopen : List Char → Option (List Char)) (f : FileEntry)
    (content : List Char) (h : fopen f.path = some content) (hne : content ≠ []) :
    1 ≤ lines_copied fopen f := by
  unfold lines_copied
  rw [h]
  cases content with
  | nil => exact absurd rfl hne
  | cons c cs => simp [fgets_chunks, fgets]

theorem lines_copied_zero (fopen : List Char → Option (List Char)) (f : FileEntry)
    (h : fopen f.path = none ∨ fopen f.path = some []) : lines_copied fopen f = 0 := by
  unfold lines_copied
  rcases h with h | h
  · rw [h]
  · rw [h]
    simp [fgets_chunks]

theorem entries_from_getElem (fopen : List Char → Option (List Char)) (c : Int)
    (files : List FileEntry) (i : Nat) (e : LineMapping) (f : FileEntry)
    (he : (entries_from fopen c files)[i]? = some e) (hf : files[i]? = some f) :
    e.end_line = e.start_line + lines_copied fopen f - 1 ∧ e.relative = f.relative := by
  induction files generalizing c i with
  | nil => simp at hf
  | cons g gs ih =>
    cases i with
    | zero =>
      simp only [entries_from, List.getElem?_cons_zero, Option.some.injEq] at he hf
      subst he hf
      exact ⟨by simp only; omega, rfl⟩
    | succ i =>
      simp only [entries_from, List.getElem?_cons_succ] at he hf
      exact ih _ i he hf

theorem entries_from_succ (fopen : List Char → Option (List Char)) (c : Int)
    (files : List FileEntry) (i : Nat) (e e' : LineMapping)
    (he : (entries_from fopen c files)[i]? = some e)
    (he' : (entries_from fopen c files)[i + 1]? = some e') :
    e'.start_line = e.end_line + 3 := by
  induction files generalizing c i with
  | nil => simp [entries_from] at he
  | cons g gs ih =>
    cases i with
    | zero =>
      cases gs with
      | nil => simp [entries_from] at he'
      | cons g' gs' =>
        simp only [entries_from, List.getElem?_cons_zero, Option.some.injEq, zero_add,
          List.getElem?_cons_succ] at he he'
        subst he he'
        simp only
        omega
    | succ i =>
      simp only [entries_from, List.getElem?_cons_succ] at he he'
      exact ih _ i he he'

theorem footprint_trichotomy (l : List LineMapping) (h : l.Pairwise footprint_before)
    (a b : LineMapping) (ha : a ∈ l) (hb : b ∈ l) :
    a = b ∨ footprint_before a b ∨ footprint_before b a := by
  obtain ⟨i, hi⟩ := List.mem_iff_getElem?.mp ha
  obtain ⟨j, hj⟩ := List.mem_iff_getElem?.mp hb
  rcases Nat.lt_trichotomy i j with hij | hij | hij
  · exact Or.inr (Or.inl (pairwise_getElem_lt _ l h i j a b hi hj hij))
  · subst hij
    rw [hi] at hj
    exact Or.inl (Option.some.inj hj)
  · exact Or.inr (Or.inr (pairwise_getElem_lt _ l h j i b a hj hi hij))

/-! ## The written text when every fragment ends with a newline -/

theorem text_lines_cons_ne (c : Char) (s : List Char) (hc : c ≠ '\n') :
    text_lines (c :: s)
      = match text_lines s with
        | [] => [[c]]
        | l :: ls => (c :: l) :: ls := by
  simp [text_lines, hc]

theorem text_lines_line (l t : List Char) (hl : '\n' ∉ l) :
    text_lines (l ++ '\n' :: t) = l :: text_lines t := by
  induction l with
  | nil => simp [text_lines]
  | cons c cs ih =>
    have hc : c ≠ '\n' := fun h => hl (by simp [h])
    have hcs : '\n' ∉ cs := fun h => hl (List.mem_cons_of_mem _ h)
    rw [List.cons_append, text_lines_cons_ne c _ hc, ih hcs]

theorem unlines_cons (l : List Char) (ls : List (List Char)) :
    unlines (l :: ls) = l ++ '\n' :: unlines ls := by
  simp [unlines]

theorem unlines_append (a b : List (List Char)) : unlines (a ++ b) = unlines a ++ unlines b := by
  simp [unlines]

theorem text_lines_unlines (ls : List (List Char)) (h : ∀ l ∈ ls, '\n' ∉ l) :
    text_lines (unlines ls) = ls ++ [[]] := by
  induction ls with
  | nil => simp [unlines, text_lines]
  | cons l ls ih =>
    rw [unlines_cons, text_lines_line l _ (h l (List.mem_cons_self _ _)),
      ih (fun x hx => h x (List.mem_cons_of_mem _ hx))]
    rfl

theorem fgets_take_cons_ne (room : Nat) (c : Char) (s : List Char) (hc : c ≠ '\n') :
    fgets_take (room + 1) (c :: s) = (c :: (fgets_take room s).1, (fgets_take room s).2) := by
  simp [fgets_take, hc]

theorem fgets_take_line (room : Nat) (l t : List Char) (hl : '\n' ∉ l)
    (hroom : l.length < room) : fgets_take room (l ++ '\n' :: t) = (l ++ ['\n'], t) := by
  induction l generalizing room with
  | nil =>
    cases room with
    | zero => omega
    | succ room => simp [fgets_take]
  | cons c cs ih =>
    have hc : c ≠ '\n' := fun h => hl (by simp [h])
    have hcs : '\n' ∉ cs := fun h => hl (List.mem_cons_of_mem _ h)
    cases room with
    | zero => simp at hroom
    | succ room =>
      rw [List.cons_append, fgets_take_cons_ne room c _ hc, ih room hcs (by simpa using hroom)]
      rfl

theorem fgets_chunks_unlines (ls : List (List Char)) (h : ∀ l ∈ ls, good_line l)
    (fuel : Nat) (hfuel : (unlines ls).length ≤ fuel) :
    fgets_chunks fuel (unlines ls) = ls.map (fun l => l ++ ['\n']) := by
  induction ls generalizing fuel with
  | nil =>
    cases fuel <;> simp [unlines, fgets_chunks, fgets]
  | cons l ls ih =>
    have hg := h l (List.mem_cons_self _ _)
    rw [unlines_cons] at hfuel ⊢
    cases fuel with
    | zero => simp at hfuel
    | succ fuel =>
      have hne : l ++ '\n' :: unlines ls ≠ [] := by simp
      have hf : fgets MAX_LINE (l ++ '\n' :: unlines ls)
          = some (l ++ ['\n'], unlines ls) := by
        have := fgets_take_line (MAX_LINE - 1) l (unlines ls) hg.1 (by
          have := hg.2.2
          omega)
        cases hl : l ++ '\n' :: unlines ls with
        | nil => exact absurd hl hne
        | cons c cs =>
          rw [hl] at this
          simp [fgets, this]
      simp only [fgets_chunks, hf, List.map_cons]
      rw [ih (fun x hx => h x (List.mem_cons_of_mem _ hx)) fuel (by
        simp only [List.length_append, List.length_cons] at hfuel
        omega)]

theorem fputs_good_line (l : List Char) (h : good_line l) : fputs (l ++ ['\n']) = l ++ ['\n'] := by
  unfold fputs c_str
  rw [List.takeWhile_eq_self_iff]
  intro c hc
  rcases List.mem_append.mp hc with hc | hc
  · have : c ≠ NUL := fun hn => h.2.1 (hn ▸ hc)
    simpa using this
  · simp only [List.mem_singleton] at hc
    subst hc
    decide

theorem copy_lines_unlines (ls : List (List Char)) (h : ∀ l ∈ ls, good_line l)
    (out : List Char) (cl : Int) :
    copy_lines (unlines ls).length (unlines ls) out cl
      = (out ++ unlines ls, cl + ls.length) := by
  rw [copy_lines_eq, fgets_chunks_unlines ls h _ (le_refl _)]
  have : (ls.map (fun l => l ++ ['\n'])).map fputs = ls.map (fun l => l ++ ['\n']) := by
    rw [List.map_map]
    apply List.map_congr_left
    intro l hl
    exact fputs_good_line l (h l hl)
  rw [this]
  simp [unlines]

theorem aggregate_file_out (fopen : List Char → Option (List Char))
    (content_lines : FileEntry → List (List Char)) (st : AggState) (f : FileEntry)
    (hopen : fopen f.path = some (unlines (content_lines f))
      ∨ (fopen f.path = none ∧ content_lines f = []))
    (hgood : ∀ l ∈ content_lines f, good_line l) :
    (aggregate_file fopen st f).out = st.out ++ unlines (block_lines content_lines f)
      ∧ lines_copied fopen f = (content_lines f).length := by
  unfold aggregate_file lines_copied
  rcases hopen with ho | ⟨ho, hnil⟩
  · rw [ho]
    simp only [copy_lines_unlines _ hgood,
      fgets_chunks_unlines _ hgood _ (le_refl _), List.length_map]
    simp [block_lines, unlines]
  · rw [ho]
    simp [block_lines, unlines, hnil]

theorem aggregate_loop_out (fopen : List Char → Option (List Char))
    (content_lines : FileEntry → List (List Char)) (files : List FileEntry)
    (hfiles : ∀ f ∈ files,
      (fopen f.path = some (unlines (content_lines f))
        ∨ (fopen f.path = none ∧ content_lines f = []))
      ∧ ∀ l ∈ content_lines f, good_line l)
    (st : AggState) :
    (aggregate_loop fopen files st).out
      = st.out ++ unlines (files.flatMap (block_lines content_lines)) := by
  induction files generalizing st with
  | nil => simp [aggregate_loop, unlines]
  | cons f fs ih =>
    have hf := hfiles f (List.mem_cons_self _ _)
    have := ih (fun x hx => hfiles x (List.mem_cons_of_mem _ hx)) (aggregate_file fopen st f)
    simp only [aggregate_loop, List.foldl_cons] at this ⊢
    rw [this, (aggregate_file_out fopen content_lines st f hf.1 hf.2).1, List.flatMap_cons,
      unlines_append, List.append_assoc]

theorem entries_from_block (fopen : List Char → Option (List Char))
    (content_lines : FileEntry → List (List Char)) (files : List FileEntry)
    (hfiles : ∀ f ∈ files, lines_copied fopen f = (content_lines f).length)
    (c : Int) (i : Nat) (e : LineMapping) (f : FileEntry)
    (he : (entries_from fopen c files)[i]? = some e) (hf : files[i]? = some f) :
    ∃ pre post : List (List Char),
      files.flatMap (block_lines content_lines)
          = pre ++ block_lines content_lines f ++ post
        ∧ e.start_line = c + pre.length + 1
        ∧ e.end_line = e.start_line + (content_lines f).length - 1 := by
  induction files generalizing c i with
  | nil => simp at hf
  | cons g gs ih =>
    have hg := hfiles g (List.mem_cons_self _ _)
    cases i with
    | zero =>
      simp only [entries_from, List.getElem?_cons_zero, Option.some.injEq] at he hf
      subst he hf
      refine ⟨[], gs.flatMap (block_lines content_lines), by simp, by simp, ?_⟩
      simp only [hg]
      omega
    | succ i =>
      simp only [entries_from, List.getElem?_cons_succ] at he hf
      obtain ⟨pre, post, h1, h2, h3⟩ :=
        ih (fun x hx => hfiles x (List.mem_cons_of_mem _ hx)) _ i he hf
      refine ⟨block_lines content_lines g ++ pre, post, ?_, ?_, h3⟩
      · simp [h1]
      · rw [h2, hg]
        simp only [block_lines, List.length_append, List.length_cons, List.length_nil,
          Nat.cast_add, Nat.cast_one]
        push_cast
        omega

/-- The part of C6 that the code keeps: when every fragment that can be opened is made of
good lines, each ended by a newline, and no relative path holds a newline, then for every
fragment the line `start_line - 1` of the written unit is its header, the line
`start_line + n` is its line `n` (counted from 0), and the line after `end_line` is
blank. -/
theorem line_map_addresses_terminated_text (fopen : List Char → Option (List Char))
    (content_lines : FileEntry → List (List Char)) (files : List FileEntry)
    (hrel : ∀ f ∈ files, '\n' ∉ f.relative)
    (hfiles : ∀ f ∈ files,
      (fopen f.path = some (unlines (content_lines f))
        ∨ (fopen f.path = none ∧ content_lines f = []))
      ∧ ∀ l ∈ content_lines f, good_line l)
    (i : Nat) (e : LineMapping) (f : FileEntry)
    (he : (aggregate fopen files).line_map[i]? = some e) (hf : files[i]? = some f) :
    text_line (aggregate fopen files).out (e.start_line - 1) = some (header_mark ++ f.relative)
      ∧ (∀ (n : Nat) (l : List Char), (content_lines f)[n]? = some l →
          text_line (aggregate fopen files).out (e.start_line + n) = some l)
      ∧ text_line (aggregate fopen files).out (e.end_line + 1) = some [] := by
  have hout := aggregate_loop_out fopen content_lines files hfiles ⟨[], 1, []⟩
  have hcopied : ∀ f ∈ files, lines_copied fopen f = (content_lines f).length := by
    intro g hg
    exact (aggregate_file_out fopen content_lines ⟨[], 1, []⟩ g (hfiles g hg).1
      (hfiles g hg).2).2
  rw [aggregate_line_map] at he
  obtain ⟨pre, post, h1, h2, h3⟩ :=
    entries_from_block fopen content_lines files hcopied 1 i e f he hf
  have hnl : ∀ l ∈ files.flatMap (block_lines content_lines), '\n' ∉ l := by
    intro l hl
    rw [List.mem_flatMap] at hl
    obtain ⟨g, hg, hlg⟩ := hl
    simp only [block_lines, List.mem_cons, List.mem_append, List.mem_singleton,
      List.not_mem_nil, or_false] at hlg
    rcases hlg with rfl | hlg | rfl
    · intro hmem
      rcases List.mem_append.mp hmem with hm | hm
      · revert hm
        decide
      · exact hrel g hg hm
    · exact ((hfiles g hg).2 l hlg).1
    · simp
  have hlines : text_lines (aggregate fopen files).out
      = pre ++ block_lines content_lines f ++ post ++ [[]] := by
    simp only [aggregate]
    rw [hout, List.nil_append, text_lines_unlines _ hnl, h1]
  simp only [text_line, hlines, List.get?_eq_getElem?]
  have hpre : (e.start_line - 1).toNat - 1 = pre.length := by omega
  refine ⟨?_, ?_, ?_⟩
  · rw [if_neg (by omega), hpre]
    simp only [block_lines, List.append_assoc, List.cons_append]
    rw [List.getElem?_append_right (le_refl _)]
    simp
  · intro n l hl
    have hn : n < (content_lines f).length := by
      by_contra hcon
      rw [List.getElem?_eq_none (by omega)] at hl
      simp at hl
    have hidx : (e.start_line + n).toNat - 1 = pre.length + (n + 1) := by omega
    rw [if_neg (by omega), hidx]
    simp only [block_lines, List.append_assoc, List.cons_append]
    rw [List.getElem?_append_right (by omega)]
    simp only [Nat.add_sub_cancel_left, List.getElem?_cons_succ]
    rw [List.getElem?_append_left hn]
    exact hl
  · have hidx : (e.end_line + 1).toNat - 1 = pre.length + ((content_lines f).length + 1) := by
      omega
    rw [if_neg (by omega), hidx]
    simp only [block_lines, List.append_assoc, List.cons_append]
    rw [List.getElem?_append_right (by omega)]
    simp only [Nat.add_sub_cancel_left, List.getElem?_cons_succ]
    rw [List.getElem?_append_right (by omega)]
    simp

/-- A run of `line_map_addresses_terminated_text`: with a final newline in both example
files, line 1 of the second fragment is the line `start_line` of the unit. -/
theorem line_map_addresses_terminated_text_example :
    text_line (aggregate terminated_fopen example_files).out (5 - 1)
        = some (header_mark ++ ['f', '2'])
      ∧ (∀ (n : Nat) (l : List Char), (terminated_lines ⟨['2'], ['f', '2']⟩)[n]? = some l →
          text_line (aggregate terminated_fopen example_files).out (5 + n) = some l)
      ∧ text_line (aggregate terminated_fopen example_files).out (5 + 1) = some [] :=
  line_map_addresses_terminated_text terminated_fopen terminated_lines example_files
    (by decide)
    (by
      intro f hf
      simp only [example_files, List.mem_cons, List.mem_singleton, List.not_mem_nil,
        or_false] at hf
      rcases hf with rfl | rfl
      · refine ⟨Or.inl (by decide), ?_⟩
        intro l hl
        simp only [terminated_lines, if_true, List.mem_singleton] at hl
        subst hl
        exact ⟨by decide, by decide, by decide⟩
      · refine ⟨Or.inl (by decide), ?_⟩
        intro l hl
        have : l = ['b'] := by simpa [terminated_lines] using hl
        subst this
        exact ⟨by decide, by decide, by decide⟩)
    1 ⟨5, 5, ['f', '2']⟩ ⟨['2'], ['f', '2']⟩ (by decide) (by decide)

/-! ## C6: the line map against the written text -/

/-- C6, the code at the failing input: the first fragment holds `a` without a final
newline, the second holds `b` and a newline. The unit written is
`"//>/>/>f1\na\n//>/>/>f2\nb\n\n"` and the line map gives the second fragment the range
`5..5`; but line 5 of the unit is empty while line 1 of the fragment is `b`, line 4
(`start_line - 1`) is `b` and not the header, and the line after the first fragment's
`end_line` is the second header and not a blank line. A diagnostic on the line that holds
`b`, line 4, is left untranslated. -/
theorem C6_line_map_misses_text :
    (aggregate example_fopen example_files).out
        = header_mark ++ ['f', '1', '\n', 'a', '\n'] ++ header_mark
          ++ ['f', '2', '\n', 'b', '\n', '\n']
      ∧ (aggregate example_fopen example_files).line_map
        = [⟨2, 2, ['f', '1']⟩, ⟨5, 5, ['f', '2']⟩]
      ∧ text_line ['b', '\n'] 1 = some ['b']
      ∧ text_line (aggregate example_fopen example_files).out (5 + 1 - 1) = some []
      ∧ text_line (aggregate example_fopen example_files).out (5 - 1) = some ['b']
      ∧ text_line (aggregate example_fopen example_files).out (2 + 1)
        = some (header_mark ++ ['f', '2'])
      ∧ translate_line (aggregate example_fopen example_files).line_map
          (total_lines_of (aggregate example_fopen example_files)) 4 MAX_PATH_LEN
        = output_pde_marker ++ ['4'] := by
  decide

/-! ## C7: range partition -/

/-- C7. For every aggregation result the ranges of the line map are pairwise disjoint, and
every line number `L` with `1 ≤ L ≤ total_lines` is a header line (`L = start_i - 1`), or a
separator line (`L = end_i + 1`), or a content line inside a range; no `L` is two of these,
and a content line is inside the range of one entry only. -/
theorem C7_range_partition (fopen : List Char → Option (List Char)) (files : List FileEntry) :
    disjoint_map (aggregate fopen files).line_map
      ∧ ∀ L : Int, 1 ≤ L → L ≤ total_lines_of (aggregate fopen files) →
        ((∃ e ∈ (aggregate fopen files).line_map, L = e.start_line - 1)
          ∨ (∃ e ∈ (aggregate fopen files).line_map, L = e.end_line + 1)
          ∨ (∃ e ∈ (aggregate fopen files).line_map, in_range e L))
        ∧ ¬ ((∃ e ∈ (aggregate fopen files).line_map, L = e.start_line - 1)
          ∧ (∃ e ∈ (aggregate fopen files).line_map, L = e.end_line + 1))
        ∧ ¬ ((∃ e ∈ (aggregate fopen files).line_map, L = e.start_line - 1)
          ∧ (∃ e ∈ (aggregate fopen files).line_map, in_range e L))
        ∧ ¬ ((∃ e ∈ (aggregate fopen files).line_map, L = e.end_line + 1)
          ∧ (∃ e ∈ (aggregate fopen files).line_map, in_range e L))
        ∧ ∀ (i j : Nat) (a b : LineMapping),
            (aggregate fopen files).line_map[i]? = some a →
            (aggregate fopen files).line_map[j]? = some b →
            in_range a L → in_range b L → i = j := by
  rw [aggregate_line_map, aggregate_total_lines]
  have hpw := entries_from_pairwise fopen 1 files
  have hbd := entries_from_bounds fopen 1 files
  have htri := footprint_trichotomy _ hpw
  refine ⟨?_, ?_⟩
  · unfold disjoint_map
    refine hpw.imp ?_
    intro a b hab L hL
    simp only [footprint_before, in_range] at hab hL
    omega
  · intro L h1 h2
    refine ⟨entries_from_cover fopen 1 files L h1 (by omega), ?_, ?_, ?_, ?_⟩
    · rintro ⟨⟨a, ha, hLa⟩, ⟨b, hb, hLb⟩⟩
      have h3 := hbd a ha
      have h4 := hbd b hb
      rcases htri a b ha hb with rfl | h | h
      · omega
      · simp only [footprint_before] at h
        omega
      · simp only [footprint_before] at h
        omega
    · rintro ⟨⟨a, ha, hLa⟩, ⟨b, hb, hLb⟩⟩
      have h3 := hbd a ha
      have h4 := hbd b hb
      simp only [in_range] at hLb
      rcases htri a b ha hb with rfl | h | h
      · omega
      · simp only [footprint_before] at h
        omega
      · simp only [footprint_before] at h
        omega
    · rintro ⟨⟨a, ha, hLa⟩, ⟨b, hb, hLb⟩⟩
      have h3 := hbd a ha
      have h4 := hbd b hb
      simp only [in_range] at hLb
      rcases htri a b ha hb with rfl | h | h
      · omega
      · simp only [footprint_before] at h
        omega
      · simp only [footprint_before] at h
        omega
    · intro i j a b hi hj hLa hLb
      have h3 := hbd a (List.getElem?_mem hi)
      have h4 := hbd b (List.getElem?_mem hj)
      simp only [in_range] at hLa hLb
      rcases Nat.lt_trichotomy i j with hij | hij | hij
      · have h := pairwise_getElem_lt _ _ hpw i j a b hi hj hij
        simp only [footprint_before] at h
        omega
      · exact hij
      · have h := pairwise_getElem_lt _ _ hpw j i b a hj hi hij
        simp only [footprint_before] at h
        omega

/-- A run of C7: in the example unit of 6 counted lines, line 4 is a header line. -/
theorem C7_range_partition_witness :
    disjoint_map (aggregate example_fopen example_files).line_map
      ∧ (1 : Int) ≤ 4 ∧ 4 ≤ total_lines_of (aggregate example_fopen example_files)
      ∧ ((∃ e ∈ (aggregate example_fopen example_files).line_map, (4 : Int) = e.start_line - 1)
          ∨ (∃ e ∈ (aggregate example_fopen example_files).line_map, (4 : Int) = e.end_line + 1)
          ∨ (∃ e ∈ (aggregate example_fopen example_files).line_map, in_range e 4)) :=
  ⟨(C7_range_partition example_fopen example_files).1, by decide, by decide,
    ((C7_range_partition example_fopen example_files).2 4 (by decide) (by decide)).1⟩

/-! ## C8: line map invariant -/

/-- C8. For every fragment sequence the line map has one entry per fragment, carrying the
fragment's relative path; the first entry starts at line 2; `start_{i+1} = end_i + 3`;
`end_i = start_i + n_i - 1` where `n_i` is the number of content lines copied; so
`start_i ≤ end_i` for a fragment with content, and `end_i = start_i - 1` for an empty or
unopenable fragment, whose range holds no line. -/
theorem C8_line_map_invariant (fopen : List Char → Option (List Char))
    (files : List FileEntry) :
    (aggregate fopen files).line_map.length = files.length
      ∧ (∀ e, (aggregate fopen files).line_map[0]? = some e → e.start_line = 2)
      ∧ (∀ (i : Nat) (e e' : LineMapping), (aggregate fopen files).line_map[i]? = some e →
          (aggregate fopen files).line_map[i + 1]? = some e' →
          e'.start_line = e.end_line + 3 ∧ e.end_line < e'.start_line)
      ∧ (∀ (i : Nat) (e : LineMapping) (f : FileEntry),
          (aggregate fopen files).line_map[i]? = some e → files[i]? = some f →
          e.end_line = e.start_line + lines_copied fopen f - 1 ∧ e.relative = f.relative)
      ∧ (∀ (i : Nat) (e : LineMapping) (f : FileEntry) (content : List Char),
          (aggregate fopen files).line_map[i]? = some e → files[i]? = some f →
          fopen f.path = some content → content ≠ [] → e.start_line ≤ e.end_line)
      ∧ (∀ (i : Nat) (e : LineMapping) (f : FileEntry),
          (aggregate fopen files).line_map[i]? = some e → files[i]? = some f →
          (fopen f.path = none ∨ fopen f.path = some []) →
          e.end_line = e.start_line - 1 ∧ ∀ L : Int, ¬ in_range e L) := by
  rw [aggregate_line_map]
  refine ⟨entries_from_length fopen 1 files, ?_, ?_, ?_, ?_, ?_⟩
  · intro e he
    cases files with
    | nil => simp [entries_from] at he
    | cons f fs =>
      simp only [entries_from, List.getElem?_cons_zero, Option.some.injEq] at he
      subst he
      rfl
  · intro i e e' he he'
    have := entries_from_succ fopen 1 files i e e' he he'
    exact ⟨this, by omega⟩
  · intro i e f he hf
    exact entries_from_getElem fopen 1 files i e f he hf
  · intro i e f content he hf hc hne
    have h1 := (entries_from_getElem fopen 1 files i e f he hf).1
    have h2 := lines_copied_pos fopen f content hc hne
    omega
  · intro i e f he hf hc
    have h1 := (entries_from_getElem fopen 1 files i e f he hf).1
    have h2 := lines_copied_zero fopen f hc
    rw [h2] at h1
    refine ⟨by simpa using h1, ?_⟩
    intro L hL
    simp only [in_range] at hL
    simp at h1
    omega

/-- A run of C8 on the example fragments: the first entry starts at line 2. -/
theorem C8_line_map_invariant_witness :
    (aggregate example_fopen example_files).line_map.length = example_files.length
      ∧ (⟨2, 2, ['f', '1']⟩ : LineMapping).start_line = 2 :=
  ⟨(C8_line_map_invariant example_fopen example_files).1,
    (C8_line_map_invariant example_fopen example_files).2.1 ⟨2, 2, ['f', '1']⟩ (by decide)⟩

/-! ## C9: `wildcard_match` against the reference glob relation -/

theorem globMatch_of_skip_stars (p : List Char) (h : skip_stars p = []) : GlobMatch p [] := by
  induction p with
  | nil => exact GlobMatch.nil
  | cons q ps ih =>
    unfold skip_stars at h
    by_cases hq : q = '*'
    · subst hq
      simp only [if_true] at h
      exact GlobMatch.star ps [] [] (ih h)
    · simp [hq] at h

theorem skip_stars_of_globMatch (p s : List Char) (h : GlobMatch p s) (hs : s = []) :
    skip_stars p = [] := by
  induction h with
  | nil => rfl
  | star ps run rest _ ih =>
    simp only [List.append_eq_nil] at hs
    simp only [skip_stars, if_true]
    exact ih hs.2
  | any ps c cs _ _ => simp at hs
  | lit q ps c cs _ _ _ _ _ => simp at hs

theorem star_scan_true (m : List Char → Bool) (s : List Char) (h : star_scan m s = true) :
    ∃ run rest, s = run ++ rest ∧ m rest = true := by
  induction s with
  | nil => simp [star_scan] at h
  | cons c cs ih =>
    unfold star_scan at h
    by_cases hm : m (c :: cs) = true
    · exact ⟨[], c :: cs, rfl, hm⟩
    · simp only [hm, Bool.false_eq_true, if_false] at h
      obtain ⟨run, rest, h1, h2⟩ := ih h
      exact ⟨c :: run, rest, by simp [h1], h2⟩

theorem star_scan_of_suffix (m : List Char → Bool) (run rest : List Char) (hne : rest ≠ [])
    (h : m rest = true) : star_scan m (run ++ rest) = true := by
  induction run with
  | nil =>
    cases rest with
    | nil => exact absurd rfl hne
    | cons c cs => simp [star_scan, h]
  | cons c cs ih =>
    simp only [List.cons_append, star_scan]
    split
    · rfl
    · exact ih

theorem wildcard_match_nil_right (p : List Char) :
    wildcard_match p [] = (skip_stars p).isEmpty := by
  cases p with
  | nil => rfl
  | cons q ps => rfl

theorem wildcard_match_all_stars (p : List Char) (h : skip_stars p = []) (hne : p ≠ [])
    (s : List Char) : wildcard_match p s = true := by
  induction p generalizing s with
  | nil => exact absurd rfl hne
  | cons q ps ih =>
    have hq : q = '*' := by
      by_contra hq
      simp [skip_stars, hq] at h
    subst hq
    simp only [skip_stars, if_true] at h
    cases s with
    | nil => simp [wildcard_match, skip_stars, h]
    | cons c cs =>
      simp only [wildcard_match, if_true]
      by_cases hps : ps = []
      · simp [hps]
      · have hps' : ps.isEmpty = false := by
          cases ps with
          | nil => exact absurd rfl hps
          | cons _ _ => rfl
        simp only [hps', Bool.false_eq_true, if_false]
        simp [star_scan, ih h hps (c :: cs)]

theorem wildcard_match_sound (p s : List Char) (h : wildcard_match p s = true) :
    GlobMatch p s := by
  induction p generalizing s with
  | nil =>
    cases s with
    | nil => exact GlobMatch.nil
    | cons c cs => simp [wildcard_match] at h
  | cons q ps ih =>
    cases s with
    | nil =>
      rw [wildcard_match_nil_right] at h
      exact globMatch_of_skip_stars _ (by simpa using h)
    | cons c cs =>
      simp only [wildcard_match] at h
      by_cases hq : q = '*'
      · subst hq
        simp only [if_true] at h
        by_cases hps : ps.isEmpty = true
        · have : ps = [] := by simpa using hps
          subst this
          have := GlobMatch.star [] (c :: cs) [] GlobMatch.nil
          simpa using this
        · simp only [hps, Bool.false_eq_true, if_false] at h
          obtain ⟨run, rest, h1, h2⟩ := star_scan_true _ _ h
          rw [h1]
          exact GlobMatch.star ps run rest (ih rest h2)
      · simp only [hq, if_false] at h
        by_cases hq2 : q = '?'
        · subst hq2
          simp only [true_or, if_true] at h
          exact GlobMatch.any ps c cs (ih cs h)
        · by_cases hl : tolower q = tolower c
          · simp only [hl, or_true, if_true] at h
            exact GlobMatch.lit q ps c cs hq hq2 hl (ih cs h)
          · simp [hq2, hl] at h

theorem wildcard_match_complete (p s : List Char) (h : GlobMatch p s) :
    wildcard_match p s = true := by
  induction h with
  | nil => rfl
  | star ps run rest hrest ih =>
    cases hs : run ++ rest with
    | nil =>
      simp only [List.append_eq_nil] at hs
      rw [wildcard_match_nil_right]
      simp only [skip_stars, if_true]
      have := skip_stars_of_globMatch ps rest hrest hs.2
      simp [this]
    | cons c cs =>
      simp only [wildcard_match, if_true]
      by_cases hps : ps.isEmpty = true
      · simp [hps]
      · simp only [hps, Bool.false_eq_true, if_false]
        rw [← hs]
        by_cases hr : rest = []
        · have hall := skip_stars_of_globMatch ps rest hrest hr
          have hne : ps ≠ [] := by
            intro hnil
            simp [hnil] at hps
          rw [hs]
          simp [star_scan, wildcard_match_all_stars ps hall hne (c :: cs)]
        · exact star_scan_of_suffix _ run rest hr ih
  | any ps c cs _ ih =>
    simp only [wildcard_match]
    simp [ih]
  | lit q ps c cs hq hq2 hl _ ih =>
    simp only [wildcard_match]
    simp [hq, hl, ih]

theorem wildcard_match_literal (p s : List Char) (hp : ∀ c ∈ p, c ≠ '*' ∧ c ≠ '?') :
    wildcard_match p s = true ↔ eq_ignore_case p s := by
  induction p generalizing s with
  | nil =>
    cases s with
    | nil => simp [wildcard_match, eq_ignore_case]
    | cons c cs => simp [wildcard_match, eq_ignore_case]
  | cons q ps ih =>
    have hq := hp q (List.mem_cons_self _ _)
    have hps : ∀ c ∈ ps, c ≠ '*' ∧ c ≠ '?' := fun c hc => hp c (List.mem_cons_of_mem _ hc)
    cases s with
    | nil => simp [wildcard_match, skip_stars, hq.1, eq_ignore_case]
    | cons c cs =>
      simp only [wildcard_match, hq.1, hq.2, if_false, false_or, eq_ignore_case,
        List.map_cons, List.cons.injEq]
      by_cases hl : tolower q = tolower c
      · simp only [hl, if_true, true_and]
        exact ih cs hps
      · simp [hl]

/-- C9. For every pattern `p` and text `s`, `wildcard_match(p, s)` is non-zero exactly when
the whole of `s` splits to match `p` with `*` taking any run of characters, `?` taking one
character and any other pattern character taking one character equal to it ignoring ASCII
case; and a pattern without `*` or `?` matches exactly the texts equal to it ignoring
case. -/
theorem C9_wildcard_match_glob (p s : List Char) :
    (wildcard_match p s = true ↔ GlobMatch p s)
      ∧ ((∀ c ∈ p, c ≠ '*' ∧ c ≠ '?') → (wildcard_match p s = true ↔ eq_ignore_case p s)) :=
  ⟨⟨wildcard_match_sound p s, wildcard_match_complete p s⟩, wildcard_match_literal p s⟩

/-- A run of C9: the literal pattern `lib` matches `LIB`, by the function and by the
relation. -/
theorem C9_wildcard_match_glob_witness :
    GlobMatch ['l', 'i', 'b'] ['L', 'I', 'B']
      ∧ eq_ignore_case ['l', 'i', 'b'] ['L', 'I', 'B'] :=
  ⟨(C9_wildcard_match_glob ['l', 'i', 'b'] ['L', 'I', 'B']).1.mp (by decide),
    ((C9_wildcard_match_glob ['l', 'i', 'b'] ['L', 'I', 'B']).2 (by decide)).mp (by decide)⟩

/-! ## The files of the tree and the eligible ones -/

theorem ends_with_dot (name : List Char) (h : name = ['.'] ∨ name = ['.', '.']) :
    ends_with name pde_suffix = false := by
  rcases h with rfl | rfl <;> decide

theorem chain_clean_append (ignore : List (List Char)) (above : List (List Char × List Char))
    (d : List Char × List Char) :
    chain_clean ignore (above ++ [d])
      = (chain_clean ignore above && (!(decide (strcasecmp_win d.1 output_name = 0))
          && !(should_ignore ignore d.2))) := by
  simp [chain_clean, List.all_append]

mutual
theorem eligible_of_located_listing (ignore : List (List Char)) :
    ∀ (listing : Option (List Node)) (dir_path relative_path : List Char)
      (above : List (List Char × List Char)),
    ((located_listing dir_path relative_path above listing).filter (eligible ignore)).map
        Located.entry
      = if chain_clean ignore above then eligible_listing ignore dir_path relative_path listing
        else []
  | none, dir_path, relative_path, above => by
    simp [located_listing, eligible_listing]
  | some children, dir_path, relative_path, above => by
    simp only [located_listing, eligible_listing]
    exact eligible_of_located_children ignore children dir_path relative_path above
theorem eligible_of_located_children (ignore : List (List Char)) :
    ∀ (children : List Node) (dir_path relative_path : List Char)
      (above : List (List Char × List Char)),
    ((located_children dir_path relative_path above children).filter (eligible ignore)).map
        Located.entry
      = if chain_clean ignore above then eligible_children ignore dir_path relative_path children
        else []
  | [], dir_path, relative_path, above => by
    simp [located_children, eligible_children]
  | n :: ns, dir_path, relative_path, above => by
    simp only [located_children, eligible_children, List.filter_append, List.map_append]
    rw [eligible_of_located_node ignore n dir_path relative_path above,
      eligible_of_located_children ignore ns dir_path relative_path above]
    split <;> simp
theorem eligible_of_located_node (ignore : List (List Char)) :
    ∀ (n : Node) (dir_path relative_path : List Char) (above : List (List Char × List Char)),
    ((located_node dir_path relative_path above n).filter (eligible ignore)).map Located.entry
      = if chain_clean ignore above then eligible_node ignore dir_path relative_path n
        else []
  | .file name, dir_path, relative_path, above => by
    simp only [located_node, eligible_node]
    by_cases hdot : name = ['.'] ∨ name = ['.', '.']
    · have := ends_with_dot name hdot
      simp [List.filter_cons, eligible, this, hdot]
    · by_cases hc : chain_clean ignore above = true
      · by_cases hi : should_ignore ignore (child_relative relative_path name) = true
        · simp [List.filter_cons, eligible, hdot, hc, hi]
        · by_cases he : ends_with name pde_suffix = true
          · simp [List.filter_cons, eligible, hdot, hc, hi, he, Located.entry]
          · simp [List.filter_cons, eligible, hdot, hc, hi, he]
      · simp [List.filter_cons, eligible, hc]
  | .dir name listing, dir_path, relative_path, above => by
    simp only [located_node, eligible_node]
    by_cases hdot : name = ['.'] ∨ name = ['.', '.']
    · simp [hdot]
    · simp only [hdot, if_false]
      rw [eligible_of_located_listing ignore listing, chain_clean_append]
      by_cases hc : chain_clean ignore above = true
      · by_cases ho : strcasecmp_win name output_name = 0
        · simp [hc, ho]
        · by_cases hi : should_ignore ignore (child_relative relative_path name) = true
          · simp [hc, ho, hi]
          · simp [hc, ho, hi]
      · simp [hc]
end

/-! ## The enumeration loop, the sorts and the ceiling -/

theorem scan_child_some (ignore : List (List Char)) (dir_path relative_path : List Char)
    (n : Node) (ds : List DirItem) (ps : List FileEntry) (ds' : List DirItem)
    (ps' : List FileEntry)
    (h : scan_child ignore dir_path relative_path n ds ps = some (ds', ps')) :
    ds' = ds ++ (dir_item ignore dir_path relative_path n).toList
      ∧ ps' = ps ++ (pde_item ignore dir_path relative_path n).toList := by
  cases n with
  | file name =>
    simp only [scan_child, Node.name, dir_item, pde_item] at h ⊢
    by_cases hdot : name = ['.'] ∨ name = ['.', '.']
    · simp only [hdot, if_true, Option.some.injEq, Prod.mk.injEq] at h ⊢
      simp [h.1, h.2]
    · simp only [hdot, if_false] at h ⊢
      by_cases hi : should_ignore ignore (child_relative relative_path name) = true
      · simp only [hi, if_true, Option.some.injEq, Prod.mk.injEq] at h ⊢
        simp [h.1, h.2]
      · simp only [hi, Bool.false_eq_true, if_false] at h ⊢
        by_cases he : ends_with name pde_suffix = true
        · simp only [he, if_true] at h ⊢
          by_cases hl : ps.length < DIR_SLOTS
          · simp only [hl, if_true, Option.some.injEq, Prod.mk.injEq] at h
            simp [h.1, h.2]
          · simp [hl] at h
        · simp only [he, Bool.false_eq_true, if_false, Option.some.injEq,
            Prod.mk.injEq] at h ⊢
          simp [h.1, h.2]
  | dir name listing =>
    simp only [scan_child, Node.name, dir_item, pde_item] at h ⊢
    by_cases hdot : name = ['.'] ∨ name = ['.', '.']
    · simp only [hdot, if_true, Option.some.injEq, Prod.mk.injEq] at h ⊢
      simp [h.1, h.2]
    · simp only [hdot, if_false] at h ⊢
      by_cases ho : strcasecmp_win name output_name = 0
      · simp only [ho, if_true, Option.some.injEq, Prod.mk.injEq] at h ⊢
        simp [h.1, h.2]
      · simp only [ho, if_false] at h ⊢
        by_cases hi : should_ignore ignore (child_relative relative_path name) = true
        · simp only [hi, if_true, Option.some.injEq, Prod.mk.injEq] at h ⊢
          simp [h.1, h.2]
        · simp only [hi, Bool.false_eq_true, if_false] at h ⊢
          by_cases hl : ds.length < DIR_SLOTS
          · simp only [hl, if_true, Option.some.injEq, Prod.mk.injEq] at h
            simp [h.1, h.2]
          · simp [hl] at h

theorem scan_children_some (ignore : List (List Char)) (dir_path relative_path : List Char)
    (ns : List Node) (ds : List DirItem) (ps : List FileEntry) (ds' : List DirItem)
    (ps' : List FileEntry)
    (h : scan_children ignore dir_path relative_path ns ds ps = some (ds', ps')) :
    ds' = ds ++ ns.filterMap (dir_item ignore dir_path relative_path)
      ∧ ps' = ps ++ ns.filterMap (pde_item ignore dir_path relative_path) := by
  induction ns generalizing ds ps with
  | nil =>
    simp only [scan_children, Option.some.injEq, Prod.mk.injEq] at h
    simp [h.1, h.2]
  | cons n ns ih =>
    unfold scan_children at h
    cases hc : scan_child ignore dir_path relative_path n ds ps with
    | none => simp [hc] at h
    | some r =>
      obtain ⟨ds1, ps1⟩ := r
      rw [hc] at h
      obtain ⟨h1, h2⟩ := scan_child_some _ _ _ _ _ _ _ _ hc
      obtain ⟨h3, h4⟩ := ih ds1 ps1 h
      rw [h3, h4, h1, h2, List.filterMap_cons, List.filterMap_cons]
      constructor
      · cases dir_item ignore dir_path relative_path n <;> simp
      · cases pde_item ignore dir_path relative_path n <;> simp

theorem sort_pass_perm {α : Type} (gt : α → α → Bool) (x : α) (xs : List α) :
    ((sort_pass gt x xs).1 :: (sort_pass gt x xs).2).Perm (x :: xs) := by
  induction xs generalizing x with
  | nil => simp [sort_pass]
  | cons y ys ih =>
    unfold sort_pass
    split
    · exact (List.Perm.swap _ _ _).trans ((ih y).cons x)
    · exact ((List.Perm.swap _ _ _).trans ((ih x).cons y)).trans (List.Perm.swap _ _ _)

theorem exchange_sort_perm {α : Type} (gt : α → α → Bool) (turns : Nat) (l : List α) :
    (exchange_sort gt turns l).Perm l := by
  induction turns generalizing l with
  | zero => simp [exchange_sort]
  | succ turns ih =>
    cases l with
    | nil => simp [exchange_sort]
    | cons x xs =>
      simp only [exchange_sort]
      exact ((ih _).cons _).trans (sort_pass_perm gt x xs)

theorem foldl_add_file (l files : List FileEntry) :
    l.foldl add_file files = files ++ l.take (MAX_FILES - files.length) := by
  induction l generalizing files with
  | nil => simp
  | cons f fs ih =>
    simp only [List.foldl_cons, ih, add_file]
    by_cases h : files.length < MAX_FILES
    · simp only [h, if_true, List.length_append, List.length_singleton, List.append_assoc,
        List.singleton_append]
      have : MAX_FILES - files.length = (MAX_FILES - (files.length + 1)) + 1 := by omega
      rw [this, List.take_succ_cons]
    · have : MAX_FILES - files.length = 0 := by omega
      simp [h, this]

theorem foldl_add_file_append (l1 l2 files : List FileEntry) :
    (l1 ++ l2).foldl add_file files = l2.foldl add_file (l1.foldl add_file files) := by
  rw [List.foldl_append]

theorem eligible_children_perm (ignore : List (List Char)) (dir_path relative_path : List Char)
    (children : List Node) :
    (eligible_children ignore dir_path relative_path children).Perm
      ((children.filterMap (dir_item ignore dir_path relative_path)).flatMap
          (fun d => eligible_listing ignore d.path d.relative d.listing)
        ++ children.filterMap (pde_item ignore dir_path relative_path)) := by
  induction children with
  | nil => simp [eligible_children]
  | cons n ns ih =>
    simp only [eligible_children, List.filterMap_cons]
    cases n with
    | file name =>
      simp only [eligible_node, dir_item, pde_item]
      by_cases hdot : name = ['.'] ∨ name = ['.', '.']
      · simpa [hdot] using ih
      · by_cases hi : should_ignore ignore (child_relative relative_path name) = true
        · simpa [hdot, hi] using ih
        · by_cases he : ends_with name pde_suffix = true
          · simp only [hdot, hi, he, if_false, if_true, Bool.false_eq_true,
              List.singleton_append]
            exact (ih.cons _).trans List.perm_middle.symm
          · simpa [hdot, hi, he] using ih
    | dir name listing =>
      simp only [eligible_node, dir_item, pde_item]
      by_cases hdot : name = ['.'] ∨ name = ['.', '.']
      · simpa [hdot] using ih
      · by_cases ho : strcasecmp_win name output_name = 0
        · simpa [hdot, ho] using ih
        · by_cases hi : should_ignore ignore (child_relative relative_path name) = true
          · simpa [hdot, ho, hi] using ih
          · simp only [hdot, ho, hi, if_false, Bool.false_eq_true, List.flatMap_cons,
              List.append_assoc]
            exact ih.append_left _

/-! ## What `collect_files` returns -/

theorem collect_directories_ok (ignore : List (List Char)) (fuel : Nat)
    (ih : ∀ (dp rel : List Char) (listing : Option (List Node)) (files r : List FileEntry),
      collect_files_fuel ignore fuel dp rel listing files = Collected.ok r →
      ∃ l : List FileEntry, l.Perm (eligible_listing ignore dp rel listing)
        ∧ r = l.foldl add_file files)
    (ds : List DirItem) (files r : List FileEntry)
    (h : collect_directories (collect_files_fuel ignore fuel) ds files = Collected.ok r) :
    ∃ l : List FileEntry,
      l.Perm (ds.flatMap (fun d => eligible_listing ignore d.path d.relative d.listing))
        ∧ r = l.foldl add_file files := by
  induction ds generalizing files with
  | nil =>
    simp only [collect_directories, Collected.ok.injEq] at h
    exact ⟨[], by simp, by simp [h]⟩
  | cons d ds ihd =>
    unfold collect_directories at h
    cases hc : collect_files_fuel ignore fuel d.path d.relative d.listing files with
    | ok r1 =>
      rw [hc] at h
      obtain ⟨l1, hl1, hr1⟩ := ih _ _ _ _ _ hc
      obtain ⟨l2, hl2, hr2⟩ := ihd r1 h
      refine ⟨l1 ++ l2, ?_, ?_⟩
      · simp only [List.flatMap_cons]
        exact hl1.append hl2
      · rw [foldl_add_file_append, ← hr1, hr2]
    | overflow => simp [hc] at h
    | out_of_fuel => simp [hc] at h

theorem collect_files_fuel_ok (ignore : List (List Char)) (fuel : Nat) :
    ∀ (dp rel : List Char) (listing : Option (List Node)) (files r : List FileEntry),
      collect_files_fuel ignore fuel dp rel listing files = Collected.ok r →
      ∃ l : List FileEntry, l.Perm (eligible_listing ignore dp rel listing)
        ∧ r = l.foldl add_file files := by
  induction fuel with
  | zero =>
    intro dp rel listing files r h
    simp [collect_files_fuel] at h
  | succ fuel ih =>
    intro dp rel listing files r h
    unfold collect_files_fuel at h
    cases listing with
    | none =>
      simp only [Collected.ok.injEq] at h
      exact ⟨[], by simp [eligible_listing], by simp [h]⟩
    | some children =>
      simp only at h
      cases hs : scan_children ignore dp rel children [] [] with
      | none => simp [hs] at h
      | some sp =>
        obtain ⟨ds, ps⟩ := sp
        rw [hs] at h
        simp only at h
        obtain ⟨hds, hps⟩ := scan_children_some _ _ _ _ _ _ _ _ hs
        simp only [List.nil_append] at hds hps
        cases hc : collect_directories (collect_files_fuel ignore fuel)
            (sort_directories ds) files with
        | ok r1 =>
          rw [hc] at h
          simp only [Collected.ok.injEq] at h
          obtain ⟨l1, hl1, hr1⟩ := collect_directories_ok ignore fuel ih _ _ _ hc
          refine ⟨l1 ++ sort_pde_files ps, ?_, ?_⟩
          · simp only [eligible_listing]
            refine List.Perm.trans ?_ (eligible_children_perm ignore dp rel children).symm
            rw [← hds, ← hps]
            refine List.Perm.append (hl1.trans ?_) (exchange_sort_perm _ _ _)
            exact List.Perm.flatMap_right _ (exchange_sort_perm _ _ _)
          · rw [foldl_add_file_append, ← hr1, h]
        | overflow => simp [hc] at h
        | out_of_fuel => simp [hc] at h

theorem depth_node_le_children (children : List Node) (n : Node) (h : n ∈ children) :
    depth_node n ≤ depth_children children := by
  induction children with
  | nil => simp at h
  | cons c cs ih =>
    simp only [depth_children]
    rcases List.mem_cons.mp h with rfl | h
    · exact le_max_left _ _
    · exact le_trans (ih h) (le_max_right _ _)

theorem dir_item_depth (ignore : List (List Char)) (dp rel : List Char) (n : Node)
    (d : DirItem) (h : dir_item ignore dp rel n = some d) :
    depth_listing d.listing = depth_node n := by
  cases n with
  | file name => simp [dir_item] at h
  | dir name listing =>
    simp only [dir_item] at h
    split at h
    · simp at h
    · split at h
      · simp at h
      · split at h
        · simp at h
        · simp only [Option.some.injEq] at h
          subst h
          simp [depth_node]

theorem collect_directories_fuel (ignore : List (List Char)) (fuel : Nat)
    (ds : List DirItem)
    (ih : ∀ d ∈ ds, ∀ files : List FileEntry,
      collect_files_fuel ignore fuel d.path d.relative d.listing files
        ≠ Collected.out_of_fuel)
    (files : List FileEntry) :
    collect_directories (collect_files_fuel ignore fuel) ds files ≠ Collected.out_of_fuel := by
  induction ds generalizing files with
  | nil => simp [collect_directories]
  | cons d ds ihd =>
    unfold collect_directories
    cases hc : collect_files_fuel ignore fuel d.path d.relative d.listing files with
    | ok r1 =>
      simp only
      exact ihd (fun d' hd' => ih d' (List.mem_cons_of_mem _ hd')) r1
    | overflow => simp
    | out_of_fuel => exact absurd hc (ih d (List.mem_cons_self _ _) files)

theorem collect_files_fuel_enough (ignore : List (List Char)) (fuel : Nat) :
    ∀ (dp rel : List Char) (listing : Option (List Node)) (files : List FileEntry),
      depth_listing listing < fuel →
      collect_files_fuel ignore fuel dp rel listing files ≠ Collected.out_of_fuel := by
  induction fuel with
  | zero =>
    intro dp rel listing files h
    omega
  | succ fuel ih =>
    intro dp rel listing files hdepth
    unfold collect_files_fuel
    cases listing with
    | none => simp
    | some children =>
      simp only
      cases hs : scan_children ignore dp rel children [] [] with
      | none => simp
      | some sp =>
        obtain ⟨ds, ps⟩ := sp
        simp only
        obtain ⟨hds, _⟩ := scan_children_some _ _ _ _ _ _ _ _ hs
        simp only [List.nil_append] at hds
        have hdir : ∀ d ∈ sort_directories ds, ∀ files : List FileEntry,
            collect_files_fuel ignore fuel d.path d.relative d.listing files
              ≠ Collected.out_of_fuel := by
          intro d hd files
          apply ih
          have hd' : d ∈ ds := (exchange_sort_perm _ _ _).mem_iff.mp hd
          rw [hds, List.mem_filterMap] at hd'
          obtain ⟨n, hn, hnd⟩ := hd'
          have h1 := dir_item_depth _ _ _ _ _ hnd
          have h2 := depth_node_le_children _ _ hn
          simp only [depth_listing] at hdepth
          omega
        have := collect_directories_fuel ignore fuel _ hdir files
        cases hc : collect_directories (collect_files_fuel ignore fuel)
            (sort_directories ds) files with
        | ok r1 => simp
        | overflow => simp
        | out_of_fuel => exact absurd hc this

theorem collect_files_total (ignore : List (List Char)) (dp rel : List Char)
    (listing : Option (List Node)) (files : List FileEntry) :
    collect_files ignore dp rel listing files = Collected.overflow
      ∨ ∃ r, collect_files ignore dp rel listing files = Collected.ok r := by
  have := collect_files_fuel_enough ignore (depth_listing listing + 1) dp rel listing files
    (Nat.lt_succ_self _)
  unfold collect_files
  cases hc : collect_files_fuel ignore (depth_listing listing + 1) dp rel listing files with
  | ok r => exact Or.inr ⟨r, rfl⟩
  | overflow => exact Or.inl rfl
  | out_of_fuel => exact absurd hc this

/-! ## When the per-directory arrays are large enough -/

theorem scan_child_length (ignore : List (List Char)) (dp rel : List Char) (n : Node)
    (ds : List DirItem) (ps : List FileEntry) (hd : ds.length < DIR_SLOTS)
    (hp : ps.length < DIR_SLOTS) :
    ∃ ds' ps', scan_child ignore dp rel n ds ps = some (ds', ps')
      ∧ ds'.length ≤ ds.length + 1 ∧ ps'.length ≤ ps.length + 1 := by
  cases n with
  | file name =>
    simp only [scan_child, Node.name]
    split
    · exact ⟨ds, ps, rfl, by omega, by omega⟩
    · split
      · exact ⟨ds, ps, rfl, by omega, by omega⟩
      · split
        · exact ⟨ds, _, rfl, by omega, by simp⟩
        · exact ⟨ds, ps, rfl, by omega, by omega⟩
  | dir name listing =>
    simp only [scan_child, Node.name]
    split
    · exact ⟨ds, ps, rfl, by omega, by omega⟩
    · split
      · exact ⟨ds, ps, rfl, by omega, by omega⟩
      · split
        · exact ⟨ds, ps, rfl, by omega, by omega⟩
        · exact ⟨_, ps, rfl, by simp, by omega⟩

theorem scan_children_ne_none (ignore : List (List Char)) (dp rel : List Char)
    (ns : List Node) (ds : List DirItem) (ps : List FileEntry)
    (hd : ds.length + ns.length ≤ DIR_SLOTS) (hp : ps.length + ns.length ≤ DIR_SLOTS) :
    scan_children ignore dp rel ns ds ps ≠ none := by
  induction ns generalizing ds ps with
  | nil => simp [scan_children]
  | cons n ns ih =>
    simp only [List.length_cons] at hd hp
    obtain ⟨ds', ps', h1, h2, h3⟩ :=
      scan_child_length ignore dp rel n ds ps (by omega) (by omega)
    unfold scan_children
    rw [h1]
    exact ih ds' ps' (by omega) (by omega)

theorem small_node_of_mem (children : List Node) (n : Node) (hs : small_children children = true)
    (hn : n ∈ children) : small_node n = true := by
  induction children with
  | nil => simp at hn
  | cons c cs ih =>
    simp only [small_children, Bool.and_eq_true] at hs
    rcases List.mem_cons.mp hn with rfl | hn
    · exact hs.1
    · exact ih hs.2 hn

theorem dir_item_small (ignore : List (List Char)) (dp rel : List Char) (n : Node)
    (d : DirItem) (h : dir_item ignore dp rel n = some d) (hs : small_node n = true) :
    small_listing d.listing = true := by
  cases n with
  | file name => simp [dir_item] at h
  | dir name listing =>
    simp only [dir_item] at h
    split at h
    · simp at h
    · split at h
      · simp at h
      · split at h
        · simp at h
        · simp only [Option.some.injEq] at h
          subst h
          simpa [small_node] using hs

theorem collect_directories_no_overflow (ignore : List (List Char)) (fuel : Nat)
    (ds : List DirItem)
    (ih : ∀ d ∈ ds, ∀ files : List FileEntry,
      collect_files_fuel ignore fuel d.path d.relative d.listing files ≠ Collected.overflow)
    (files : List FileEntry) :
    collect_directories (collect_files_fuel ignore fuel) ds files ≠ Collected.overflow := by
  induction ds generalizing files with
  | nil => simp [collect_directories]
  | cons d ds ihd =>
    unfold collect_directories
    cases hc : collect_files_fuel ignore fuel d.path d.relative d.listing files with
    | ok r1 =>
      simp only
      exact ihd (fun d' hd' => ih d' (List.mem_cons_of_mem _ hd')) r1
    | overflow => exact absurd hc (ih d (List.mem_cons_self _ _) files)
    | out_of_fuel => simp

theorem collect_files_fuel_no_overflow (ignore : List (List Char)) (fuel : Nat) :
    ∀ (dp rel : List Char) (listing : Option (List Node)) (files : List FileEntry),
      small_listing listing = true →
      collect_files_fuel ignore fuel dp rel listing files ≠ Collected.overflow := by
  induction fuel with
  | zero =>
    intro dp rel listing files _
    simp [collect_files_fuel]
  | succ fuel ih =>
    intro dp rel listing files hsmall
    unfold collect_files_fuel
    cases listing with
    | none => simp
    | some children =>
      simp only [small_listing, Bool.and_eq_true, decide_eq_true_eq] at hsmall
      simp only
      cases hs : scan_children ignore dp rel children [] [] with
      | none =>
        exact absurd hs (scan_children_ne_none ignore dp rel children [] []
          (by simpa using hsmall.1) (by simpa using hsmall.1))
      | some sp =>
        obtain ⟨ds, ps⟩ := sp
        simp only
        obtain ⟨hds, _⟩ := scan_children_some _ _ _ _ _ _ _ _ hs
        simp only [List.nil_append] at hds
        have hdir : ∀ d ∈ sort_directories ds, ∀ files : List FileEntry,
            collect_files_fuel ignore fuel d.path d.relative d.listing files
              ≠ Collected.overflow := by
          intro d hd files
          apply ih
          have hd' : d ∈ ds := (exchange_sort_perm _ _ _).mem_iff.mp hd
          rw [hds, List.mem_filterMap] at hd'
          obtain ⟨n, hn, hnd⟩ := hd'
          exact dir_item_small _ _ _ _ _ hnd (small_node_of_mem _ _ hsmall.2 hn)
        have := collect_directories_no_overflow ignore fuel _ hdir files
        cases hc : collect_directories (collect_files_fuel ignore fuel)
            (sort_directories ds) files with
        | ok r1 => simp
        | overflow => exact absurd hc this
        | out_of_fuel => simp

/-- When no directory lists more than 1000 children, `collect_files` produces a sequence. -/
theorem collect_files_ok_of_small (ignore : List (List Char)) (dp rel : List Char)
    (listing : Option (List Node)) (files : List FileEntry)
    (hsmall : small_listing listing = true) :
    ∃ r, collect_files ignore dp rel listing files = Collected.ok r := by
  rcases collect_files_total ignore dp rel listing files with h | h
  · exact absurd h (collect_files_fuel_no_overflow ignore _ dp rel listing files hsmall)
  · exact h

/-! ## C10: ignore precedence -/

theorem should_ignore_false_iff (ignore : List (List Char)) (relative_path : List Char) :
    should_ignore ignore relative_path = false
      ↔ ∀ pattern ∈ ignore, wildcard_match pattern relative_path = false := by
  induction ignore with
  | nil => simp [should_ignore]
  | cons p ps ih =>
    simp only [should_ignore, List.mem_cons, forall_eq_or_imp]
    by_cases h : wildcard_match p relative_path = true
    · simp [h]
    · simp only [Bool.not_eq_true] at h
      simp [h, ih]

theorem eligible_chain (ignore : List (List Char)) (loc : Located)
    (h : eligible ignore loc = true) :
    should_ignore ignore loc.relative = false
      ∧ ∀ d ∈ loc.above, should_ignore ignore d.2 = false
          ∧ strcasecmp_win d.1 output_name ≠ 0 := by
  simp only [eligible, chain_clean, Bool.and_eq_true, Bool.not_eq_true', List.all_eq_true,
    decide_eq_false_iff_not] at h
  refine ⟨h.1.2, ?_⟩
  intro d hd
  exact ⟨(h.2 d hd).2, (h.2 d hd).1⟩

/-- C10, as amended. For every directory tree and every list of ignore patterns,
`collect_files` from the root either writes past a per-directory array of 1000 slots or
produces a sequence in which no fragment has a relative path matched (`wildcard_match`) by
an ignore pattern, and every fragment is a file of the tree that lies beneath no directory
whose relative path is matched by an ignore pattern and beneath no directory called `output`
ignoring case; conversely, when the tree holds at most 10000 such files, every `.pde` file
(extension compared ignoring case) that is not ignored and lies beneath no ignored directory
and no directory called `output` ignoring case is in the sequence. -/
theorem C10_ignore_precedence (ignore : List (List Char)) (dir_path : List Char)
    (listing : Option (List Node)) :
    collect_files ignore dir_path [] listing [] = Collected.overflow
      ∨ ∃ seq : List FileEntry,
          collect_files ignore dir_path [] listing [] = Collected.ok seq
          ∧ (∀ f ∈ seq, ∀ pattern ∈ ignore, wildcard_match pattern f.relative = false)
          ∧ (∀ f ∈ seq, ∃ loc ∈ located_listing dir_path [] [] listing,
              loc.entry = f ∧ eligible ignore loc = true
                ∧ ∀ d ∈ loc.above,
                    (∀ pattern ∈ ignore, wildcard_match pattern d.2 = false)
                    ∧ strcasecmp_win d.1 output_name ≠ 0)
          ∧ (((located_listing dir_path [] [] listing).filter (eligible ignore)).length
                ≤ MAX_FILES →
              ∀ loc ∈ located_listing dir_path [] [] listing, eligible ignore loc = true →
                loc.entry ∈ seq) := by
  rcases collect_files_total ignore dir_path [] listing [] with h | ⟨seq, h⟩
  · exact Or.inl h
  · refine Or.inr ⟨seq, h, ?_⟩
    obtain ⟨l, hl, hseq⟩ := collect_files_fuel_ok ignore _ _ _ _ _ _ h
    have hspec := eligible_of_located_listing ignore listing dir_path [] []
    have hclean : chain_clean ignore [] = true := rfl
    rw [hclean, if_pos rfl] at hspec
    rw [← hspec] at hl
    rw [foldl_add_file] at hseq
    simp only [List.nil_append, List.length_nil, Nat.sub_zero] at hseq
    have hmem : ∀ f ∈ seq, ∃ loc ∈ located_listing dir_path [] [] listing,
        loc.entry = f ∧ eligible ignore loc = true := by
      intro f hf
      rw [hseq] at hf
      have hf' := hl.mem_iff.mp (List.mem_of_mem_take hf)
      rw [List.mem_map] at hf'
      obtain ⟨loc, hloc, hlf⟩ := hf'
      rw [List.mem_filter] at hloc
      exact ⟨loc, hloc.1, hlf, hloc.2⟩
    refine ⟨?_, ?_, ?_⟩
    · intro f hf
      obtain ⟨loc, _, hlf, he⟩ := hmem f hf
      rw [← hlf]
      exact (should_ignore_false_iff ignore _).mp (eligible_chain ignore loc he).1
    · intro f hf
      obtain ⟨loc, hloc, hlf, he⟩ := hmem f hf
      refine ⟨loc, hloc, hlf, he, ?_⟩
      intro d hd
      have := (eligible_chain ignore loc he).2 d hd
      exact ⟨(should_ignore_false_iff ignore _).mp this.1, this.2⟩
    · intro hcount loc hloc he
      have hlen : l.length ≤ MAX_FILES := by
        rw [hl.length_eq, List.length_map]
        exact hcount
      rw [hseq, List.take_of_length_le hlen]
      apply hl.mem_iff.mpr
      rw [List.mem_map]
      exact ⟨loc, List.mem_filter.mpr ⟨hloc, he⟩, rfl⟩

/-- A run of C10 on the example tree with the pattern `lib*`: a sequence is produced and
none of its relative paths is ignored. -/
theorem C10_ignore_precedence_witness :
    ∃ seq : List FileEntry,
      collect_files [['l', 'i', 'b', '*']] ['C', ':'] [] example_tree [] = Collected.ok seq
        ∧ ∀ f ∈ seq, ∀ pattern ∈ [['l', 'i', 'b', '*']],
            wildcard_match pattern f.relative = false :=
  (C10_ignore_precedence [['l', 'i', 'b', '*']] ['C', ':'] example_tree).elim
    (fun h => absurd h (by decide))
    (fun h => h.elim (fun seq hs => ⟨seq, hs.1, hs.2.1⟩))

/-- C10 fails as stated: with no ignore pattern, the sketch `Output/a.pde` is a `.pde` file
with no ignored path prefix and no directory above it named `output`, in a tree of one
sketch, and the sequence collected is empty. -/
theorem C10_counterexample :
    collect_files [] ['C', ':'] [] capital_output_tree [] = Collected.ok []
      ∧ capital_output_sketch ∈ located_listing ['C', ':'] [] [] capital_output_tree
      ∧ eligible_exact_name [] capital_output_sketch = true
      ∧ ((located_listing ['C', ':'] [] [] capital_output_tree).filter
          (eligible_exact_name [])).length ≤ MAX_FILES
      ∧ capital_output_sketch.entry ∉ ([] : List FileEntry) := by
  decide

/-! ## C20: `wildcard_match` is total -/

theorem star_scan_fuel_eq (m : List Char → Option Int) (f : List Char → Bool)
    (h : ∀ t, m t = some (if f t then 1 else 0)) (s : List Char) :
    star_scan_fuel m s = some (if star_scan f s then 1 else 0) := by
  induction s with
  | nil => simp [star_scan_fuel, star_scan]
  | cons c cs ih =>
    simp only [star_scan_fuel, star_scan, h]
    by_cases hf : f (c :: cs) = true <;> simp [hf, ih]

/-- More steps than the pattern has characters are enough for `wildcard_match` to return,
and it returns 1 or 0. -/
theorem wildcard_match_fuel_eq : ∀ (fuel : Nat) (pattern str : List Char),
    pattern.length < fuel →
    wildcard_match_fuel fuel pattern str = some (if wildcard_match pattern str then 1 else 0)
  | 0, _, _, h => by omega
  | fuel + 1, [], [], _ => by simp [wildcard_match_fuel, wildcard_match, skip_stars]
  | fuel + 1, [], c :: cs, _ => by simp [wildcard_match_fuel, wildcard_match, skip_stars]
  | fuel + 1, p :: ps, [], _ => by
    simp [wildcard_match_fuel, wildcard_match]
  | fuel + 1, p :: ps, c :: cs, h => by
    have hl : ps.length < fuel := by simp only [List.length_cons] at h; omega
    simp only [wildcard_match_fuel, wildcard_match]
    by_cases hp : p = '*'
    · simp only [hp, if_true]
      by_cases he : ps.isEmpty = true
      · simp [he]
      · simp only [he, Bool.false_eq_true, if_false]
        exact star_scan_fuel_eq _ _ (fun t => wildcard_match_fuel_eq fuel ps t hl) _
    · simp only [hp, if_false]
      by_cases hq : p = '?' ∨ tolower p = tolower c
      · simp only [hq, if_true]
        exact wildcard_match_fuel_eq fuel ps cs hl
      · simp [hq]

theorem star_calls_mem (pattern : List Char) :
    ∀ (str : List Char) (c : List Char × List Char), c ∈ star_calls pattern str →
      c.1 = pattern ∧ c.2 <:+ str
  | [], c, h => by simp [star_calls] at h
  | x :: xs, c, h => by
    simp only [star_calls, List.mem_cons] at h
    rcases h with h | h
    · subst h
      exact ⟨rfl, List.suffix_refl _⟩
    · by_cases hm : wildcard_match pattern (x :: xs) = true
      · simp [hm] at h
      · simp only [hm, Bool.false_eq_true, if_false] at h
        obtain ⟨h1, h2⟩ := star_calls_mem pattern xs c h
        exact ⟨h1, h2.trans (List.suffix_cons x xs)⟩

theorem wildcard_calls_mem :
    ∀ (pattern str : List Char) (c : List Char × List Char), c ∈ wildcard_calls pattern str →
      c.1.length < pattern.length ∧ c.2 <:+ str
  | [], _, c, h => by simp [wildcard_calls] at h
  | _ :: _, [], c, h => by simp [wildcard_calls] at h
  | p :: ps, x :: xs, c, h => by
    simp only [wildcard_calls] at h
    by_cases hp : p = '*'
    · simp only [hp, if_true] at h
      by_cases he : ps.isEmpty = true
      · simp [he] at h
      · simp only [he, Bool.false_eq_true, if_false] at h
        obtain ⟨h1, h2⟩ := star_calls_mem ps (x :: xs) c h
        exact ⟨by simp [h1], h2⟩
    · simp only [hp, if_false] at h
      by_cases hq : p = '?' ∨ tolower p = tolower x
      · simp only [hq, if_true] at h
        obtain ⟨h1, h2⟩ := wildcard_calls_mem ps xs c h
        exact ⟨by simp only [List.length_cons]; omega, h2.trans (List.suffix_cons x xs)⟩
      · simp [hq] at h

/-- C20: for every pattern and every text, `wildcard_match` returns, and it returns 1 or 0
(a computation bounded by one step more than the pattern has characters gives the value, 1
exactly when the match holds); every recursive call it makes is on a strictly shorter
pattern and on a suffix of the text. -/
theorem C20_wildcard_match_total (pattern str : List Char) :
    wildcard_match_fuel (pattern.length + 1) pattern str
        = some (if wildcard_match pattern str then 1 else 0)
      ∧ ∀ c ∈ wildcard_calls pattern str, c.1.length < pattern.length ∧ c.2 <:+ str :=
  ⟨wildcard_match_fuel_eq _ pattern str (Nat.lt_succ_self _),
    wildcard_calls_mem pattern str⟩

theorem C20_wildcard_match_total_witness :
    wildcard_match_fuel 5 ['x', '*', 'a', '*'] ['x', 'b', 'a', 'b'] = some 1
      ∧ (['a', '*'], ['a', 'b']) ∈ wildcard_calls ['x', '*', 'a', '*'] ['x', 'b', 'a', 'b']
      ∧ (2 < 4 ∧ ['a', 'b'] <:+ ['x', 'b', 'a', 'b']) :=
  ⟨by decide, by decide,
    (C20_wildcard_match_total ['x', '*', 'a', '*'] ['x', 'b', 'a', 'b']).2
      (['a', '*'], ['a', 'b']) (by decide)⟩

/-! ## C13: chunk boundaries -/

theorem feed_chunk_append (line_map : List LineMapping) (total_lines : Int) (st : Reassembly)
    (a b : List Char) :
    feed_chunk line_map total_lines st (a ++ b)
      = feed_chunk line_map total_lines (feed_chunk line_map total_lines st a) b := by
  simp only [feed_chunk, List.foldl_append]

/-- C13: whatever the state of a stream (line buffer, emitted output) and however a byte
sequence is split into consecutive chunks, feeding the chunks in order leaves the same
line buffer and the same emitted output as feeding the whole sequence as one chunk; the
final flush then emits the same text as well. -/
theorem C13_chunk_boundary_invariance (line_map : List LineMapping) (total_lines : Int)
    (st : Reassembly) (chunks : List (List Char)) :
    feed_chunks line_map total_lines st chunks
        = feed_chunk line_map total_lines st chunks.flatten
      ∧ final_flush line_map total_lines (feed_chunks line_map total_lines st chunks)
        = final_flush line_map total_lines
            (feed_chunk line_map total_lines st chunks.flatten) := by
  have h : ∀ (chunks : List (List Char)) (st : Reassembly),
      feed_chunks line_map total_lines st chunks
        = feed_chunk line_map total_lines st chunks.flatten := by
    intro chunks
    induction chunks with
    | nil => intro st; rfl
    | cons c cs ih =>
      intro st
      rw [List.flatten_cons, feed_chunk_append, ← ih]
      rfl
  exact ⟨h chunks st, by rw [h chunks st]⟩

/-! ## Decimal text: `%d` against `strtol` -/

theorem isdigit_not_isspace (c : Char) (h : isdigit c = true) : isspace c = false := by
  by_contra hs
  simp only [isspace, Bool.or_eq_true, decide_eq_true_eq, Bool.not_eq_false] at hs
  rcases hs with ((((hs | hs) | hs) | hs) | hs) | hs <;> subst hs <;> exact absurd h (by decide)

theorem isdigit_not_sign (c : Char) (h : isdigit c = true) : c ≠ '-' ∧ c ≠ '+' := by
  constructor <;> intro hc <;> subst hc <;> exact absurd h (by decide)

theorem digitChar_spec : ∀ k, k < 10 →
    isdigit (Nat.digitChar k) = true ∧ digit_value (Nat.digitChar k) = k := by
  decide

theorem digits_value_append (xs : List Char) (c : Char) :
    digits_value (xs ++ [c]) = digits_value xs * 10 + digit_value c := by
  simp [digits_value, List.foldl_append]

theorem toDigitsCore_append : ∀ (fuel n : Nat) (ds : List Char),
    Nat.toDigitsCore 10 fuel n ds = Nat.toDigitsCore 10 fuel n [] ++ ds
  | 0, _, ds => by simp [Nat.toDigitsCore]
  | fuel + 1, n, ds => by
    simp only [Nat.toDigitsCore]
    by_cases h : n / 10 = 0
    · simp [h]
    · simp only [h, if_false]
      rw [toDigitsCore_append fuel (n / 10) (Nat.digitChar (n % 10) :: ds),
        toDigitsCore_append fuel (n / 10) [Nat.digitChar (n % 10)]]
      simp

theorem toDigitsCore_spec : ∀ (fuel n : Nat), n < fuel →
    (∀ c ∈ Nat.toDigitsCore 10 fuel n [], isdigit c = true)
      ∧ Nat.toDigitsCore 10 fuel n [] ≠ []
      ∧ digits_value (Nat.toDigitsCore 10 fuel n []) = n
  | 0, _, h => by omega
  | fuel + 1, n, h => by
    have hd := digitChar_spec (n % 10) (Nat.mod_lt _ (by decide))
    simp only [Nat.toDigitsCore]
    by_cases h0 : n / 10 = 0
    · simp only [h0, if_true]
      refine ⟨by simpa using hd.1, by simp, ?_⟩
      have : digits_value [Nat.digitChar (n % 10)] = digit_value (Nat.digitChar (n % 10)) := by
        simp [digits_value]
      rw [this, hd.2]
      omega
    · simp only [h0, if_false]
      have hlt : n / 10 < fuel := by omega
      obtain ⟨h1, h2, h3⟩ := toDigitsCore_spec fuel (n / 10) hlt
      rw [toDigitsCore_append]
      refine ⟨?_, by simp, ?_⟩
      · intro c hc
        rcases List.mem_append.1 hc with hc | hc
        · exact h1 c hc
        · rw [List.mem_singleton.1 hc]; exact hd.1
      · rw [digits_value_append, h3, hd.2]
        omega

/-- The text of `%d` for a number that is not negative is a non-empty run of digits that
writes the number. -/
theorem fmt_d_spec (n : Int) (h : 0 ≤ n) :
    (∀ c ∈ fmt_d n, isdigit c = true) ∧ fmt_d n ≠ [] ∧ (digits_value (fmt_d n) : Int) = n := by
  have hn : ¬ n < 0 := by omega
  simp only [fmt_d, hn, if_false, Nat.toDigits]
  obtain ⟨h1, h2, h3⟩ := toDigitsCore_spec (n.toNat + 1) n.toNat (Nat.lt_succ_self _)
  refine ⟨h1, h2, ?_⟩
  rw [h3]
  omega

theorem takeWhile_digits (ds tail : List Char) (hd : ∀ c ∈ ds, isdigit c = true)
    (ht : ∀ c ∈ tail.head?, isdigit c = false) :
    (ds ++ tail).takeWhile isdigit = ds ∧ (ds ++ tail).dropWhile isdigit = tail := by
  induction ds with
  | nil =>
    cases tail with
    | nil => simp
    | cons t ts =>
      have := ht t (by simp)
      simp [List.takeWhile, List.dropWhile, this]
  | cons d ds ih =>
    have h1 := hd d (by simp)
    have h2 := ih (fun c hc => hd c (by simp [hc]))
    simp [List.takeWhile, List.dropWhile, h1, h2.1, h2.2]

/-- What `strtol` does with a run of digits that is followed by something else. -/
theorem strtol_digits (ds tail : List Char) (hne : ds ≠ []) (hd : ∀ c ∈ ds, isdigit c = true)
    (ht : ∀ c ∈ tail.head?, isdigit c = false) :
    strtol (ds ++ tail) = (min (digits_value ds : Int) LONG_MAX, tail) := by
  obtain ⟨d, ds1, rfl⟩ := List.exists_cons_of_ne_nil hne
  have hdig := hd d (by simp)
  have hsp := isdigit_not_isspace d hdig
  obtain ⟨hm, hp⟩ := isdigit_not_sign d hdig
  obtain ⟨h1, h2⟩ := takeWhile_digits (d :: ds1) tail hd ht
  have hdrop : (d :: ds1 ++ tail).dropWhile isspace = d :: ds1 ++ tail := by
    simp [List.dropWhile, hsp]
  simp only [strtol, hdrop]
  simp only [List.cons_append, List.head?_cons, Option.some.injEq, hm, hp, or_self, if_false]
  rw [← List.cons_append, h1, h2]
  simp

/-- The function `strtol` reads back what `%d` prints, up to `LONG_MAX`. -/
theorem strtol_fmt_d (n : Int) (h0 : 0 ≤ n) (h1 : n ≤ LONG_MAX) (tail : List Char)
    (ht : ∀ c ∈ tail.head?, isdigit c = false) :
    strtol (fmt_d n ++ tail) = (n, tail) := by
  obtain ⟨hd, hne, hv⟩ := fmt_d_spec n h0
  rw [strtol_digits _ _ hne hd ht, hv, min_eq_left h1]

theorem strtol_length (s : List Char) : (strtol s).2.length ≤ s.length := by
  have a1 := (List.dropWhile_suffix isdigit (l := (s.dropWhile isspace).tail)).length_le
  have a2 := (List.dropWhile_suffix isdigit (l := s.dropWhile isspace)).length_le
  have b := (List.dropWhile_suffix isspace (l := s)).length_le
  simp only [List.length_tail] at a1
  simp only [strtol]
  split_ifs <;> dsimp only <;> omega

/-- A string that `strtol` finds no number in: it begins with something that is neither
white space, nor a sign, nor a digit. -/
theorem strtol_none (s : List Char)
    (h : ∀ c ∈ s.head?, isdigit c = false ∧ isspace c = false ∧ c ≠ '+' ∧ c ≠ '-') :
    strtol s = (0, s) := by
  cases s with
  | nil => simp [strtol]
  | cons c cs =>
    obtain ⟨h1, h2, h3, h4⟩ := h c (by simp)
    simp [strtol, List.dropWhile, List.takeWhile, h1, h2, h3, h4]

/-- A number read behind a minus sign is not positive. -/
theorem strtol_minus (cs : List Char) : (strtol ('-' :: cs)).1 ≤ 0 := by
  have hs : isspace '-' = false := by decide
  simp only [strtol, List.dropWhile, hs, List.head?_cons, true_or, if_true, List.tail_cons]
  split_ifs
  · simp
  · simp only [LONG_MIN]
    omega

/-! ## `strstr` and the marker -/

theorem starts_with_iff : ∀ (needle s : List Char),
    starts_with needle s = true ↔ ∃ t, s = needle ++ t
  | [], s => by simp [starts_with]
  | a :: as, [] => by simp [starts_with]
  | a :: as, b :: bs => by
    simp only [starts_with, Bool.and_eq_true, decide_eq_true_eq, starts_with_iff as bs,
      List.cons_append, List.cons.injEq]
    constructor
    · rintro ⟨rfl, t, rfl⟩
      exact ⟨t, rfl, rfl⟩
    · rintro ⟨t, rfl, rfl⟩
      exact ⟨rfl, t, rfl⟩

theorem starts_with_append (needle tail : List Char) :
    starts_with needle (needle ++ tail) = true :=
  (starts_with_iff _ _).2 ⟨tail, rfl⟩

/-- The pointer returned by `strstr` splits the string, and the needle stands there. -/
theorem strstr_some : ∀ (s needle before found : List Char),
    strstr s needle = some (before, found) →
      s = before ++ found ∧ starts_with needle found = true
  | [], needle, before, found, h => by
    simp only [strstr] at h
    split_ifs at h with he
    simp only [Option.some.injEq, Prod.mk.injEq] at h
    obtain ⟨rfl, rfl⟩ := h
    rw [List.isEmpty_iff] at he
    subst he
    exact ⟨rfl, rfl⟩
  | c :: cs, needle, before, found, h => by
    simp only [strstr] at h
    split_ifs at h with he
    · simp only [Option.some.injEq, Prod.mk.injEq] at h
      obtain ⟨rfl, rfl⟩ := h
      exact ⟨rfl, he⟩
    · simp only [Option.map_eq_some', Prod.mk.injEq] at h
      obtain ⟨⟨b, f⟩, hr, rfl, rfl⟩ := h
      obtain ⟨h1, h2⟩ := strstr_some cs needle b f hr
      exact ⟨by simp [h1], h2⟩

theorem strstr_cons_none (c : Char) (cs needle : List Char)
    (h : strstr (c :: cs) needle = none) :
    starts_with needle (c :: cs) = false ∧ strstr cs needle = none := by
  simp only [strstr] at h
  split_ifs at h with he
  exact ⟨by simpa using he, by simpa using h⟩

/-- The marker begins with the only `o` it holds, so no occurrence of it begins inside
another one. -/
theorem starts_with_marker_shift (s tail : List Char) (hs : s ≠ [])
    (h : starts_with output_pde_marker s = false) :
    starts_with output_pde_marker (s ++ output_pde_marker ++ tail) = false := by
  by_contra hc
  rw [Bool.not_eq_false] at hc
  obtain ⟨t, ht⟩ := (starts_with_iff _ _).1 hc
  rw [List.append_assoc, List.append_eq_append_iff] at ht
  rcases ht with ⟨a, ha, hb⟩ | ⟨a, ha, -⟩
  · cases a with
    | nil =>
      rw [List.append_nil] at ha
      rw [← ha, ← Bool.not_eq_true] at h
      exact h (starts_with_append output_pde_marker [])
    | cons x xs =>
      have hx : x = 'o' := by
        simp only [output_pde_marker, List.cons_append, List.cons.injEq] at hb
        exact hb.1.symm
      have hmem : x ∈ output_pde_marker.tail := by
        cases s with
        | nil => exact absurd rfl hs
        | cons y ys =>
          have : output_pde_marker.tail = ys ++ x :: xs := by
            rw [ha]; rfl
          rw [this]
          simp
      rw [hx] at hmem
      exact absurd hmem (by decide)
  · rw [← Bool.not_eq_true] at h
    exact h ((starts_with_iff _ _).2 ⟨a, ha⟩)

/-- The first occurrence of the marker behind text that holds none. -/
theorem strstr_first : ∀ (pre tail : List Char), strstr pre output_pde_marker = none →
    strstr (pre ++ output_pde_marker ++ tail) output_pde_marker
      = some (pre, output_pde_marker ++ tail)
  | [], tail, _ => by
    have h := starts_with_append output_pde_marker tail
    rw [List.nil_append]
    simp only [output_pde_marker, List.cons_append, List.nil_append] at h ⊢
    simp only [strstr, h, if_true]
  | c :: cs, tail, hn => by
    obtain ⟨h1, h2⟩ := strstr_cons_none c cs _ hn
    have h3 := starts_with_marker_shift (c :: cs) tail (by simp) h1
    have ih := strstr_first cs tail h2
    simp only [List.cons_append] at h3 ⊢
    simp only [strstr, h3, Bool.false_eq_true, if_false]
    rw [List.append_assoc] at ih ⊢
    rw [ih]
    rfl

theorem strstr_none_of_short (s : List Char) (h : s.length < 11) :
    strstr s output_pde_marker = none := by
  cases hs : strstr s output_pde_marker with
  | none => rfl
  | some r =>
    obtain ⟨b, f⟩ := r
    obtain ⟨h1, h2⟩ := strstr_some s _ b f hs
    obtain ⟨t, ht⟩ := (starts_with_iff _ _).1 h2
    rw [h1, ht] at h
    simp [output_pde_marker] at h
    omega

/-! ## The column and the skipped segments -/

theorem skip_segments_stop (fuel : Nat) (s : List Char) (h : ∀ c ∈ s.head?, c ≠ ':') :
    skip_segments fuel s = s := by
  cases fuel with
  | zero => rfl
  | succ fuel =>
    cases s with
    | nil => rfl
    | cons c cs =>
      have hc : c ≠ ':' := h c (by simp)
      simp only [skip_segments]
      split
      · rename_i heq
        simp only [List.cons.injEq] at heq
        exact absurd heq.1 hc
      · rfl

theorem skip_segments_cons (fuel : Nat) (after : List Char) :
    skip_segments (fuel + 1) (':' :: after)
      = if (strtol after).2.length = after.length then ':' :: after
        else skip_segments fuel (strtol after).2 := by
  simp only [skip_segments]

/-- The loop that skips the segments runs to its own exit on any fuel that is at least the
length of the string. -/
theorem skip_segments_fuel : ∀ (fuel1 fuel2 : Nat) (s : List Char),
    s.length ≤ fuel1 → s.length ≤ fuel2 → skip_segments fuel1 s = skip_segments fuel2 s
  | 0, fuel2, s, h1, _ => by
    have hs : s = [] := List.length_eq_zero.1 (by omega)
    subst hs
    cases fuel2 <;> rfl
  | fuel1 + 1, 0, s, _, h2 => by
    have hs : s = [] := List.length_eq_zero.1 (by omega)
    subst hs
    rfl
  | fuel1 + 1, fuel2 + 1, s, h1, h2 => by
    cases s with
    | nil => rfl
    | cons c cs =>
      by_cases hc : c = ':'
      · subst hc
        rw [skip_segments_cons, skip_segments_cons]
        have hl := strtol_length cs
        simp only [List.length_cons] at h1 h2
        rw [skip_segments_fuel fuel1 fuel2 _ (by omega) (by omega)]
      · rw [skip_segments_stop _ _ (by simpa using hc), skip_segments_stop _ _ (by simpa using hc)]

theorem skip_segments_step (ds tail : List Char) (hne : ds ≠ [])
    (hd : ∀ c ∈ ds, isdigit c = true) (ht : ∀ c ∈ tail.head?, isdigit c = false) :
    skip_segments (':' :: (ds ++ tail)).length (':' :: (ds ++ tail))
      = skip_segments tail.length tail := by
  have hl : 0 < ds.length := List.length_pos.2 hne
  rw [List.length_cons, skip_segments_cons, strtol_digits ds tail hne hd ht]
  simp only [List.length_append]
  rw [if_neg (by omega)]
  exact skip_segments_fuel _ _ _ (by omega) (le_refl _)

theorem parse_column_cons (after : List Char) :
    parse_column (':' :: after)
      = if (strtol after).2.length ≠ after.length then ((strtol after).1, (strtol after).2)
        else ((strtol after).1, ':' :: after) := by
  simp only [parse_column]

theorem parse_column_plain (s : List Char) (h : ∀ c ∈ s.head?, c ≠ ':') :
    parse_column s = (-1, s) := by
  cases s with
  | nil => rfl
  | cons c cs =>
    have hc : c ≠ ':' := h c (by simp)
    simp only [parse_column]
    split
    · rename_i heq
      simp only [List.cons.injEq] at heq
      exact absurd heq.1 hc
    · rfl

/-- No column, no segments: the text behind the line number is printed as it stands. -/
theorem position_text_plain (s : List Char) (h : ∀ c ∈ s.head?, c ≠ ':') :
    position_text s = s := by
  simp only [position_text, parse_column_plain s h, skip_segments_stop _ s h]
  simp

/-- A column that `%d` prints back as it was read, and whatever follows it. -/
theorem position_text_column (c : Int) (h0 : 0 ≤ c) (h1 : c ≤ LONG_MAX) (tail : List Char)
    (ht : ∀ x ∈ tail.head?, isdigit x = false) :
    position_text (':' :: (fmt_d c ++ tail))
      = ':' :: fmt_d c ++ skip_segments tail.length tail := by
  have hl : 0 < (fmt_d c).length := List.length_pos.2 (fmt_d_spec c h0).2.1
  have hp : parse_column (':' :: (fmt_d c ++ tail)) = (c, tail) := by
    rw [parse_column_cons, strtol_fmt_d c h0 h1 tail ht]
    simp only [List.length_append]
    rw [if_pos (by omega)]
  simp only [position_text, hp, ge_iff_le, h0, if_true]

/-- A colon with no number behind it: `col_num` is the 0 that `strtol` returns, and `:0` is
printed in front of the colon. -/
theorem position_text_colon (after : List Char)
    (h : ∀ c ∈ after.head?, isdigit c = false ∧ isspace c = false ∧ c ≠ '+' ∧ c ≠ '-') :
    position_text (':' :: after) = ':' :: '0' :: ':' :: after := by
  have hp : parse_column (':' :: after) = (0, ':' :: after) := by
    rw [parse_column_cons, strtol_none after h]
    simp
  have hs : skip_segments (':' :: after).length (':' :: after) = ':' :: after := by
    rw [List.length_cons, skip_segments_cons, strtol_none after h]
    simp
  simp only [position_text, hp, hs]
  rfl

/-! ## The scan of `process_output_line` -/

theorem process_scan_succ (line_map : List LineMapping) (total_lines : Int)
    (buffer : List Char) (fuel : Nat) (ptr : List Char) :
    process_scan line_map total_lines buffer (fuel + 1) ptr
      = match strstr ptr output_pde_marker with
        | none => buffer
        | some (_, found) =>
          if (strtol (found.drop 11)).2.length ≠ (found.drop 11).length
              ∧ (strtol (found.drop 11)).1 > 0 then
            print_translated line_map total_lines buffer (strtol (found.drop 11)).1
              (strtol (found.drop 11)).2
          else process_scan line_map total_lines buffer fuel (found.drop 11) := by
  rfl

theorem strstr_marker_drop (ptr before found : List Char)
    (h : strstr ptr output_pde_marker = some (before, found)) :
    ptr = before ++ output_pde_marker ++ found.drop 11
      ∧ (found.drop 11).length < ptr.length := by
  obtain ⟨h1, h2⟩ := strstr_some ptr _ before found h
  obtain ⟨t, ht⟩ := (starts_with_iff _ _).1 h2
  have hd : found.drop 11 = t := by
    rw [ht]; rfl
  rw [hd, h1, ht]
  refine ⟨by rw [List.append_assoc], ?_⟩
  simp only [List.length_append, output_pde_marker, List.length_cons, List.length_nil]
  omega

/-- The scan runs to its own exit on any fuel above the length of the string. -/
theorem process_scan_fuel (line_map : List LineMapping) (total_lines : Int)
    (buffer : List Char) : ∀ (fuel1 fuel2 : Nat) (ptr : List Char),
    ptr.length < fuel1 → ptr.length < fuel2 →
    process_scan line_map total_lines buffer fuel1 ptr
      = process_scan line_map total_lines buffer fuel2 ptr
  | 0, _, _, h1, _ => by omega
  | _ + 1, 0, _, _, h2 => by omega
  | fuel1 + 1, fuel2 + 1, ptr, h1, h2 => by
    rw [process_scan_succ, process_scan_succ]
    cases hs : strstr ptr output_pde_marker with
    | none => rfl
    | some r =>
      obtain ⟨before, found⟩ := r
      have hl := (strstr_marker_drop ptr before found hs).2
      simp only
      rw [process_scan_fuel line_map total_lines buffer fuel1 fuel2 (found.drop 11)
        (by omega) (by omega)]

/-- The first marker of a line, followed by digits that write a positive number up to
`LONG_MAX`: the text before the marker, the translated address, and the text that
`position_text` makes of the rest. -/
theorem process_first (line_map : List LineMapping) (total_lines : Int)
    (pre ds tail : List Char) (hpre : strstr pre output_pde_marker = none)
    (hne : ds ≠ []) (hd : ∀ c ∈ ds, isdigit c = true)
    (hpos : 0 < digits_value ds) (hmax : (digits_value ds : Int) ≤ LONG_MAX)
    (ht : ∀ c ∈ tail.head?, isdigit c = false) :
    process_output_line line_map total_lines (pre ++ output_pde_marker ++ (ds ++ tail))
      = pre ++ translate_line line_map total_lines (digits_value ds) MAX_PATH_LEN
          ++ position_text tail := by
  have hs := strstr_first pre (ds ++ tail) hpre
  have hdrop : (output_pde_marker ++ (ds ++ tail)).drop 11 = ds ++ tail := rfl
  have hl : 0 < ds.length := List.length_pos.2 hne
  rw [process_output_line, process_scan_succ, hs]
  simp only [hdrop, strtol_digits ds tail hne hd ht, min_eq_left hmax]
  rw [if_pos ⟨by simp only [List.length_append]; omega, by exact_mod_cast hpos⟩]
  simp only [print_translated, hs]

/-- The same for a line number as `%d` prints it. -/
theorem process_first_fmt_d (line_map : List LineMapping) (total_lines : Int)
    (pre tail : List Char) (l : Int) (hpre : strstr pre output_pde_marker = none)
    (hpos : 0 < l) (hmax : l ≤ LONG_MAX) (ht : ∀ c ∈ tail.head?, isdigit c = false) :
    process_output_line line_map total_lines (pre ++ output_pde_marker ++ (fmt_d l ++ tail))
      = pre ++ translate_line line_map total_lines l MAX_PATH_LEN ++ position_text tail := by
  obtain ⟨hd, hne, hv⟩ := fmt_d_spec l (le_of_lt hpos)
  have hp : (0 : Int) < (digits_value (fmt_d l) : Int) := by rw [hv]; exact hpos
  have h := process_first line_map total_lines pre (fmt_d l) tail hpre hne hd
    (by exact_mod_cast hp) (by rw [hv]; exact hmax) ht
  rw [h, hv]

/-- A line in which no marker is followed by something `strtol` reads as a positive
number is printed as it stands, whatever the fuel. -/
theorem process_scan_inert (line_map : List LineMapping) (total_lines : Int)
    (line : List Char)
    (h : ∀ pre post, line = pre ++ output_pde_marker ++ post →
      (strtol post).2.length = post.length ∨ (strtol post).1 ≤ 0) :
    ∀ (fuel : Nat) (done ptr : List Char), line = done ++ ptr →
      process_scan line_map total_lines line fuel ptr = line
  | 0, _, _, _ => rfl
  | fuel + 1, done, ptr, hl => by
    rw [process_scan_succ]
    cases hs : strstr ptr output_pde_marker with
    | none => rfl
    | some r =>
      obtain ⟨before, found⟩ := r
      have hp := (strstr_marker_drop ptr before found hs).1
      have hline : line = (done ++ before) ++ output_pde_marker ++ found.drop 11 := by
        rw [hl, hp]; simp only [List.append_assoc]
      simp only
      rw [if_neg (by
        rcases h _ _ hline with h1 | h1
        · exact fun hc => hc.1 h1
        · exact fun hc => absurd hc.2 (by omega))]
      exact process_scan_inert line_map total_lines line h fuel
        (done ++ before ++ output_pde_marker) (found.drop 11) hline

/-! ## C14: lines with several markers -/

theorem head_append_marker (mid later : List Char) (P : Char → Prop) (ho : P 'o')
    (hmid : ∀ c ∈ mid.head?, P c) :
    ∀ c ∈ (mid ++ (output_pde_marker ++ later)).head?, P c := by
  cases mid with
  | nil =>
    intro c hc
    simp only [output_pde_marker, List.nil_append, List.cons_append, List.head?_cons,
      Option.mem_def, Option.some.injEq] at hc
    exact hc ▸ ho
  | cons m ms => simpa using hmid

/-- C14, as the code has it: only the first occurrence of the marker behind which a positive
number stands is replaced. For a line `pre ++ "output.pde:" ++ L1 ++ mid ++ "output.pde:" ++
later`, where `pre` holds no marker, `L1` is a non-empty run of digits writing a positive
number up to 2147483647 and `mid` begins with neither a digit nor `:`, the text printed is
`pre ++ translate_line(L1) ++ mid ++ "output.pde:" ++ later`: every later occurrence is
printed as it stands, whatever follows it. -/
theorem C14_first_occurrence_rewritten (line_map : List LineMapping) (total_lines : Int)
    (pre L1 mid later : List Char) (hpre : strstr pre output_pde_marker = none)
    (hne : L1 ≠ []) (hd : ∀ c ∈ L1, isdigit c = true)
    (hpos : 0 < digits_value L1) (hmax : (digits_value L1 : Int) ≤ LONG_MAX)
    (hmid : ∀ c ∈ mid.head?, isdigit c = false ∧ c ≠ ':') :
    process_output_line line_map total_lines
        (pre ++ output_pde_marker ++ (L1 ++ (mid ++ (output_pde_marker ++ later))))
      = pre ++ translate_line line_map total_lines (digits_value L1) MAX_PATH_LEN
          ++ (mid ++ (output_pde_marker ++ later)) := by
  have ht := head_append_marker mid later (fun c => isdigit c = false ∧ c ≠ ':')
    ⟨by decide, by decide⟩ hmid
  rw [process_first line_map total_lines pre L1 _ hpre hne hd hpos hmax
      (fun c hc => (ht c hc).1),
    position_text_plain _ (fun c hc => (ht c hc).2)]

theorem C14_first_occurrence_rewritten_witness :
    process_output_line [⟨2, 5, ['a']⟩] 6
        ([] ++ output_pde_marker ++ (['2'] ++ ([' '] ++ (output_pde_marker ++ ['3']))))
      = [] ++ translate_line [⟨2, 5, ['a']⟩] 6 (digits_value ['2']) MAX_PATH_LEN
          ++ ([' '] ++ (output_pde_marker ++ ['3'])) :=
  C14_first_occurrence_rewritten [⟨2, 5, ['a']⟩] 6 [] ['2'] [' '] ['3'] (by decide)
    (by decide) (by decide) (by decide) (by decide) (by decide)

/-- C14 fails as stated: in `output.pde:2 output.pde:3`, with lines 2 to 5 of the unit
coming from the fragment `a`, both markers are followed by a positive number that
`translate_line` maps to the fragment, and the second one is printed untranslated. -/
theorem C14_counterexample :
    translate_line [⟨2, 5, ['a']⟩] 6 2 MAX_PATH_LEN = "a:1".toList
      ∧ translate_line [⟨2, 5, ['a']⟩] 6 3 MAX_PATH_LEN = "a:2".toList
      ∧ process_output_line [⟨2, 5, ['a']⟩] 6
          (output_pde_marker ++ "2 ".toList ++ output_pde_marker ++ "3".toList)
        = "a:1 output.pde:3".toList
      ∧ process_output_line [⟨2, 5, ['a']⟩] 6
          (output_pde_marker ++ "2 ".toList ++ output_pde_marker ++ "3".toList)
        ≠ translate_line [⟨2, 5, ['a']⟩] 6 2 MAX_PATH_LEN ++ " ".toList
            ++ translate_line [⟨2, 5, ['a']⟩] 6 3 MAX_PATH_LEN := by
  decide

/-! ## C15: markers that are passed through -/

/-- A line that is the marker and fewer than 11 further bytes holds the marker once. -/
theorem marker_then_short (tail pre post : List Char) (ht : tail.length < 11)
    (h : output_pde_marker ++ tail = pre ++ output_pde_marker ++ post) :
    pre = [] ∧ post = tail := by
  cases pre with
  | nil =>
    rw [List.nil_append] at h
    exact ⟨rfl, (List.append_cancel_left h).symm⟩
  | cons x xs =>
    exfalso
    have hm : output_pde_marker.length = 11 := rfl
    have hlen := congrArg List.length h
    simp only [List.length_append, List.length_cons, hm] at hlen
    have hshort : starts_with output_pde_marker (x :: xs) = false := by
      rw [← Bool.not_eq_true]
      intro hc
      obtain ⟨t, ht2⟩ := (starts_with_iff _ _).1 hc
      have hl2 := congrArg List.length ht2
      simp only [List.length_append, List.length_cons, hm] at hl2
      omega
    have hs := starts_with_marker_shift (x :: xs) post (by simp) hshort
    rw [← h, starts_with_append] at hs
    exact absurd hs (by decide)

/-- C15, as the code has it: a line in which every occurrence of the marker is followed by
the end of the line or by a character that is neither a decimal digit, nor white space, nor
`+` (the things `strtol` lets a positive number begin with), and a line with no occurrence at
all, is printed as it stands. -/
theorem C15_marker_passthrough (line_map : List LineMapping) (total_lines : Int)
    (line : List Char)
    (h : ∀ pre post, line = pre ++ output_pde_marker ++ post →
      ∀ c ∈ post.head?, isdigit c = false ∧ isspace c = false ∧ c ≠ '+') :
    process_output_line line_map total_lines line = line := by
  refine process_scan_inert line_map total_lines line ?_ _ [] line rfl
  intro pre post hl
  cases post with
  | nil => exact Or.inl (by simp [strtol])
  | cons c cs =>
    obtain ⟨h1, h2, h3⟩ := h pre (c :: cs) hl c (by simp)
    by_cases hm : c = '-'
    · subst hm
      exact Or.inr (strtol_minus cs)
    · refine Or.inl ?_
      rw [strtol_none (c :: cs)]
      intro x hx
      simp only [List.head?_cons, Option.mem_def, Option.some.injEq] at hx
      subst hx
      exact ⟨h1, h2, h3, hm⟩

theorem C15_marker_passthrough_witness :
    process_output_line [⟨2, 5, ['a']⟩] 6 (output_pde_marker ++ "x3".toList)
      = output_pde_marker ++ "x3".toList :=
  C15_marker_passthrough [⟨2, 5, ['a']⟩] 6 (output_pde_marker ++ "x3".toList)
    (fun pre post h c hc => by
      obtain ⟨-, rfl⟩ := marker_then_short "x3".toList pre post (by decide) h
      simp only [Option.mem_def] at hc
      have hx : c = 'x' := by
        have : "x3".toList.head? = some 'x' := by decide
        rw [this] at hc
        exact (Option.some.inj hc).symm
      subst hx
      decide)

/-- C15 fails as stated: in `output.pde: 3` the only occurrence of the marker is followed
by a space, which is not a decimal digit, and the line is rewritten all the same, since
`strtol` skips white space. -/
theorem C15_counterexample :
    (∀ pre post, output_pde_marker ++ " 3".toList = pre ++ output_pde_marker ++ post →
        ∀ c ∈ post.head?, isdigit c = false)
      ∧ process_output_line [⟨2, 5, ['a']⟩] 6 (output_pde_marker ++ " 3".toList)
        = "a:2".toList
      ∧ process_output_line [⟨2, 5, ['a']⟩] 6 (output_pde_marker ++ " 3".toList)
        ≠ output_pde_marker ++ " 3".toList := by
  refine ⟨?_, by decide, by decide⟩
  intro pre post h c hc
  obtain ⟨-, rfl⟩ := marker_then_short " 3".toList pre post (by decide) h
  have : " 3".toList.head? = some ' ' := by decide
  rw [this] at hc
  simp only [Option.mem_def, Option.some.injEq] at hc
  subst hc
  decide

/-! ## C16: the segments behind the column -/

/-- The loop that skips the segments stops at a colon behind which `strtol` finds no
number, and at anything that is not a colon. -/
theorem skip_segments_halt (fuel : Nat) (rest : List Char)
    (h : ∀ after, rest = ':' :: after → (strtol after).2.length = after.length) :
    skip_segments fuel rest = rest := by
  cases rest with
  | nil => exact skip_segments_stop fuel [] (by simp)
  | cons x xs =>
    by_cases hx : x = ':'
    · subst hx
      cases fuel with
      | zero => rfl
      | succ fuel =>
        rw [skip_segments_cons, if_pos (h xs rfl)]
    · exact skip_segments_stop fuel _ (by simpa using hx)

/-- C16, as the code has it: the `:`-prefixed integers behind the column are skipped, not
printed. For a line `pre ++ "output.pde:" ++ L ++ ":" ++ C ++ ":" ++ A ++ ":" ++ B ++ rest`,
where `pre` holds no marker, `L` and `C` are numbers as `%d` prints them with `0 < L`,
`0 ≤ C` and both up to 2147483647, `A` and `B` are non-empty runs of digits and `rest`
begins with neither a digit nor a further segment (a `:` behind which `strtol` finds a
number), the text printed is `pre ++ translate_line(L) ++ ":" ++ C ++ rest`. -/
theorem C16_position_segments_skipped (line_map : List LineMapping) (total_lines : Int)
    (pre A B rest : List Char) (L C : Int) (hpre : strstr pre output_pde_marker = none)
    (hL : 0 < L) (hLmax : L ≤ LONG_MAX) (hC : 0 ≤ C) (hCmax : C ≤ LONG_MAX)
    (hA : A ≠ []) (hAd : ∀ c ∈ A, isdigit c = true)
    (hB : B ≠ []) (hBd : ∀ c ∈ B, isdigit c = true)
    (hrest : ∀ c ∈ rest.head?, isdigit c = false)
    (hstop : ∀ after, rest = ':' :: after → (strtol after).2.length = after.length) :
    process_output_line line_map total_lines
        (pre ++ output_pde_marker
          ++ (fmt_d L ++ ':' :: (fmt_d C ++ ':' :: (A ++ ':' :: (B ++ rest)))))
      = pre ++ translate_line line_map total_lines L MAX_PATH_LEN
          ++ (':' :: fmt_d C ++ rest) := by
  have hcolon : ∀ (s : List Char) (c : Char), c ∈ (':' :: s).head? → isdigit c = false := by
    intro s c hc
    simp only [List.head?_cons, Option.mem_def, Option.some.injEq] at hc
    subst hc
    decide
  rw [process_first_fmt_d line_map total_lines pre _ L hpre hL hLmax (hcolon _),
    position_text_column C hC hCmax _ (hcolon _),
    skip_segments_step A _ hA hAd (hcolon _),
    skip_segments_step B rest hB hBd hrest,
    skip_segments_halt _ rest hstop]

theorem C16_position_segments_skipped_witness :
    process_output_line [⟨30, 40, ['a']⟩] 40
        ([] ++ output_pde_marker
          ++ (fmt_d 36 ++ ':' :: (fmt_d 4 ++ ':' :: (['3', '6'] ++ ':' :: (['4']
            ++ ": msg".toList)))))
      = [] ++ translate_line [⟨30, 40, ['a']⟩] 40 36 MAX_PATH_LEN
          ++ (':' :: fmt_d 4 ++ ": msg".toList) :=
  C16_position_segments_skipped [⟨30, 40, ['a']⟩] 40 [] ['3', '6'] ['4'] ": msg".toList 36 4
    (by decide) (by decide) (by decide) (by decide) (by decide) (by decide) (by decide)
    (by decide) (by decide) (by decide)
    (fun after h => by
      have ha : after = " msg".toList := (List.cons.inj h).2.symm
      subst ha
      decide)

/-- C16 fails as stated: for `output.pde:36:4:36:4: msg`, with lines 30 to 40 of the unit
coming from the fragment `a`, the text printed is `a:7:4: msg`; the segments `:36:4` behind
the column are gone. -/
theorem C16_counterexample :
    process_output_line [⟨30, 40, ['a']⟩] 40 (output_pde_marker ++ "36:4:36:4: msg".toList)
        = "a:7:4: msg".toList
      ∧ process_output_line [⟨30, 40, ['a']⟩] 40
          (output_pde_marker ++ "36:4:36:4: msg".toList)
        ≠ translate_line [⟨30, 40, ['a']⟩] 40 36 MAX_PATH_LEN ++ ":4:36:4: msg".toList := by
  decide

/-! ## C17: the column -/

/-- C17, as the code has it: for a line `pre ++ "output.pde:" ++ L ++ ":" ++ C ++ rest`, where
`pre` holds no marker, `L` and `C` are numbers as `%d` prints them (digits, no leading zero)
with `0 < L`, both up to 2147483647, and `rest` begins with neither `:` nor a digit, the
text printed is `pre ++ translate_line(L) ++ ":" ++ C ++ rest`. -/
theorem C17_column_reemitted (line_map : List LineMapping) (total_lines : Int)
    (pre rest : List Char) (L C : Int) (hpre : strstr pre output_pde_marker = none)
    (hL : 0 < L) (hLmax : L ≤ LONG_MAX) (hC : 0 ≤ C) (hCmax : C ≤ LONG_MAX)
    (hrest : ∀ c ∈ rest.head?, isdigit c = false ∧ c ≠ ':') :
    process_output_line line_map total_lines
        (pre ++ output_pde_marker ++ (fmt_d L ++ ':' :: (fmt_d C ++ rest)))
      = pre ++ translate_line line_map total_lines L MAX_PATH_LEN
          ++ (':' :: fmt_d C ++ rest) := by
  have hcolon : ∀ (s : List Char) (c : Char), c ∈ (':' :: s).head? → isdigit c = false := by
    intro s c hc
    simp only [List.head?_cons, Option.mem_def, Option.some.injEq] at hc
    subst hc
    decide
  rw [process_first_fmt_d line_map total_lines pre _ L hpre hL hLmax (hcolon _),
    position_text_column C hC hCmax rest (fun c hc => (hrest c hc).1),
    skip_segments_stop _ rest (fun c hc => (hrest c hc).2)]

theorem C17_column_reemitted_witness :
    process_output_line [⟨30, 40, ['a']⟩] 40
        ("at ".toList ++ output_pde_marker ++ (fmt_d 36 ++ ':' :: (fmt_d 4 ++ " msg".toList)))
      = "at ".toList ++ translate_line [⟨30, 40, ['a']⟩] 40 36 MAX_PATH_LEN
          ++ (':' :: fmt_d 4 ++ " msg".toList) :=
  C17_column_reemitted [⟨30, 40, ['a']⟩] 40 "at ".toList " msg".toList 36 4
    (by decide) (by decide) (by decide) (by decide) (by decide) (by decide)

/-- C17 fails as stated: in `output.pde:36:99999999999` the column is a run of digits
without a leading zero, and the column printed is 2147483647, the `LONG_MAX` at which
`strtol` stops. -/
theorem C17_counterexample :
    process_output_line [⟨30, 40, ['a']⟩] 40 (output_pde_marker ++ "36:99999999999".toList)
        = "a:7:2147483647".toList
      ∧ process_output_line [⟨30, 40, ['a']⟩] 40
          (output_pde_marker ++ "36:99999999999".toList)
        ≠ translate_line [⟨30, 40, ['a']⟩] 40 36 MAX_PATH_LEN ++ ":99999999999".toList := by
  decide

/-! ## C18: the text behind the rewritten address -/

/-- C18 at its failing input: for `output.pde:36: error: x`, with lines 30 to 40 of the
unit coming from the fragment `a`, the text printed is `a:7:0: error: x`. The `:0` is not in
the line: `col_num` takes the 0 that `strtol` returns when it finds no number behind the
colon. -/
theorem C18_colon_without_number :
    process_output_line [⟨30, 40, ['a']⟩] 40 (output_pde_marker ++ "36: error: x".toList)
        = "a:7:0: error: x".toList
      ∧ process_output_line [⟨30, 40, ['a']⟩] 40
          (output_pde_marker ++ "36: error: x".toList)
        ≠ translate_line [⟨30, 40, ['a']⟩] 40 36 MAX_PATH_LEN ++ ": error: x".toList := by
  decide

/-! ## C19: the text before the rewritten address -/

/-- C19 at its failing input: for `see output.pde:x and output.pde:36 here`, with lines 30
to 40 of the unit coming from the fragment `a`, the text printed is `see a:7 here`. The text
`output.pde:x and ` is dropped: the text before the address is cut at the first marker of
the line, not at the marker that is rewritten. -/
theorem C19_text_before_address_dropped :
    process_output_line [⟨30, 40, ['a']⟩] 40
        ("see ".toList ++ output_pde_marker ++ "x and ".toList
          ++ output_pde_marker ++ "36 here".toList)
        = "see a:7 here".toList
      ∧ process_output_line [⟨30, 40, ['a']⟩] 40
          ("see ".toList ++ output_pde_marker ++ "x and ".toList
            ++ output_pde_marker ++ "36 here".toList)
        ≠ "see ".toList ++ output_pde_marker ++ "x and ".toList
            ++ translate_line [⟨30, 40, ['a']⟩] 40 36 MAX_PATH_LEN ++ " here".toList := by
  decide

/-! ## The order of `strcasecmp_win` -/

theorem char_eq_of_toNat (a b : Char) (h : a.toNat = b.toNat) : a = b := by
  have := congrArg Char.ofNat h
  simpa [Char.ofNat_toNat] using this

theorem tolower_ne_nul (c : Char) (h : c ≠ NUL) : 0 < (tolower c).toNat := by
  have hc : c.toNat ≠ 0 := fun h0 => h (char_eq_of_toNat c NUL (by rw [h0]; rfl))
  unfold tolower Char.toLower
  by_cases hu : c.toNat ≥ 65 ∧ c.toNat ≤ 90
  · simp only [hu, and_self, if_true]
    obtain ⟨h1, h2⟩ := hu
    have hcases : ∀ n, 65 ≤ n → n ≤ 90 → 0 < (Char.ofNat (n + 32)).toNat := by decide
    exact hcases _ h1 h2
  · simp only [hu, if_false]
    omega

theorem strcasecmp_win_swap : ∀ (a b : List Char),
    strcasecmp_win b a = - strcasecmp_win a b
  | [], [] => by simp [strcasecmp_win]
  | [], b :: bs => by simp [strcasecmp_win]
  | a :: as, [] => by simp [strcasecmp_win]
  | a :: as, b :: bs => by
    simp only [strcasecmp_win]
    by_cases h : tolower a = tolower b
    · simp only [h, if_true]
      exact strcasecmp_win_swap as bs
    · have h2 : ¬ tolower b = tolower a := fun e => h e.symm
      simp only [h, h2, if_false]
      omega

/-- On strings without a NUL byte `strcasecmp_win(a, b) <= 0` is transitive. -/
theorem strcasecmp_win_trans : ∀ (a b c : List Char), NUL ∉ a → NUL ∉ b → NUL ∉ c →
    strcasecmp_win a b ≤ 0 → strcasecmp_win b c ≤ 0 → strcasecmp_win a c ≤ 0
  | [], [], c, _, _, _, _, h2 => h2
  | [], _ :: _, [], _, _, _, _, _ => by simp [strcasecmp_win]
  | [], _ :: _, z :: zs, _, _, _, _, _ => by
    simp only [strcasecmp_win]
    omega
  | x :: xs, [], c, ha, _, _, h1, _ => by
    have := tolower_ne_nul x (fun e => ha (by simp [e]))
    simp only [strcasecmp_win] at h1
    omega
  | x :: xs, y :: ys, [], _, hb, _, _, h2 => by
    have := tolower_ne_nul y (fun e => hb (by simp [e]))
    simp only [strcasecmp_win] at h2
    omega
  | x :: xs, y :: ys, z :: zs, ha, hb, hc, h1, h2 => by
    have ha2 : NUL ∉ xs := fun h => ha (List.mem_cons_of_mem _ h)
    have hb2 : NUL ∉ ys := fun h => hb (List.mem_cons_of_mem _ h)
    have hc2 : NUL ∉ zs := fun h => hc (List.mem_cons_of_mem _ h)
    simp only [strcasecmp_win] at h1 h2 ⊢
    by_cases hxy : tolower x = tolower y
    · simp only [hxy, if_true] at h1
      by_cases hyz : tolower y = tolower z
      · simp only [hyz, if_true] at h2
        simp only [hxy, hyz, if_true]
        exact strcasecmp_win_trans xs ys zs ha2 hb2 hc2 h1 h2
      · simp only [hyz, if_false] at h2
        simp only [hxy, hyz, if_false]
        exact h2
    · simp only [hxy, if_false] at h1
      have hne : (tolower x).toNat ≠ (tolower y).toNat := fun e => hxy (char_eq_of_toNat _ _ e)
      by_cases hyz : tolower y = tolower z
      · simp only [hyz, if_true] at h2
        have hxz : ¬ tolower x = tolower z := fun e => hxy (e.trans hyz.symm)
        simp only [hxz, if_false]
        rw [← hyz]
        exact h1
      · simp only [hyz, if_false] at h2
        have hxz : ¬ tolower x = tolower z := by
          intro e
          have := congrArg Char.toNat e
          omega
        simp only [hxz, if_false]
        omega

/-! ## The exchange sort sorts -/

theorem sort_pass_min {α : Type} (gt : α → α → Bool) (P : α → Prop)
    (htot : ∀ a b, P a → P b → gt a b = true → gt b a = false)
    (htrans : ∀ a b c, P a → P b → P c → gt a b = false → gt b c = false → gt a c = false) :
    ∀ (xs : List α) (x : α), P x → (∀ y ∈ xs, P y) →
      P (sort_pass gt x xs).1 ∧ (∀ y ∈ (sort_pass gt x xs).2, P y)
        ∧ gt (sort_pass gt x xs).1 x = false
        ∧ ∀ y ∈ (sort_pass gt x xs).2, gt (sort_pass gt x xs).1 y = false
  | [], x, hx, _ => by
    refine ⟨hx, by simp [sort_pass], ?_, by simp [sort_pass]⟩
    simp only [sort_pass]
    by_contra h
    rw [Bool.not_eq_false] at h
    rw [htot x x hx hx h] at h
    exact Bool.noConfusion h
  | y :: ys, x, hx, hxs => by
    have hy : P y := hxs y (by simp)
    have hys : ∀ z ∈ ys, P z := fun z hz => hxs z (by simp [hz])
    simp only [sort_pass]
    by_cases hg : gt x y = true
    · obtain ⟨h1, h2, h3, h4⟩ := sort_pass_min gt P htot htrans ys y hy hys
      simp only [hg, if_true]
      have hmx : gt (sort_pass gt y ys).1 x = false :=
        htrans _ y x h1 hy hx h3 (htot x y hx hy hg)
      refine ⟨h1, ?_, hmx, ?_⟩
      · intro z hz
        rcases List.mem_cons.1 hz with rfl | hz
        · exact hx
        · exact h2 z hz
      · intro z hz
        rcases List.mem_cons.1 hz with rfl | hz
        · exact hmx
        · exact h4 z hz
    · rw [Bool.not_eq_true] at hg
      obtain ⟨h1, h2, h3, h4⟩ := sort_pass_min gt P htot htrans ys x hx hys
      simp only [hg, Bool.false_eq_true, if_false]
      have hmy : gt (sort_pass gt x ys).1 y = false := htrans _ x y h1 hx hy h3 hg
      refine ⟨h1, ?_, h3, ?_⟩
      · intro z hz
        rcases List.mem_cons.1 hz with rfl | hz
        · exact hy
        · exact h2 z hz
      · intro z hz
        rcases List.mem_cons.1 hz with rfl | hz
        · exact hmy
        · exact h4 z hz

theorem sort_pass_length {α : Type} (gt : α → α → Bool) :
    ∀ (xs : List α) (x : α), (sort_pass gt x xs).2.length = xs.length
  | [], _ => rfl
  | y :: ys, x => by
    simp only [sort_pass]
    split_ifs <;> simp [sort_pass_length gt ys]

/-- With one turn for every element but the last, the exchange sort leaves no element
in front of one it is greater than, when the test is a total order on the elements. -/
theorem exchange_sort_sorted {α : Type} (gt : α → α → Bool) (P : α → Prop)
    (htot : ∀ a b, P a → P b → gt a b = true → gt b a = false)
    (htrans : ∀ a b c, P a → P b → P c → gt a b = false → gt b c = false → gt a c = false) :
    ∀ (turns : Nat) (l : List α), l.length ≤ turns + 1 → (∀ a ∈ l, P a) →
      (exchange_sort gt turns l).Pairwise (fun a b => gt a b = false)
  | 0, l, hl, _ => by
    simp only [exchange_sort]
    match l, hl with
    | [], _ => exact List.Pairwise.nil
    | [a], _ => exact List.pairwise_singleton _ _
    | _ :: _ :: _, hl => simp at hl
  | turns + 1, [], _, _ => by simp [exchange_sort]
  | turns + 1, x :: xs, hl, hP => by
    obtain ⟨h1, h2, -, h4⟩ := sort_pass_min gt P htot htrans xs x (hP x (by simp))
      (fun y hy => hP y (by simp [hy]))
    simp only [exchange_sort]
    refine List.Pairwise.cons ?_ ?_
    · intro b hb
      exact h4 b ((exchange_sort_perm gt turns _).subset hb)
    · refine exchange_sort_sorted gt P htot htrans turns _ ?_ h2
      rw [sort_pass_length]
      simp only [List.length_cons] at hl
      omega

theorem sort_pass_map {α β : Type} (f : α → β) (gtA : α → α → Bool) (gtB : β → β → Bool)
    (h : ∀ a b, gtA a b = gtB (f a) (f b)) :
    ∀ (xs : List α) (x : α),
      sort_pass gtB (f x) (xs.map f)
        = (f (sort_pass gtA x xs).1, (sort_pass gtA x xs).2.map f)
  | [], _ => rfl
  | y :: ys, x => by
    simp only [List.map_cons, sort_pass, ← h]
    split_ifs <;> simp [sort_pass_map f gtA gtB h ys]

theorem exchange_sort_map {α β : Type} (f : α → β) (gtA : α → α → Bool) (gtB : β → β → Bool)
    (h : ∀ a b, gtA a b = gtB (f a) (f b)) :
    ∀ (turns : Nat) (l : List α),
      exchange_sort gtB turns (l.map f) = (exchange_sort gtA turns l).map f
  | 0, _ => rfl
  | _ + 1, [] => rfl
  | turns + 1, x :: xs => by
    simp only [List.map_cons, exchange_sort, sort_pass_map f gtA gtB h xs x,
      exchange_sort_map f gtA gtB h turns]

/-! ## Names and paths of the children -/

theorem after_last_backslash_none : ∀ (s : List Char), '\\' ∉ s →
    after_last_backslash s = none
  | [], _ => rfl
  | c :: cs, h => by
    have hc : c ≠ '\\' := fun e => h (by simp [e])
    have hcs : '\\' ∉ cs := fun e => h (List.mem_cons_of_mem _ e)
    simp [after_last_backslash, after_last_backslash_none cs hcs, hc]

theorem after_last_backslash_append (name : List Char) (h : '\\' ∉ name) :
    ∀ (dp : List Char), after_last_backslash (dp ++ '\\' :: name) = some name
  | [] => by simp [after_last_backslash, after_last_backslash_none name h]
  | c :: cs => by
    simp [after_last_backslash, after_last_backslash_append name h cs]

theorem valid_name_iff (dp name : List Char) :
    valid_name dp name = true ↔
      NUL ∉ name ∧ '\\' ∉ name ∧ (dp ++ '\\' :: name).length ≤ MAX_PATH_LEN - 1 := by
  simp [valid_name, and_assoc]

/-- The sorts compare the names: the path of a child ends with its name. -/
theorem name_gt_child_path (dp a b : List Char) (ha : valid_name dp a = true)
    (hb : valid_name dp b = true) :
    name_gt (child_path dp a) (child_path dp b) = decide (strcasecmp_win a b > 0) := by
  obtain ⟨-, ha2, ha3⟩ := (valid_name_iff dp a).1 ha
  obtain ⟨-, hb2, hb3⟩ := (valid_name_iff dp b).1 hb
  simp only [name_gt, child_path, snprintf_of_fits _ _ ha3, snprintf_of_fits _ _ hb3,
    after_last_backslash_append a ha2 dp, after_last_backslash_append b hb2 dp]

theorem filterMap_dir_item (ignore : List (List Char)) (dp rel : List Char) :
    ∀ (children : List Node),
      children.filterMap (dir_item ignore dp rel)
        = (children.filter (kept_directory ignore rel)).map (child_item dp rel)
  | [] => rfl
  | n :: ns => by
    have ih := filterMap_dir_item ignore dp rel ns
    cases n with
    | file name => simp [List.filterMap_cons, List.filter_cons, dir_item, kept_directory, ih]
    | dir name listing =>
      by_cases h1 : name = ['.'] ∨ name = ['.', '.']
      · simp [List.filterMap_cons, List.filter_cons, dir_item, kept_directory, ih, h1]
      · by_cases h2 : strcasecmp_win name output_name = 0
        · simp [List.filterMap_cons, List.filter_cons, dir_item, kept_directory, ih, h1, h2]
        · by_cases h3 : should_ignore ignore (child_relative rel name) = true
          · simp [List.filterMap_cons, List.filter_cons, dir_item, kept_directory, ih, h1, h2,
              h3]
          · simp [List.filterMap_cons, List.filter_cons, dir_item, kept_directory, ih, h1, h2,
              h3, child_item, Node.name, Node.listing]

theorem filterMap_pde_item (ignore : List (List Char)) (dp rel : List Char) :
    ∀ (children : List Node),
      children.filterMap (pde_item ignore dp rel)
        = (children.filter (own_file ignore rel)).map (child_entry dp rel)
  | [] => rfl
  | n :: ns => by
    have ih := filterMap_pde_item ignore dp rel ns
    cases n with
    | dir name listing => simp [List.filterMap_cons, List.filter_cons, pde_item, own_file, ih]
    | file name =>
      by_cases h1 : name = ['.'] ∨ name = ['.', '.']
      · simp [List.filterMap_cons, List.filter_cons, pde_item, own_file, ih, h1]
      · by_cases h3 : should_ignore ignore (child_relative rel name) = true
        · simp [List.filterMap_cons, List.filter_cons, pde_item, own_file, ih, h1, h3]
        · by_cases h4 : ends_with name pde_suffix = true
          · simp [List.filterMap_cons, List.filter_cons, pde_item, own_file, ih, h1, h3, h4,
              child_entry, Node.name]
          · simp [List.filterMap_cons, List.filter_cons, pde_item, own_file, ih, h1, h3, h4]

/-! ## The result of a call does not depend on the fuel or on the files already stored -/

theorem foldl_add_file_of_lt (l files : List FileEntry)
    (h : (l.foldl add_file files).length < MAX_FILES) :
    l.foldl add_file files = files ++ l := by
  rw [foldl_add_file] at h ⊢
  simp only [List.length_append, List.length_take] at h
  rw [List.take_of_length_le (by omega)]

theorem foldl_add_file_length_ge (l files : List FileEntry) :
    files.length ≤ (l.foldl add_file files).length := by
  rw [foldl_add_file]
  simp

theorem sort_directories_depth (ignore : List (List Char)) (dp rel : List Char)
    (children : List Node) (d : DirItem)
    (hd : d ∈ sort_directories (children.filterMap (dir_item ignore dp rel))) :
    depth_listing d.listing ≤ depth_children children := by
  have hd2 : d ∈ children.filterMap (dir_item ignore dp rel) :=
    (exchange_sort_perm _ _ _).mem_iff.mp hd
  rw [List.mem_filterMap] at hd2
  obtain ⟨n, hn, hnd⟩ := hd2
  have h1 := dir_item_depth _ _ _ _ _ hnd
  have h2 := depth_node_le_children _ _ hn
  omega

theorem collect_directories_indep (ignore : List (List Char)) (fuel1 fuel2 : Nat)
    (ds : List DirItem)
    (ih : ∀ d ∈ ds, ∀ (files1 files2 r1 : List FileEntry),
      collect_files_fuel ignore fuel1 d.path d.relative d.listing files1 = Collected.ok r1 →
      ∃ seq : List FileEntry, r1 = seq.foldl add_file files1
        ∧ collect_files_fuel ignore fuel2 d.path d.relative d.listing files2
          = Collected.ok (seq.foldl add_file files2)) :
    ∀ (files1 files2 r1 : List FileEntry),
      collect_directories (collect_files_fuel ignore fuel1) ds files1 = Collected.ok r1 →
      ∃ seq : List FileEntry, r1 = seq.foldl add_file files1
        ∧ collect_directories (collect_files_fuel ignore fuel2) ds files2
          = Collected.ok (seq.foldl add_file files2) := by
  induction ds with
  | nil =>
    intro files1 files2 r1 h
    simp only [collect_directories, Collected.ok.injEq] at h
    exact ⟨[], by simp [h], by simp [collect_directories]⟩
  | cons d ds ihd =>
    intro files1 files2 r1 h
    unfold collect_directories at h
    cases hc : collect_files_fuel ignore fuel1 d.path d.relative d.listing files1 with
    | ok r0 =>
      rw [hc] at h
      simp only at h
      obtain ⟨s0, hs0, hs0'⟩ := ih d (List.mem_cons_self _ _) files1 files2 r0 hc
      obtain ⟨s1, hs1, hs1'⟩ := ihd (fun d' hd' => ih d' (List.mem_cons_of_mem _ hd'))
        r0 (s0.foldl add_file files2) r1 h
      refine ⟨s0 ++ s1, by rw [foldl_add_file_append, ← hs0, hs1], ?_⟩
      unfold collect_directories
      rw [hs0']
      simp only
      rw [hs1', foldl_add_file_append]
    | overflow => simp [hc] at h
    | out_of_fuel => simp [hc] at h

/-- A call that returns appends a sequence that depends neither on the fuel, once above
the depth of the tree, nor on the files already stored; it returns from any other state
as well. -/
theorem collect_files_fuel_indep (ignore : List (List Char)) :
    ∀ (fuel1 fuel2 : Nat) (dp rel : List Char) (listing : Option (List Node))
      (files1 files2 r1 : List FileEntry),
      depth_listing listing < fuel1 → depth_listing listing < fuel2 →
      collect_files_fuel ignore fuel1 dp rel listing files1 = Collected.ok r1 →
      ∃ seq : List FileEntry, r1 = seq.foldl add_file files1
        ∧ collect_files_fuel ignore fuel2 dp rel listing files2
          = Collected.ok (seq.foldl add_file files2)
  | 0, _, _, _, _, _, _, _, h1, _, _ => by omega
  | _ + 1, 0, _, _, _, _, _, _, _, h2, _ => by omega
  | fuel1 + 1, fuel2 + 1, dp, rel, listing, files1, files2, r1, h1, h2, h => by
    unfold collect_files_fuel at h ⊢
    cases listing with
    | none =>
      simp only [Collected.ok.injEq] at h
      exact ⟨[], by simp [h], by simp⟩
    | some children =>
      simp only at h ⊢
      simp only [depth_listing] at h1 h2
      cases hs : scan_children ignore dp rel children [] [] with
      | none => simp [hs] at h
      | some sp =>
        obtain ⟨ds, ps⟩ := sp
        rw [hs] at h
        simp only at h ⊢
        obtain ⟨hds, -⟩ := scan_children_some _ _ _ _ _ _ _ _ hs
        simp only [List.nil_append] at hds
        cases hc : collect_directories (collect_files_fuel ignore fuel1)
            (sort_directories ds) files1 with
        | ok r0 =>
          rw [hc] at h
          simp only [Collected.ok.injEq] at h
          have ih : ∀ d ∈ sort_directories ds, ∀ (files1 files2 r1 : List FileEntry),
              collect_files_fuel ignore fuel1 d.path d.relative d.listing files1
                = Collected.ok r1 →
              ∃ seq : List FileEntry, r1 = seq.foldl add_file files1
                ∧ collect_files_fuel ignore fuel2 d.path d.relative d.listing files2
                  = Collected.ok (seq.foldl add_file files2) := by
            intro d hd f1 f2 r hr
            have hdep := sort_directories_depth ignore dp rel children d (hds ▸ hd)
            exact collect_files_fuel_indep ignore fuel1 fuel2 d.path d.relative d.listing
              f1 f2 r (by omega) (by omega) hr
          obtain ⟨s0, hs0, hs0'⟩ := collect_directories_indep ignore fuel1 fuel2 _ ih
            files1 files2 r0 hc
          refine ⟨s0 ++ sort_pde_files ps, by rw [foldl_add_file_append, ← hs0, h], ?_⟩
          rw [hs0']
          simp only
          rw [foldl_add_file_append]
        | overflow => simp [hc] at h
        | out_of_fuel => simp [hc] at h

/-- The calls on the sorted subdirectories, when the ceiling is not reached: each one
appends the sequence that a call of its own, from an empty array, produces. -/
theorem collect_directories_sequences (ignore : List (List Char)) (fuel : Nat) :
    ∀ (ds : List DirItem) (files r : List FileEntry),
      (∀ d ∈ ds, depth_listing d.listing < fuel) →
      collect_directories (collect_files_fuel ignore fuel) ds files = Collected.ok r →
      r.length < MAX_FILES →
      ∃ seqs : List (List FileEntry),
        List.Forall₂ (fun d s =>
          collect_files ignore d.path d.relative d.listing [] = Collected.ok s) ds seqs
        ∧ r = files ++ seqs.flatten
  | [], files, r, _, h, _ => by
    simp only [collect_directories, Collected.ok.injEq] at h
    exact ⟨[], List.Forall₂.nil, by simp [h]⟩
  | d :: ds, files, r, hdep, h, hlen => by
    unfold collect_directories at h
    cases hc : collect_files_fuel ignore fuel d.path d.relative d.listing files with
    | ok r0 =>
      rw [hc] at h
      simp only at h
      obtain ⟨seqs, hf, hr⟩ := collect_directories_sequences ignore fuel ds r0 r
        (fun d' hd' => hdep d' (List.mem_cons_of_mem _ hd')) h hlen
      obtain ⟨s0, hs0, hs0'⟩ := collect_files_fuel_indep ignore fuel
        (depth_listing d.listing + 1) d.path d.relative d.listing files [] r0
        (hdep d (List.mem_cons_self _ _)) (Nat.lt_succ_self _) hc
      have hr0 : r0.length < MAX_FILES := by
        have := congrArg List.length hr
        simp only [List.length_append] at this
        omega
      have h1 : r0 = files ++ s0 := by
        rw [hs0]
        exact foldl_add_file_of_lt s0 files (hs0 ▸ hr0)
      have h2 : s0.foldl add_file [] = s0 := by
        have hl : s0.length < MAX_FILES := by
          have := congrArg List.length h1
          simp only [List.length_append] at this
          omega
        rw [foldl_add_file]
        simp only [List.length_nil, Nat.sub_zero, List.nil_append]
        exact List.take_of_length_le (by omega)
      refine ⟨s0 :: seqs, List.Forall₂.cons ?_ hf, ?_⟩
      · unfold collect_files
        rw [hs0', h2]
      · rw [hr, h1]
        simp
    | overflow => simp [hc] at h
    | out_of_fuel => simp [hc] at h

/-! ## The sorts on the children -/

theorem sort_directories_children (dp rel : List Char) (l : List Node) :
    sort_directories (l.map (child_item dp rel)) = (sort_children dp l).map (child_item dp rel) := by
  simp only [sort_directories, sort_children, List.length_map]
  exact exchange_sort_map (child_item dp rel) _ _ (fun _ _ => rfl) _ l

theorem sort_pde_files_children (dp rel : List Char) (l : List Node) :
    sort_pde_files (l.map (child_entry dp rel)) = (sort_children dp l).map (child_entry dp rel) := by
  simp only [sort_pde_files, sort_children, List.length_map]
  exact exchange_sort_map (child_entry dp rel) _ _ (fun _ _ => rfl) _ l

theorem sort_children_perm (dp : List Char) (l : List Node) : (sort_children dp l).Perm l :=
  exchange_sort_perm _ _ _

/-- Children with valid names come out of the sort in ascending order of their names. -/
theorem sort_children_sorted (dp : List Char) (l : List Node)
    (hv : ∀ n ∈ l, valid_name dp n.name = true) :
    (sort_children dp l).Pairwise name_le := by
  have hs := exchange_sort_sorted
    (fun a b : Node => name_gt (child_path dp a.name) (child_path dp b.name))
    (fun n => valid_name dp n.name = true)
    (by
      intro a b ha hb h
      simp only [name_gt_child_path dp _ _ ha hb, name_gt_child_path dp _ _ hb ha,
        decide_eq_true_eq, decide_eq_false_iff_not] at h ⊢
      rw [strcasecmp_win_swap a.name b.name]
      omega)
    (by
      intro a b c ha hb hc h1 h2
      simp only [name_gt_child_path dp _ _ ha hb, name_gt_child_path dp _ _ hb hc,
        name_gt_child_path dp _ _ ha hc, decide_eq_false_iff_not, not_lt] at h1 h2 ⊢
      exact strcasecmp_win_trans _ _ _ ((valid_name_iff dp _).1 ha).1
        ((valid_name_iff dp _).1 hb).1 ((valid_name_iff dp _).1 hc).1 h1 h2)
    (l.length - 1) l (by omega) hv
  refine List.Pairwise.imp_of_mem ?_ hs
  intro a b ha hb h
  have ha2 := hv a ((sort_children_perm dp l).mem_iff.1 ha)
  have hb2 := hv b ((sort_children_perm dp l).mem_iff.1 hb)
  simp only [name_gt_child_path dp _ _ ha2 hb2, decide_eq_false_iff_not, not_lt] at h
  exact h

/-! ## C11: collection order -/

/-- C11, as the code has it: when the call for a directory D returns with fewer than 10000
fragments (no per-directory array overrun, ceiling not reached) and the names of D's
children are valid, the sequence produced is the concatenation of the sequences of the
subdirectories that the enumeration keeps — the directories other than `.` and `..` that
are not called `output` (ignoring case) and whose relative path no pattern matches — taken
in case-insensitive ascending name order, followed by D's own eligible files in
case-insensitive ascending name order. So every fragment beneath a subdirectory of D comes
before every fragment that lies in D itself. -/
theorem C11_collection_order (ignore : List (List Char)) (dir_path relative_path : List Char)
    (children : List Node) (r : List FileEntry)
    (hvalid : ∀ n ∈ children, valid_name dir_path n.name = true)
    (hrun : collect_files ignore dir_path relative_path (some children) [] = Collected.ok r)
    (hlen : r.length < MAX_FILES) :
    ∃ (dirs files : List Node) (seqs : List (List FileEntry)),
      dirs.Perm (children.filter (kept_directory ignore relative_path))
        ∧ dirs.Pairwise name_le
        ∧ files.Perm (children.filter (own_file ignore relative_path))
        ∧ files.Pairwise name_le
        ∧ List.Forall₂ (fun n s =>
            collect_files ignore (child_path dir_path n.name)
              (child_relative relative_path n.name) n.listing [] = Collected.ok s) dirs seqs
        ∧ r = seqs.flatten ++ files.map (child_entry dir_path relative_path) := by
  unfold collect_files at hrun
  simp only [depth_listing] at hrun
  unfold collect_files_fuel at hrun
  simp only at hrun
  cases hs : scan_children ignore dir_path relative_path children [] [] with
  | none => simp [hs] at hrun
  | some sp =>
    obtain ⟨ds, ps⟩ := sp
    rw [hs] at hrun
    simp only at hrun
    obtain ⟨hds, hps⟩ := scan_children_some _ _ _ _ _ _ _ _ hs
    simp only [List.nil_append] at hds hps
    cases hc : collect_directories (collect_files_fuel ignore (depth_children children + 1))
        (sort_directories ds) [] with
    | ok r1 =>
      rw [hc] at hrun
      simp only [Collected.ok.injEq] at hrun
      have hr : r = r1 ++ sort_pde_files ps := by
        rw [← hrun]
        exact foldl_add_file_of_lt _ _ (hrun ▸ hlen)
      have hr1 : r1.length < MAX_FILES := by
        have := congrArg List.length hr
        simp only [List.length_append] at this
        omega
      obtain ⟨seqs, hf, hseq⟩ := collect_directories_sequences ignore _ _ [] r1
        (fun d hd => Nat.lt_succ_of_le
          (sort_directories_depth ignore dir_path relative_path children d (hds ▸ hd)))
        hc hr1
      rw [hds, filterMap_dir_item, sort_directories_children, List.forall₂_map_left_iff] at hf
      rw [hps, filterMap_pde_item, sort_pde_files_children] at hr
      refine ⟨sort_children dir_path (children.filter (kept_directory ignore relative_path)),
        sort_children dir_path (children.filter (own_file ignore relative_path)), seqs,
        sort_children_perm _ _, ?_, sort_children_perm _ _, ?_, hf, ?_⟩
      · exact sort_children_sorted _ _ (fun n hn => hvalid n (List.mem_of_mem_filter hn))
      · exact sort_children_sorted _ _ (fun n hn => hvalid n (List.mem_of_mem_filter hn))
      · rw [hr, hseq, List.nil_append]
    | overflow => simp [hc] at hrun
    | out_of_fuel => simp [hc] at hrun

theorem C11_collection_order_witness :
    ∃ (dirs files : List Node) (seqs : List (List FileEntry)),
      dirs.Perm (order_children.filter (kept_directory [] []))
        ∧ dirs.Pairwise name_le
        ∧ files.Perm (order_children.filter (own_file [] []))
        ∧ files.Pairwise name_le
        ∧ List.Forall₂ (fun n s =>
            collect_files [] (child_path ['C', ':'] n.name) (child_relative [] n.name)
              n.listing [] = Collected.ok s) dirs seqs
        ∧ order_sequence = seqs.flatten ++ files.map (child_entry ['C', ':'] []) :=
  C11_collection_order [] ['C', ':'] [] order_children order_sequence (by decide) (by decide)
    (by decide)

/-! ## C11: a tree above the ceiling -/

theorem foldl_add_file_length_le (l files : List FileEntry) (h : files.length ≤ MAX_FILES) :
    (l.foldl add_file files).length ≤ MAX_FILES := by
  rw [foldl_add_file]
  simp only [List.length_append, List.length_take]
  omega

theorem collect_files_length_le (ignore : List (List Char)) (dp rel : List Char)
    (listing : Option (List Node)) (r : List FileEntry)
    (h : collect_files ignore dp rel listing [] = Collected.ok r) : r.length ≤ MAX_FILES := by
  obtain ⟨l, -, hr⟩ := collect_files_fuel_ok ignore _ dp rel listing [] r h
  rw [hr]
  exact foldl_add_file_length_le l [] (Nat.zero_le _)

theorem ends_with_pde_suffix (x : List Char) : ends_with (x ++ pde_suffix) pde_suffix = true := by
  have hl : ¬ pde_suffix.length > (x ++ pde_suffix).length := by
    simp only [List.length_append]
    omega
  have hd : (x ++ pde_suffix).drop ((x ++ pde_suffix).length - pde_suffix.length)
      = pde_suffix := by
    simp only [List.length_append, Nat.add_sub_cancel]
    exact List.drop_left _ _
  simp only [ends_with, hl, if_false, hd]
  decide

theorem eligible_children_sketches (dp rel : List Char) (f : Nat → List Char) :
    ∀ (l : List Nat),
      (eligible_children [] dp rel (l.map (fun i => Node.file (f i ++ pde_suffix)))).length
        = l.length
  | [] => rfl
  | i :: is => by
    have h1 : ¬ (f i ++ pde_suffix = ['.'] ∨ f i ++ pde_suffix = ['.', '.']) := by
      rintro (h | h) <;>
      · have := congrArg List.length h
        simp [pde_suffix] at this
    have h2 : eligible_node [] dp rel (Node.file (f i ++ pde_suffix))
        = [⟨child_path dp (f i ++ pde_suffix), child_relative rel (f i ++ pde_suffix)⟩] := by
      simp only [eligible_node, h1, if_false, should_ignore, Bool.false_eq_true,
        ends_with_pde_suffix, if_true]
    simp only [List.map_cons, eligible_children, h2, List.length_append,
      List.length_singleton, eligible_children_sketches dp rel f is, List.length_cons,
      List.length_nil]
    omega

theorem small_children_sketches (f : Nat → List Char) :
    ∀ (l : List Nat), small_children (l.map (fun i => Node.file (f i))) = true
  | [] => rfl
  | i :: is => by
    simp [small_children, small_node, small_children_sketches f is]

theorem thousand_sketches_length : thousand_sketches.length = 1000 := by
  simp only [thousand_sketches, List.length_map, List.length_range]

theorem small_thousand_sketches : small_listing (some thousand_sketches) = true := by
  simp only [small_listing, thousand_sketches_length, Bool.and_eq_true, decide_eq_true_eq]
  exact ⟨by decide, small_children_sketches _ _⟩

/-- A directory of 1000 sketches gives a sequence of 1000 fragments. -/
theorem collect_thousand_sketches (dp rel : List Char) (s : List FileEntry)
    (h : collect_files [] dp rel (some thousand_sketches) [] = Collected.ok s) :
    s.length = 1000 := by
  obtain ⟨l, hl, hr⟩ := collect_files_fuel_ok [] _ dp rel _ [] s h
  have hlen : l.length = 1000 := by
    rw [hl.length_eq]
    simp only [eligible_listing, thousand_sketches]
    rw [eligible_children_sketches dp rel (fun i => fmt_d (i : Int))]
    simp only [List.length_range]
  rw [hr, foldl_add_file]
  simp only [List.length_nil, Nat.sub_zero, List.nil_append, List.length_take, hlen, MAX_FILES]
  omega

theorem small_children_directories (f : Nat → List Char) (listing : Option (List Node))
    (hs : small_listing listing = true) :
    ∀ (l : List Nat), small_children (l.map (fun j => Node.dir (f j) listing)) = true
  | [] => rfl
  | j :: js => by
    simp [small_children, small_node, hs, small_children_directories f listing hs js]

theorem eleven_directories_kept (n : Node) (h : n ∈ eleven_directories) :
    kept_directory [] [] n = true ∧ n.listing = some thousand_sketches := by
  simp only [eleven_directories, List.mem_map] at h
  obtain ⟨j, -, rfl⟩ := h
  refine ⟨?_, rfl⟩
  have h1 : ¬ ('d' :: fmt_d (j : Int) = ['.'] ∨ 'd' :: fmt_d (j : Int) = ['.', '.']) := by
    rintro (h | h) <;>
    · have := (List.cons.inj h).1
      exact absurd this (by decide)
  have h2 : strcasecmp_win ('d' :: fmt_d (j : Int)) output_name ≠ 0 := by
    have hne : ¬ tolower 'd' = tolower 'o' := by decide
    simp only [output_name, strcasecmp_win, hne, if_false]
    decide
  simp [kept_directory, h1, h2, should_ignore]

theorem flatten_length_of_forall₂ {α β : Type} (R : α → List β → Prop) (k : Nat) :
    ∀ (l : List α) (seqs : List (List β)), List.Forall₂ R l seqs →
      (∀ a s, a ∈ l → R a s → s.length = k) → seqs.flatten.length = k * l.length
  | _, _, List.Forall₂.nil, _ => by simp
  | a :: as, s :: ss, List.Forall₂.cons h hs, hk => by
    have ih := flatten_length_of_forall₂ R k as ss hs
      (fun x t hx hxt => hk x t (List.mem_cons_of_mem _ hx) hxt)
    have h0 := hk a s (List.mem_cons_self _ _) h
    simp only [List.flatten_cons, List.length_append, List.length_cons, ih, h0]
    ring

/-- The eleven directories of 1000 sketches are all kept and none is ignored, and the
sequence of their parent is not the concatenation of their eleven sequences: it stops at
the 10000 entries of `files[]`. -/
theorem eleven_directories_above_ceiling :
    (∃ r, collect_files [] ['C', ':'] [] (some eleven_directories) [] = Collected.ok r)
      ∧ ¬ ∃ (dirs : List Node) (seqs : List (List FileEntry)),
          dirs.Perm (eleven_directories.filter (kept_directory [] []))
            ∧ List.Forall₂ (fun n s =>
                collect_files [] (child_path ['C', ':'] n.name) (child_relative [] n.name)
                  n.listing [] = Collected.ok s) dirs seqs
            ∧ collect_files [] ['C', ':'] [] (some eleven_directories) []
              = Collected.ok (seqs.flatten
                  ++ (eleven_directories.filter (own_file [] [])).map
                    (child_entry ['C', ':'] [])) := by
  constructor
  · apply collect_files_ok_of_small
    simp only [small_listing, Bool.and_eq_true, decide_eq_true_eq]
    refine ⟨by simp only [eleven_directories, List.length_map, List.length_range, DIR_SLOTS]; omega, ?_⟩
    exact small_children_directories _ _ small_thousand_sketches _
  · rintro ⟨dirs, seqs, hperm, hF, hrun⟩
    have hfilter : eleven_directories.filter (kept_directory [] []) = eleven_directories :=
      List.filter_eq_self.2 (fun n hn => (eleven_directories_kept n hn).1)
    rw [hfilter] at hperm
    have hlen := collect_files_length_le _ _ _ _ _ hrun
    have hflat := flatten_length_of_forall₂ _ 1000 dirs seqs hF (by
      intro n s hn hs
      rw [(eleven_directories_kept n (hperm.mem_iff.1 hn)).2] at hs
      exact collect_thousand_sketches _ _ s hs)
    have hd : dirs.length = 11 := by
      rw [hperm.length_eq]
      simp only [eleven_directories, List.length_map, List.length_range]
    simp only [List.length_append, hflat, hd, MAX_FILES] at hlen
    omega

/-- C11 fails as stated, twice. The subdirectory `output` of the first example is matched
by no ignore pattern and its own sequence holds `output/a.pde`, yet the sequence of the
directory is `b.pde` alone: the reserved name is left out of the walk as well. And the
eleven subdirectories of the second example are all kept, each with a sequence of 1000
fragments, yet the sequence of their parent is not the concatenation of the eleven: it
stops at the 10000 entries of `files[]`. -/
theorem C11_counterexample :
    (should_ignore [] (child_relative [] output_name) = false
      ∧ collect_files [] (child_path ['C', ':'] output_name) (child_relative [] output_name)
          (some [.file ['a', '.', 'p', 'd', 'e']]) []
        = Collected.ok [⟨"C:\\output\\a.pde".toList, "output/a.pde".toList⟩]
      ∧ collect_files [] ['C', ':'] [] (some output_dir_children) []
        = Collected.ok [⟨"C:\\b.pde".toList, "b.pde".toList⟩]
      ∧ collect_files [] ['C', ':'] [] (some output_dir_children) []
        ≠ Collected.ok ([⟨"C:\\output\\a.pde".toList, "output/a.pde".toList⟩]
            ++ [⟨"C:\\b.pde".toList, "b.pde".toList⟩]))
    ∧ ¬ ∃ (dirs : List Node) (seqs : List (List FileEntry)),
        dirs.Perm (eleven_directories.filter (kept_directory [] []))
          ∧ List.Forall₂ (fun n s =>
              collect_files [] (child_path ['C', ':'] n.name) (child_relative [] n.name)
                n.listing [] = Collected.ok s) dirs seqs
          ∧ collect_files [] ['C', ':'] [] (some eleven_directories) []
            = Collected.ok (seqs.flatten
                ++ (eleven_directories.filter (own_file [] [])).map
                  (child_entry ['C', ':'] [])) :=
  ⟨by decide, eleven_directories_above_ceiling.2⟩

/-! ## The enumeration loop in closed form -/

theorem scan_child_eq (ignore : List (List Char)) (dp rel : List Char) (n : Node)
    (ds : List DirItem) (ps : List FileEntry) (hd : ds.length ≤ DIR_SLOTS)
    (hp : ps.length ≤ DIR_SLOTS) :
    scan_child ignore dp rel n ds ps
      = if (ds ++ (dir_item ignore dp rel n).toList).length ≤ DIR_SLOTS
            ∧ (ps ++ (pde_item ignore dp rel n).toList).length ≤ DIR_SLOTS then
          some (ds ++ (dir_item ignore dp rel n).toList,
            ps ++ (pde_item ignore dp rel n).toList)
        else none := by
  cases n with
  | file name =>
    by_cases h1 : name = ['.'] ∨ name = ['.', '.']
    · simp [scan_child, dir_item, pde_item, Node.name, h1, hd, hp]
    · by_cases h3 : should_ignore ignore (child_relative rel name) = true
      · simp [scan_child, dir_item, pde_item, Node.name, h1, h3, hd, hp]
      · by_cases h4 : ends_with name pde_suffix = true
        · by_cases h5 : ps.length < DIR_SLOTS
          · simp [scan_child, dir_item, pde_item, Node.name, h1, h3, h4, h5, hd]
            omega
          · simp [scan_child, dir_item, pde_item, Node.name, h1, h3, h4, h5, hd]
            rw [if_neg (by omega)]
        · simp [scan_child, dir_item, pde_item, Node.name, h1, h3, h4, hd, hp]
  | dir name listing =>
    by_cases h1 : name = ['.'] ∨ name = ['.', '.']
    · simp [scan_child, dir_item, pde_item, Node.name, h1, hd, hp]
    · by_cases h2 : strcasecmp_win name output_name = 0
      · simp [scan_child, dir_item, pde_item, Node.name, h1, h2, hd, hp]
      · by_cases h3 : should_ignore ignore (child_relative rel name) = true
        · simp [scan_child, dir_item, pde_item, Node.name, h1, h2, h3, hd, hp]
        · by_cases h5 : ds.length < DIR_SLOTS
          · simp [scan_child, dir_item, pde_item, Node.name, h1, h2, h3, h5, hp]
            omega
          · simp [scan_child, dir_item, pde_item, Node.name, h1, h2, h3, h5, hp]
            rw [if_neg (by omega)]

/-- The enumeration loop fills the two arrays with the kept children in the order of
enumeration, and overruns an array exactly when more than `DIR_SLOTS` are kept. -/
theorem scan_children_eq (ignore : List (List Char)) (dp rel : List Char) :
    ∀ (ns : List Node) (ds : List DirItem) (ps : List FileEntry),
      ds.length ≤ DIR_SLOTS → ps.length ≤ DIR_SLOTS →
      scan_children ignore dp rel ns ds ps
        = if (ds ++ ns.filterMap (dir_item ignore dp rel)).length ≤ DIR_SLOTS
              ∧ (ps ++ ns.filterMap (pde_item ignore dp rel)).length ≤ DIR_SLOTS then
            some (ds ++ ns.filterMap (dir_item ignore dp rel),
              ps ++ ns.filterMap (pde_item ignore dp rel))
          else none
  | [], ds, ps, hd, hp => by simp [scan_children, hd, hp]
  | n :: ns, ds, ps, hd, hp => by
    simp only [scan_children, scan_child_eq ignore dp rel n ds ps hd hp]
    have e1 : ∀ (a : List DirItem),
        a ++ (n :: ns).filterMap (dir_item ignore dp rel)
          = (a ++ (dir_item ignore dp rel n).toList) ++ ns.filterMap (dir_item ignore dp rel) := by
      intro a
      cases h : dir_item ignore dp rel n <;> simp [List.filterMap_cons, h]
    have e2 : ∀ (a : List FileEntry),
        a ++ (n :: ns).filterMap (pde_item ignore dp rel)
          = (a ++ (pde_item ignore dp rel n).toList) ++ ns.filterMap (pde_item ignore dp rel) := by
      intro a
      cases h : pde_item ignore dp rel n <;> simp [List.filterMap_cons, h]
    rw [e1, e2]
    by_cases hc : (ds ++ (dir_item ignore dp rel n).toList).length ≤ DIR_SLOTS
        ∧ (ps ++ (pde_item ignore dp rel n).toList).length ≤ DIR_SLOTS
    · rw [if_pos hc]
      simp only
      exact scan_children_eq ignore dp rel ns _ _ hc.1 hc.2
    · rw [if_neg hc]
      simp only
      rw [if_neg]
      intro hc2
      apply hc
      have a1 := hc2.1
      have a2 := hc2.2
      simp only [List.length_append] at a1 a2 ⊢
      omega

/-- One call of `collect_files` on a directory that can be listed, in terms of its
children. -/
theorem collect_files_fuel_succ (ignore : List (List Char)) (fuel : Nat) (dp rel : List Char)
    (cs : List Node) (files : List FileEntry) :
    collect_files_fuel ignore (fuel + 1) dp rel (some cs) files
      = if (cs.filter (kept_directory ignore rel)).length ≤ DIR_SLOTS
            ∧ (cs.filter (own_file ignore rel)).length ≤ DIR_SLOTS then
          match collect_directories (collect_files_fuel ignore fuel)
              ((sort_children dp (cs.filter (kept_directory ignore rel))).map
                (child_item dp rel)) files with
          | Collected.ok r =>
            Collected.ok (((sort_children dp (cs.filter (own_file ignore rel))).map
              (child_entry dp rel)).foldl add_file r)
          | Collected.overflow => Collected.overflow
          | Collected.out_of_fuel => Collected.out_of_fuel
        else Collected.overflow := by
  have hz : (0 : Nat) ≤ DIR_SLOTS := Nat.zero_le _
  rw [collect_files_fuel]
  rw [scan_children_eq ignore dp rel cs [] [] hz hz]
  simp only [List.nil_append, filterMap_dir_item, filterMap_pde_item, List.length_map]
  by_cases hc : (cs.filter (kept_directory ignore rel)).length ≤ DIR_SLOTS
      ∧ (cs.filter (own_file ignore rel)).length ≤ DIR_SLOTS
  · rw [if_pos hc, if_pos hc]
    simp only [sort_directories_children, sort_pde_files_children]
  · rw [if_neg hc, if_neg hc]

/-! ## Trees enumerated in another order -/

theorem shuffled_children_forall₂ : ∀ (a b : List Node),
    shuffled_children a b → List.Forall₂ shuffled_node a b
  | [], [], _ => List.Forall₂.nil
  | [], _ :: _, h => by simp [shuffled_children] at h
  | _ :: _, [], h => by simp [shuffled_children] at h
  | n :: ns, m :: ms, h => by
    simp only [shuffled_children] at h
    exact List.Forall₂.cons h.1 (shuffled_children_forall₂ ns ms h.2)

theorem shuffled_node_name (n m : Node) (h : shuffled_node n m) :
    m.name = n.name ∧ shuffled_listing n.listing m.listing := by
  cases n with
  | file a =>
    cases m with
    | file b =>
      simp only [shuffled_node] at h
      simp [Node.name, Node.listing, h, shuffled_listing]
    | dir b lb => simp [shuffled_node] at h
  | dir a la =>
    cases m with
    | file b => simp [shuffled_node] at h
    | dir b lb =>
      simp only [shuffled_node] at h
      simp [Node.name, Node.listing, h.1, h.2]

theorem shuffled_node_kept (ignore : List (List Char)) (rel : List Char) (n m : Node)
    (h : shuffled_node n m) :
    kept_directory ignore rel n = kept_directory ignore rel m
      ∧ own_file ignore rel n = own_file ignore rel m := by
  cases n with
  | file a =>
    cases m with
    | file b =>
      simp only [shuffled_node] at h
      simp [kept_directory, own_file, h]
    | dir b lb => simp [shuffled_node] at h
  | dir a la =>
    cases m with
    | file b => simp [shuffled_node] at h
    | dir b lb =>
      simp only [shuffled_node] at h
      simp [kept_directory, own_file, h.1]

theorem shuffled_node_file (ignore : List (List Char)) (rel : List Char) (n m : Node)
    (h : shuffled_node n m) (hf : own_file ignore rel n = true) : n = m := by
  cases n with
  | file a =>
    cases m with
    | file b =>
      simp only [shuffled_node] at h
      rw [h]
    | dir b lb => simp [shuffled_node] at h
  | dir a la => simp [own_file] at hf

theorem forall₂_filter {α : Type} (R : α → α → Prop) (p : α → Bool)
    (hp : ∀ a b, R a b → p a = p b) :
    ∀ (l1 l2 : List α), List.Forall₂ R l1 l2 → List.Forall₂ R (l1.filter p) (l2.filter p)
  | _, _, List.Forall₂.nil => List.Forall₂.nil
  | a :: as, b :: bs, List.Forall₂.cons h hs => by
    have ih := forall₂_filter R p hp as bs hs
    have e := hp a b h
    by_cases hpa : p a = true
    · rw [List.filter_cons_of_pos hpa, List.filter_cons_of_pos (e ▸ hpa)]
      exact List.Forall₂.cons h ih
    · rw [List.filter_cons_of_neg hpa, List.filter_cons_of_neg (e ▸ hpa)]
      exact ih

theorem forall₂_pairwise {α : Type} (R P Q : α → α → Prop)
    (h : ∀ a b a2 b2, R a a2 → R b b2 → P a b → Q a2 b2) :
    ∀ (l1 l2 : List α), List.Forall₂ R l1 l2 → l1.Pairwise P → l2.Pairwise Q
  | _, _, List.Forall₂.nil, _ => List.Pairwise.nil
  | a :: as, b :: bs, List.Forall₂.cons hab hs, hp => by
    rw [List.pairwise_cons] at hp ⊢
    refine ⟨?_, forall₂_pairwise R P Q h as bs hs hp.2⟩
    intro y hy
    obtain ⟨x, hx, hxy⟩ : ∃ x, x ∈ as ∧ R x y := by
      clear hp
      induction hs with
      | nil => simp at hy
      | cons h1 _ ih =>
        rcases List.mem_cons.1 hy with rfl | hy
        · exact ⟨_, List.mem_cons_self _ _, h1⟩
        · obtain ⟨x, hx, hxy⟩ := ih hy
          exact ⟨x, List.mem_cons_of_mem _ hx, hxy⟩
    exact h a x b y hab hxy (hp.1 x hx)

theorem forall₂_mem_right {α : Type} (R : α → α → Prop) :
    ∀ (l1 l2 : List α), List.Forall₂ R l1 l2 → ∀ y ∈ l2, ∃ x, x ∈ l1 ∧ R x y
  | _, _, List.Forall₂.nil, y, hy => by simp at hy
  | a :: as, b :: bs, List.Forall₂.cons hab hs, y, hy => by
    rcases List.mem_cons.1 hy with rfl | hy
    · exact ⟨a, List.mem_cons_self _ _, hab⟩
    · obtain ⟨x, hx, hxy⟩ := forall₂_mem_right R as bs hs y hy
      exact ⟨x, List.mem_cons_of_mem _ hx, hxy⟩

theorem valid_children_mem (dp : List Char) : ∀ (cs : List Node) (n : Node),
    valid_children dp cs = true → n ∈ cs →
      valid_name dp n.name = true ∧ valid_listing (child_path dp n.name) n.listing = true
  | [], _, _, h => by simp at h
  | c :: cs, n, hv, h => by
    simp only [valid_children, Bool.and_eq_true] at hv
    rcases List.mem_cons.1 h with rfl | h
    · cases n with
      | file a =>
        simp only [valid_node] at hv
        simp [Node.name, Node.listing, hv.1, valid_listing]
      | dir a la =>
        simp only [valid_node, Bool.and_eq_true] at hv
        simp [Node.name, Node.listing, hv.1.1, hv.1.2]
    · exact valid_children_mem dp cs n hv.2 h

theorem distinct_children_spec : ∀ (cs : List Node), distinct_children cs = true →
    cs.Pairwise name_ne ∧ ∀ n ∈ cs, distinct_listing n.listing = true
  | [], _ => ⟨List.Pairwise.nil, by simp⟩
  | c :: cs, h => by
    simp only [distinct_children, Bool.and_eq_true, List.all_eq_true, decide_eq_true_eq] at h
    obtain ⟨⟨h1, h2⟩, h3⟩ := h
    obtain ⟨ih1, ih2⟩ := distinct_children_spec cs h3
    refine ⟨List.Pairwise.cons (fun m hm => h1 m hm) ih1, ?_⟩
    intro n hn
    rcases List.mem_cons.1 hn with rfl | hn
    · cases n with
      | file a => simp [Node.listing, distinct_listing]
      | dir a la =>
        simp only [distinct_node] at h2
        simp [Node.listing, h2]
    · exact ih2 n hn

theorem name_ne_symm {a b : Node} (h : name_ne a b) : name_ne b a := by
  simp only [name_ne] at h ⊢
  rw [strcasecmp_win_swap a.name b.name]
  omega

theorem name_lt_of_le_of_ne (a b : Node) (h1 : name_le a b) (h2 : name_ne a b) :
    name_lt a b := by
  simp only [name_le, name_ne, name_lt] at h1 h2 ⊢
  omega

/-- Two lists in strictly ascending order of names that hold the same children are the
same list. -/
theorem eq_of_perm_of_name_lt (l1 l2 : List Node) (hp : l1.Perm l2)
    (h1 : l1.Pairwise name_lt) (h2 : l2.Pairwise name_lt) : l1 = l2 := by
  have has : IsAntisymm Node name_lt := ⟨by
    intro a b hab hba
    simp only [name_lt] at hab hba
    rw [strcasecmp_win_swap a.name b.name] at hba
    omega⟩
  exact List.eq_of_perm_of_sorted hp h1 h2

/-- The sort puts children with valid, pairwise distinct names in strictly ascending
order. -/
theorem sort_children_strict (dp : List Char) (l : List Node)
    (hv : ∀ n ∈ l, valid_name dp n.name = true) (hd : l.Pairwise name_ne) :
    (sort_children dp l).Pairwise name_lt :=
  List.Pairwise.imp₂ name_lt_of_le_of_ne (sort_children_sorted dp l hv)
    ((sort_children_perm dp l).symm.pairwise hd (fun h => name_ne_symm h))

/-- Sorting the children of a directory and sorting the same children enumerated in
another order gives lists that agree position by position. -/
theorem sort_children_related (dp : List Char) (R : Node → Node → Prop)
    (hR : ∀ a b, R a b → b.name = a.name) (K Kl K2 : List Node)
    (hF : List.Forall₂ R K Kl) (hp : Kl.Perm K2)
    (hv : ∀ n ∈ K, valid_name dp n.name = true) (hd : K.Pairwise name_ne) :
    List.Forall₂ R (sort_children dp K) (sort_children dp K2) := by
  obtain ⟨N, hSN, hN⟩ := List.perm_comp_forall₂ (sort_children_perm dp K) hF
  have hS := sort_children_strict dp K hv hd
  have hNlt : N.Pairwise name_lt := by
    refine forall₂_pairwise R name_lt name_lt ?_ _ _ hSN hS
    intro a b a2 b2 ha hb h
    simp only [name_lt] at h ⊢
    rw [hR a a2 ha, hR b b2 hb]
    exact h
  have hv2 : ∀ n ∈ K2, valid_name dp n.name = true := by
    intro n hn
    obtain ⟨x, hx, hxn⟩ := forall₂_mem_right R K Kl hF n (hp.mem_iff.2 hn)
    rw [hR x n hxn]
    exact hv x hx
  have hd2 : K2.Pairwise name_ne :=
    (hN.trans hp).pairwise (hNlt.imp (fun h => by
      simp only [name_lt, name_ne] at h ⊢
      omega)) (fun h => name_ne_symm h)
  have hS2 := sort_children_strict dp K2 hv2 hd2
  have hperm : N.Perm (sort_children dp K2) :=
    (hN.trans hp).trans (sort_children_perm dp K2).symm
  rw [← eq_of_perm_of_name_lt N _ hperm hNlt hS2]
  exact hSN

theorem forall₂_of_mem {α : Type} (R P : α → α → Prop) :
    ∀ (l1 l2 : List α), List.Forall₂ R l1 l2 →
      (∀ a b, a ∈ l1 → b ∈ l2 → R a b → P a b) → List.Forall₂ P l1 l2
  | _, _, List.Forall₂.nil, _ => List.Forall₂.nil
  | a :: as, b :: bs, List.Forall₂.cons hab hs, h =>
    List.Forall₂.cons (h a b (List.mem_cons_self _ _) (List.mem_cons_self _ _) hab)
      (forall₂_of_mem R P as bs hs
        (fun x y hx hy => h x y (List.mem_cons_of_mem _ hx) (List.mem_cons_of_mem _ hy)))

theorem filter_own_file_shuffled (ignore : List (List Char)) (rel : List Char) :
    ∀ (l1 l2 : List Node), List.Forall₂ shuffled_node l1 l2 →
      l1.filter (own_file ignore rel) = l2.filter (own_file ignore rel)
  | _, _, List.Forall₂.nil => rfl
  | a :: as, b :: bs, List.Forall₂.cons hab hs => by
    have ih := filter_own_file_shuffled ignore rel as bs hs
    have e := (shuffled_node_kept ignore rel a b hab).2
    by_cases ha : own_file ignore rel a = true
    · rw [List.filter_cons_of_pos ha, List.filter_cons_of_pos (e ▸ ha), ih,
        shuffled_node_file ignore rel a b hab ha]
    · rw [List.filter_cons_of_neg ha, List.filter_cons_of_neg (e ▸ ha), ih]

theorem depth_listing_le_node (n : Node) : depth_listing n.listing ≤ depth_node n := by
  cases n with
  | file a => simp [Node.listing, depth_listing]
  | dir a la => simp [Node.listing, depth_node]

theorem collect_directories_shuffled (ignore : List (List Char)) (fuel1 fuel2 : Nat)
    (dp rel : List Char) :
    ∀ (S S2 : List Node), List.Forall₂ (fun n n2 => n2.name = n.name
        ∧ ∀ files : List FileEntry,
          collect_files_fuel ignore fuel2 (child_path dp n.name) (child_relative rel n.name)
              n2.listing files
            = collect_files_fuel ignore fuel1 (child_path dp n.name)
              (child_relative rel n.name) n.listing files) S S2 →
      ∀ files : List FileEntry,
        collect_directories (collect_files_fuel ignore fuel2)
            (S2.map (child_item dp rel)) files
          = collect_directories (collect_files_fuel ignore fuel1)
            (S.map (child_item dp rel)) files
  | _, _, List.Forall₂.nil, _ => rfl
  | n :: ns, m :: ms, List.Forall₂.cons h hs, files => by
    have ih := collect_directories_shuffled ignore fuel1 fuel2 dp rel ns ms hs
    simp only [List.map_cons, collect_directories, child_item, h.1, h.2 files]
    cases collect_files_fuel ignore fuel1 (child_path dp n.name) (child_relative rel n.name)
      n.listing files with
    | ok r => exact ih r
    | overflow => rfl
    | out_of_fuel => rfl

/-- A call on a tree with valid names, pairwise distinct among siblings, and the call on
the same tree enumerated in another order end alike. -/
theorem collect_files_fuel_shuffled (ignore : List (List Char)) :
    ∀ (fuel1 fuel2 : Nat) (dp rel : List Char) (L L2 : Option (List Node))
      (files : List FileEntry),
      depth_listing L < fuel1 → depth_listing L2 < fuel2 →
      valid_listing dp L = true → distinct_listing L = true → shuffled_listing L L2 →
      collect_files_fuel ignore fuel2 dp rel L2 files
        = collect_files_fuel ignore fuel1 dp rel L files
  | 0, _, _, _, _, _, _, h1, _, _, _, _ => by omega
  | _ + 1, 0, _, _, _, _, _, _, h2, _, _, _ => by omega
  | fuel1 + 1, fuel2 + 1, dp, rel, none, none, files, _, _, _, _, _ => by
    simp [collect_files_fuel]
  | _ + 1, _ + 1, _, _, none, some _, _, _, _, _, _, hs => by
    simp [shuffled_listing] at hs
  | _ + 1, _ + 1, _, _, some _, none, _, _, _, _, _, hs => by
    simp [shuffled_listing] at hs
  | fuel1 + 1, fuel2 + 1, dp, rel, some cs, some cs2, files, h1, h2, hv, hd, hs => by
    simp only [shuffled_listing] at hs
    obtain ⟨l, hperm, hsh⟩ := hs
    have hF := shuffled_children_forall₂ cs l hsh
    simp only [valid_listing] at hv
    simp only [distinct_listing] at hd
    simp only [depth_listing] at h1 h2
    obtain ⟨hne, hdl⟩ := distinct_children_spec cs hd
    -- the kept subdirectories
    have hK := forall₂_filter shuffled_node (kept_directory ignore rel)
      (fun a b h => (shuffled_node_kept ignore rel a b h).1) cs l hF
    have hKp : (l.filter (kept_directory ignore rel)).Perm
        (cs2.filter (kept_directory ignore rel)) := hperm.filter _
    have hS := sort_children_related dp shuffled_node
      (fun a b h => (shuffled_node_name a b h).1) _ _ _ hK hKp
      (fun n hn => (valid_children_mem dp cs n hv (List.mem_of_mem_filter hn)).1)
      (hne.sublist (List.filter_sublist _))
    -- the files of the directory itself
    have hFl := filter_own_file_shuffled ignore rel cs l hF
    have hFp : (cs.filter (own_file ignore rel)).Perm (cs2.filter (own_file ignore rel)) := by
      rw [hFl]
      exact hperm.filter _
    have hP := sort_children_related dp (fun a b => a = b) (fun a b h => by rw [h]) _ _ _
      (List.forall₂_refl _) hFp
      (fun n hn => (valid_children_mem dp cs n hv (List.mem_of_mem_filter hn)).1)
      (hne.sublist (List.filter_sublist _))
    rw [List.forall₂_eq_eq_eq] at hP
    -- the recursive calls
    have hrec := forall₂_of_mem shuffled_node (fun n n2 => n2.name = n.name
        ∧ ∀ files : List FileEntry,
          collect_files_fuel ignore fuel2 (child_path dp n.name) (child_relative rel n.name)
              n2.listing files
            = collect_files_fuel ignore fuel1 (child_path dp n.name)
              (child_relative rel n.name) n.listing files) _ _ hS (by
      intro a b ha hb hab
      have ha2 : a ∈ cs :=
        List.mem_of_mem_filter ((sort_children_perm dp _).mem_iff.1 ha)
      have hb2 : b ∈ cs2 :=
        List.mem_of_mem_filter ((sort_children_perm dp _).mem_iff.1 hb)
      obtain ⟨hn, hl⟩ := shuffled_node_name a b hab
      have hda := depth_node_le_children cs a ha2
      have hdb := depth_node_le_children cs2 b hb2
      have hla := depth_listing_le_node a
      have hlb := depth_listing_le_node b
      refine ⟨hn, fun files => ?_⟩
      exact collect_files_fuel_shuffled ignore fuel1 fuel2 _ _ _ _ files (by omega) (by omega)
        (valid_children_mem dp cs a hv ha2).2 (hdl a ha2) hl)
    have hdirs := collect_directories_shuffled ignore fuel1 fuel2 dp rel _ _ hrec files
    have hlen1 : (cs2.filter (kept_directory ignore rel)).length
        = (cs.filter (kept_directory ignore rel)).length := by
      rw [← hKp.length_eq, hK.length_eq]
    have hlen2 : (cs2.filter (own_file ignore rel)).length
        = (cs.filter (own_file ignore rel)).length := hFp.length_eq.symm
    rw [collect_files_fuel_succ, collect_files_fuel_succ, hlen1, hlen2, hdirs, hP]

/-! ## C12: order determinism -/

/-- C12: for a fixed directory tree and fixed ignore rules, where the names are valid and
the names of siblings are pairwise distinct ignoring case, `collect_files` ends alike
whatever order each directory's children are enumerated in: on the tree with every
listing permuted it produces the same sequence of (path, relative path) pairs. -/
theorem C12_order_determinism (ignore : List (List Char)) (dir_path relative_path : List Char)
    (listing listing2 : Option (List Node)) (files : List FileEntry)
    (hvalid : valid_listing dir_path listing = true)
    (hdistinct : distinct_listing listing = true)
    (hshuffled : shuffled_listing listing listing2) :
    collect_files ignore dir_path relative_path listing2 files
      = collect_files ignore dir_path relative_path listing files :=
  collect_files_fuel_shuffled ignore _ _ dir_path relative_path listing listing2 files
    (Nat.lt_succ_self _) (Nat.lt_succ_self _) hvalid hdistinct hshuffled

theorem C12_order_determinism_witness :
    collect_files [['l', 'i', 'b', '*']] ['C', ':'] [] shuffle_tree_other []
        = collect_files [['l', 'i', 'b', '*']] ['C', ':'] [] shuffle_tree []
      ∧ collect_files [['l', 'i', 'b', '*']] ['C', ':'] [] shuffle_tree_other []
        = Collected.ok [⟨"C:\\Zed\\a.pde".toList, "Zed/a.pde".toList⟩,
            ⟨"C:\\Zed\\q.PDE".toList, "Zed/q.PDE".toList⟩,
            ⟨"C:\\b.pde".toList, "b.pde".toList⟩, ⟨"C:\\c.pde".toList, "c.pde".toList⟩] :=
  ⟨C12_order_determinism [['l', 'i', 'b', '*']] ['C', ':'] [] shuffle_tree shuffle_tree_other
    [] (by decide) (by decide)
    ⟨[Node.file ['b', '.', 'p', 'd', 'e'],
        Node.dir ['Z', 'e', 'd'] (some [Node.file ['a', '.', 'p', 'd', 'e'],
          Node.file ['q', '.', 'P', 'D', 'E']]),
        Node.file ['c', '.', 'p', 'd', 'e']],
      @List.perm_append_comm Node [Node.file ['b', '.', 'p', 'd', 'e']]
        [Node.dir ['Z', 'e', 'd'] (some [Node.file ['a', '.', 'p', 'd', 'e'],
          Node.file ['q', '.', 'P', 'D', 'E']]), Node.file ['c', '.', 'p', 'd', 'e']],
      rfl,
      ⟨rfl, [Node.file ['q', '.', 'P', 'D', 'E'], Node.file ['a', '.', 'p', 'd', 'e']],
        List.Perm.swap _ _ _, rfl, rfl, trivial⟩,
      rfl, trivial⟩,
    by decide⟩

/-! ## C23: the candidate cap -/

theorem candidates_loop_checked_eq (lm : List LineMapping) (total r : Int) :
    ∀ (fuel k : Nat) (candidates : List MatchCandidate), candidates.length ≤ k →
      candidates_loop_checked lm total r fuel k candidates
        = some (candidates_loop lm total r fuel k candidates)
  | 0, _, _, _ => rfl
  | fuel + 1, k, candidates, h => by
    simp only [candidates_loop_checked, candidates_loop]
    by_cases hg : (k : Int) * LINE_WRAP < total ∧ k < 10
    · simp only [hg, and_self, if_true]
      by_cases hb : r + (k : Int) * LINE_WRAP > total
      · simp only [hb, if_true]
      · simp only [hb, if_false]
        cases find_match (r + (k : Int) * LINE_WRAP) lm 0 with
        | none =>
          simp only
          exact candidates_loop_checked_eq lm total r fuel (k + 1) candidates (by omega)
        | some c =>
          have hk := hg.2
          simp only
          rw [if_pos (by omega)]
          exact candidates_loop_checked_eq lm total r fuel (k + 1) (candidates ++ [c])
            (by simp only [List.length_append, List.length_singleton]; omega)
    · simp only [hg, if_false]

/-- C23: for every line map, `total_lines` and requested line, the search loop of
`translate_line` never writes to `candidates[candidate_count]` at an index that is not
below 10; the candidates it records are what the turns `k = 0 .. 9` give, at most one from
each turn and in that order, so there are at most 10 of them. -/
theorem C23_candidate_cap (line_map : List LineMapping) (total_lines line_num : Int) :
    candidates_loop_checked line_map total_lines line_num 10 0 []
        = some (translate_candidates line_map total_lines line_num)
      ∧ translate_candidates line_map total_lines line_num
        = (List.range 10).filterMap (turn_candidate line_map total_lines line_num)
      ∧ (translate_candidates line_map total_lines line_num).length ≤ 10 := by
  refine ⟨candidates_loop_checked_eq line_map total_lines line_num 10 0 [] (Nat.le_refl _),
    translate_candidates_eq line_map total_lines line_num, ?_⟩
  rw [translate_candidates_eq]
  exact (List.length_filterMap_le _ _).trans (by simp)

/-! ## C25: the arithmetic of the search loop -/

theorem loop_products_succ (total r : Int) (fuel k : Nat) :
    loop_products total r (fuel + 1) k
      = (k : Int) * LINE_WRAP ::
          (if (k : Int) * LINE_WRAP < total ∧ k < 10 then
            if r + (k : Int) * LINE_WRAP > total then []
            else loop_products total r fuel (k + 1)
          else []) := rfl

/-- The trace of products runs to its own exit on eleven turns: more fuel adds nothing. -/
theorem loop_products_fuel (total r : Int) :
    ∀ (fuel more k : Nat), 10 ≤ k + fuel →
      loop_products total r (fuel + 1 + more) k = loop_products total r (fuel + 1) k
  | 0, more, k, h => by
    have hk : ¬ ((k : Int) * LINE_WRAP < total ∧ k < 10) := fun hc => by omega
    have e : 0 + 1 + more = more + 1 := by omega
    rw [e, loop_products_succ, loop_products_succ total r 0 k, if_neg hk, if_neg hk]
  | fuel + 1, more, k, h => by
    have e : fuel + 1 + 1 + more = (fuel + 1 + more) + 1 := by omega
    rw [e, loop_products_succ, loop_products_succ total r (fuel + 1) k,
      loop_products_fuel total r fuel more (k + 1) (by omega)]

theorem loop_products_bound (total r : Int) :
    ∀ (fuel k : Nat), k ≤ 10 → ∀ p ∈ loop_products total r fuel k, 0 ≤ p ∧ p ≤ 655360
  | 0, _, _, p, hp => by simp [loop_products] at hp
  | fuel + 1, k, hk, p, hp => by
    simp only [loop_products, List.mem_cons] at hp
    rcases hp with rfl | hp
    · simp only [LINE_WRAP]
      omega
    · by_cases hg : (k : Int) * LINE_WRAP < total ∧ k < 10
      · simp only [hg, and_self, if_true] at hp
        by_cases hb : r + (k : Int) * LINE_WRAP > total
        · simp [hb] at hp
        · simp only [hb, if_false] at hp
          exact loop_products_bound total r fuel (k + 1) (by omega) p hp
      · simp [hg] at hp

theorem loop_sums_bound (total r : Int) :
    ∀ (fuel k : Nat), (∀ j : Nat, j + 1 = k → r + (j : Int) * LINE_WRAP ≤ total) →
      ∀ ks ∈ loop_sums total r fuel k,
        ks.2 = r + (ks.1 : Int) * LINE_WRAP ∧ ks.1 < 10
          ∧ (1 ≤ ks.1 → ks.2 ≤ total + LINE_WRAP)
  | 0, _, _, ks, hks => by simp [loop_sums] at hks
  | fuel + 1, k, hprev, ks, hks => by
    simp only [loop_sums] at hks
    by_cases hg : (k : Int) * LINE_WRAP < total ∧ k < 10
    · simp only [hg, and_self, if_true, List.mem_cons] at hks
      rcases hks with rfl | hks
      · refine ⟨rfl, hg.2, ?_⟩
        intro h1
        have := hprev (k - 1) (by omega)
        have hc : ((k - 1 : Nat) : Int) = (k : Int) - 1 := by omega
        simp only [LINE_WRAP, hc] at this ⊢
        omega
      · by_cases hb : r + (k : Int) * LINE_WRAP > total
        · simp [hb] at hks
        · simp only [hb, if_false] at hks
          refine loop_sums_bound total r fuel (k + 1) ?_ ks hks
          intro j hj
          have : j = k := by omega
          subst this
          omega
    · simp [hg] at hks

/-- C25: for a requested line `r` with `1 ≤ r ≤ 2^31 - 1` and a `total_lines` with
`0 ≤ total_lines ≤ 2^31 - 1 - 65536`, every product `k * 65536` and every sum
`r + k * 65536` that the search loop of `translate_line` evaluates lies in the range of a
32-bit `int`, and for `k ≥ 1` the sum is at most `total_lines + 65536`. -/
theorem C25_no_signed_overflow (total_lines line_num : Int) (h1 : 1 ≤ line_num)
    (h2 : line_num ≤ 2 ^ 31 - 1) (h3 : 0 ≤ total_lines)
    (h4 : total_lines ≤ 2 ^ 31 - 1 - 65536) :
    (∀ p ∈ loop_products total_lines line_num 11 0, -2 ^ 31 ≤ p ∧ p ≤ 2 ^ 31 - 1)
      ∧ ∀ ks ∈ loop_sums total_lines line_num 11 0,
          -2 ^ 31 ≤ ks.2 ∧ ks.2 ≤ 2 ^ 31 - 1 ∧ (1 ≤ ks.1 → ks.2 ≤ total_lines + 65536) := by
  constructor
  · intro p hp
    have := loop_products_bound total_lines line_num 11 0 (by omega) p hp
    omega
  · intro ks hks
    obtain ⟨hs, hk, hle⟩ := loop_sums_bound total_lines line_num 11 0
      (fun j hj => by omega) ks hks
    simp only [LINE_WRAP] at hs hle
    refine ⟨by omega, ?_, hle⟩
    by_cases hz : ks.1 = 0
    · rw [hz] at hs
      simp only [Nat.cast_zero, zero_mul, add_zero] at hs
      omega
    · have := hle (by omega)
      omega

theorem C25_no_signed_overflow_witness :
    (∀ p ∈ loop_products 200000 5 11 0, -2 ^ 31 ≤ p ∧ p ≤ 2 ^ 31 - 1)
      ∧ ∀ ks ∈ loop_sums 200000 5 11 0,
          -2 ^ 31 ≤ ks.2 ∧ ks.2 ≤ 2 ^ 31 - 1 ∧ (1 ≤ ks.1 → ks.2 ≤ 200000 + 65536) :=
  C25_no_signed_overflow 200000 5 (by decide) (by decide) (by decide) (by decide)

theorem loop_sums_fuel (total r : Int) :
    ∀ (fuel more k : Nat), 10 ≤ k + fuel →
      loop_sums total r (fuel + more) k = loop_sums total r fuel k
  | 0, more, k, h => by
    have hk : ¬ ((k : Int) * LINE_WRAP < total ∧ k < 10) := fun hc => by omega
    cases more with
    | zero => rfl
    | succ more => simp only [Nat.zero_add, loop_sums, hk, if_false]
  | fuel + 1, more, k, h => by
    have e : fuel + 1 + more = (fuel + more) + 1 := by omega
    rw [e]
    simp only [loop_sums]
    rw [loop_sums_fuel total r fuel more (k + 1) (by omega)]

/-- The line of every candidate that the search loop records is one of the sums in the
trace. -/
theorem candidates_loop_sums (lm : List LineMapping) (total r : Int) :
    ∀ (fuel k : Nat) (acc : List MatchCandidate),
      ∀ c ∈ candidates_loop lm total r fuel k acc,
        c ∈ acc ∨ ∃ j, (j, c.actual_line) ∈ loop_sums total r fuel k
  | 0, _, _, c, hc => Or.inl hc
  | fuel + 1, k, acc, c, hc => by
    simp only [candidates_loop] at hc
    simp only [loop_sums]
    by_cases hg : (k : Int) * LINE_WRAP < total ∧ k < 10
    · simp only [hg, and_self, if_true] at hc ⊢
      by_cases hb : r + (k : Int) * LINE_WRAP > total
      · simp only [hb, if_true] at hc
        exact Or.inl hc
      · simp only [hb, if_false] at hc ⊢
        cases hf : find_match (r + (k : Int) * LINE_WRAP) lm 0 with
        | none =>
          rw [hf] at hc
          rcases candidates_loop_sums lm total r fuel (k + 1) acc c hc with h | ⟨j, hj⟩
          · exact Or.inl h
          · exact Or.inr ⟨j, List.mem_cons_of_mem _ hj⟩
        | some m =>
          rw [hf] at hc
          rcases candidates_loop_sums lm total r fuel (k + 1) (acc ++ [m]) c hc with h | ⟨j, hj⟩
          · rcases List.mem_append.1 h with h | h
            · exact Or.inl h
            · rw [List.mem_singleton] at h
              subst h
              obtain ⟨e, -, -, -, hline, -⟩ := find_match_some _ _ _ _ hf
              refine Or.inr ⟨k, ?_⟩
              rw [hline]
              exact List.mem_cons_self _ _
          · exact Or.inr ⟨j, List.mem_cons_of_mem _ hj⟩
    · simp only [hg, if_false] at hc
      exact Or.inl hc

/-- The trace of sums holds the line of every candidate of `translate_line`. -/
theorem translate_candidates_sums (lm : List LineMapping) (total r : Int) :
    ∀ c ∈ translate_candidates lm total r, ∃ j, (j, c.actual_line) ∈ loop_sums total r 11 0 := by
  intro c hc
  rcases candidates_loop_sums lm total r 10 0 [] c hc with h | ⟨j, hj⟩
  · simp at h
  · rw [← loop_sums_fuel total r 10 1 0 (by omega)] at hj
    exact ⟨j, hj⟩

/-! ## The reassembly against its calls -/

theorem printed_append (lm : List LineMapping) (total : Int) (calls : List (List Char))
    (line : List Char) :
    printed lm total (calls ++ [line])
      = printed lm total calls ++ process_output_line lm total line ++ ['\n'] := by
  simp [printed, List.append_assoc]

theorem reassemble_byte_trace (lm : List LineMapping) (total : Int) (e buf : List Char)
    (calls : List (List Char)) (ch : Char) :
    reassemble_byte lm total ⟨buf, e ++ printed lm total calls⟩ ch
      = ⟨(trace_byte ⟨buf, calls⟩ ch).line_buffer,
          e ++ printed lm total (trace_byte ⟨buf, calls⟩ ch).calls⟩ := by
  simp only [reassemble_byte, trace_byte]
  split_ifs <;> simp only [printed_append, List.append_assoc]

/-- What the reassembly prints is what `process_output_line` prints for the calls of the
trace, each followed by a newline, and the two keep the same line buffer. -/
theorem feed_chunk_trace (lm : List LineMapping) (total : Int) (e : List Char) :
    ∀ (bytes buf : List Char) (calls : List (List Char)),
      feed_chunk lm total ⟨buf, e ++ printed lm total calls⟩ bytes
        = ⟨(trace_chunk ⟨buf, calls⟩ bytes).line_buffer,
            e ++ printed lm total (trace_chunk ⟨buf, calls⟩ bytes).calls⟩
  | [], _, _ => rfl
  | ch :: bytes, buf, calls => by
    simp only [feed_chunk, trace_chunk, List.foldl_cons]
    rw [reassemble_byte_trace]
    exact feed_chunk_trace lm total e bytes _ _

theorem final_flush_trace (lm : List LineMapping) (total : Int) (e buf : List Char)
    (calls : List (List Char)) :
    final_flush lm total ⟨buf, e ++ printed lm total calls⟩
      = ⟨(trace_flush ⟨buf, calls⟩).line_buffer,
          e ++ printed lm total (trace_flush ⟨buf, calls⟩).calls⟩ := by
  simp only [final_flush, trace_flush]
  split_ifs <;> simp only [printed_append, List.append_assoc]

theorem take_append_singleton (buf : List Char) (c : Char) (m : Nat) :
    (buf ++ [c]).take m = if (buf.take m).length < m then buf.take m ++ [c] else buf.take m := by
  by_cases h : buf.length < m
  · have h1 : buf.take m = buf := List.take_of_length_le (by omega)
    rw [h1, if_pos h]
    exact List.take_of_length_le (by simp only [List.length_append, List.length_singleton]; omega)
  · have h1 : (buf.take m).length = m := by
      rw [List.length_take]
      omega
    rw [if_neg (by omega), List.take_append_of_le_length (by omega)]

theorem trace_byte_terminator (cur : List Char) (calls : List (List Char)) (c : Char)
    (hc : is_terminator c = true) (hm : 0 < MAX_LINE - 1) :
    trace_byte ⟨cur.take (MAX_LINE - 1), calls⟩ c
      = if cur = [] then ⟨[], calls⟩
        else ⟨[], calls ++ [c_str (cur.take (MAX_LINE - 1))]⟩ := by
  have hc2 : c = '\n' ∨ c = '\r' := by simpa [is_terminator] using hc
  simp only [trace_byte, hc2, if_true]
  cases cur with
  | nil => simp
  | cons x xs =>
    have : ((x :: xs).take (MAX_LINE - 1)).length > 0 := by
      rw [List.length_take, List.length_cons]
      omega
    simp only [this, if_true]
    simp

theorem trace_byte_other (cur : List Char) (calls : List (List Char)) (c : Char)
    (hc : is_terminator c = false) :
    trace_byte ⟨cur.take (MAX_LINE - 1), calls⟩ c
      = ⟨(cur ++ [c]).take (MAX_LINE - 1), calls⟩ := by
  have hc2 : ¬ (c = '\n' ∨ c = '\r') := by simpa [is_terminator] using hc
  simp only [trace_byte, hc2, if_false, take_append_singleton]
  split_ifs <;> rfl

theorem trace_flush_take (cur : List Char) (calls : List (List Char))
    (hm : 0 < MAX_LINE - 1) :
    (trace_flush ⟨cur.take (MAX_LINE - 1), calls⟩).calls
      = if cur = [] then calls else calls ++ [c_str (cur.take (MAX_LINE - 1))] := by
  simp only [trace_flush]
  cases cur with
  | nil => simp
  | cons x xs =>
    have : ((x :: xs).take (MAX_LINE - 1)).length > 0 := by
      rw [List.length_take, List.length_cons]
      omega
    simp only [this, if_true]
    simp

/-- The calls made for a stream, with `cur` the bytes of the run in progress: one call for
every non-empty piece between terminators, with the first 8191 bytes of the piece. -/
theorem trace_chunk_runs :
    ∀ (stream h : List Char) (t : List (List Char)),
      stream.splitOnP is_terminator = h :: t →
      ∀ (cur : List Char) (calls : List (List Char)),
        (trace_flush (trace_chunk ⟨cur.take (MAX_LINE - 1), calls⟩ stream)).calls
          = calls ++ (((cur ++ h) :: t).filter (fun run => !run.isEmpty)).map
              (fun run => c_str (run.take (MAX_LINE - 1)))
  | [], h, t, hs, cur, calls => by
    rw [List.splitOnP_nil] at hs
    obtain ⟨rfl, rfl⟩ := List.cons.inj hs
    simp only [trace_chunk, List.foldl_nil, List.append_nil]
    rw [trace_flush_take cur calls (by decide)]
    cases cur <;> simp
  | c :: cs, h, t, hs, cur, calls => by
    obtain ⟨h2, t2, hs2⟩ := List.exists_cons_of_ne_nil (List.splitOnP_ne_nil is_terminator cs)
    rw [List.splitOnP_cons, hs2] at hs
    simp only [trace_chunk, List.foldl_cons]
    by_cases hc : is_terminator c = true
    · rw [if_pos hc] at hs
      obtain ⟨rfl, rfl⟩ := List.cons.inj hs
      rw [trace_byte_terminator cur calls c hc (by decide)]
      by_cases hcur : cur = []
      · subst hcur
        rw [if_pos rfl]
        have := trace_chunk_runs cs h2 t2 hs2 [] calls
        simp only [trace_chunk, List.take_nil, List.nil_append] at this
        rw [this]
        simp
      · rw [if_neg hcur]
        have := trace_chunk_runs cs h2 t2 hs2 [] (calls ++ [c_str (cur.take (MAX_LINE - 1))])
        simp only [trace_chunk, List.take_nil, List.nil_append] at this
        rw [this]
        have hne : (!cur.isEmpty) = true := by
          cases cur with
          | nil => exact absurd rfl hcur
          | cons x xs => rfl
        simp [List.filter_cons, hne]
    · rw [Bool.not_eq_true] at hc
      rw [if_neg (by simp [hc]), List.modifyHead_cons] at hs
      obtain ⟨rfl, rfl⟩ := List.cons.inj hs
      rw [trace_byte_other cur calls c hc]
      have := trace_chunk_runs cs h2 t2 hs2 (cur ++ [c]) calls
      simp only [trace_chunk] at this
      rw [this]
      simp

/-- The calls made for a whole stream, final flush included: one for every maximal
non-empty run of non-terminator bytes, with the C string held in its first 8191 bytes. -/
theorem trace_stream_runs (stream : List Char) :
    (trace_flush (trace_chunk ⟨[], []⟩ stream)).calls
      = (byte_runs stream).map (fun run => c_str (run.take (MAX_LINE - 1))) := by
  obtain ⟨h, t, hs⟩ := List.exists_cons_of_ne_nil (List.splitOnP_ne_nil is_terminator stream)
  have := trace_chunk_runs stream h t hs [] []
  simp only [List.take_nil, List.nil_append] at this
  rw [this, byte_runs, hs]

theorem trace_byte_buffer_le (st : CallTrace) (ch : Char)
    (h : st.line_buffer.length ≤ MAX_LINE - 1) :
    (trace_byte st ch).line_buffer.length ≤ MAX_LINE - 1 := by
  simp only [trace_byte]
  split_ifs with h1 h2 h3
  · simp
  · exact h
  · simp only [List.length_append, List.length_singleton]
    omega
  · exact h

theorem trace_chunk_buffer_le :
    ∀ (bytes : List Char) (st : CallTrace), st.line_buffer.length ≤ MAX_LINE - 1 →
      (trace_chunk st bytes).line_buffer.length ≤ MAX_LINE - 1
  | [], _, h => h
  | ch :: bytes, st, h => by
    simp only [trace_chunk, List.foldl_cons]
    exact trace_chunk_buffer_le bytes _ (trace_byte_buffer_le st ch h)

/-- A run without a terminator leaves its first 8191 bytes in the line buffer. -/
theorem trace_chunk_run :
    ∀ (run cur : List Char) (calls : List (List Char)),
      (∀ c ∈ run, is_terminator c = false) →
      trace_chunk ⟨cur.take (MAX_LINE - 1), calls⟩ run
        = ⟨(cur ++ run).take (MAX_LINE - 1), calls⟩
  | [], cur, calls, _ => by simp [trace_chunk]
  | c :: cs, cur, calls, h => by
    simp only [trace_chunk, List.foldl_cons]
    rw [trace_byte_other cur calls c (h c (List.mem_cons_self _ _))]
    have := trace_chunk_run cs (cur ++ [c]) calls
      (fun x hx => h x (List.mem_cons_of_mem _ hx))
    simp only [trace_chunk, List.append_assoc, List.singleton_append] at this
    exact this

/-- A non-empty line and its terminator: one call, with the C string held in the first
8191 bytes of the line. -/
theorem trace_chunk_line (line : List Char) (t : Char) (calls : List (List Char))
    (hl : ∀ c ∈ line, is_terminator c = false) (ht : is_terminator t = true)
    (hne : line ≠ []) :
    trace_chunk ⟨[], calls⟩ (line ++ [t])
      = ⟨[], calls ++ [c_str (line.take (MAX_LINE - 1))]⟩ := by
  have h1 := trace_chunk_run line [] calls hl
  simp only [List.take_nil, List.nil_append] at h1
  have h2 : trace_chunk ⟨[], calls⟩ (line ++ [t])
      = trace_byte (trace_chunk ⟨[], calls⟩ line) t := by
    simp [trace_chunk, List.foldl_append]
  rw [h2, h1, trace_byte_terminator line calls t ht (by decide), if_neg hne]

theorem c_str_length_le (buf : List Char) : (c_str buf).length ≤ buf.length :=
  (List.takeWhile_sublist _).length_le

theorem splitOnP_pieces (p : Char → Bool) :
    ∀ (xs : List Char), ∀ piece ∈ xs.splitOnP p, ∀ c ∈ piece, p c = false
  | [], piece, hp, c, hc => by
    rw [List.splitOnP_nil, List.mem_singleton] at hp
    subst hp
    simp at hc
  | x :: xs, piece, hp, c, hc => by
    obtain ⟨h, t, hs⟩ := List.exists_cons_of_ne_nil (List.splitOnP_ne_nil p xs)
    have ih := splitOnP_pieces p xs
    rw [hs] at ih
    rw [List.splitOnP_cons, hs] at hp
    by_cases hx : p x = true
    · rw [if_pos hx] at hp
      rcases List.mem_cons.1 hp with rfl | hp
      · simp at hc
      · exact ih piece hp c hc
    · rw [if_neg hx, List.modifyHead_cons] at hp
      rcases List.mem_cons.1 hp with rfl | hp
      · rcases List.mem_cons.1 hc with rfl | hc
        · simpa using hx
        · exact ih h (List.mem_cons_self _ _) c hc
      · exact ih piece (List.mem_cons_of_mem _ hp) c hc

/-! ## C24: no call for an empty run -/

/-- C24: a `\n` or `\r` seen while the line buffer is empty emits nothing, so for every byte
stream the lines handed to `process_output_line`, the final flush included, are one for
every maximal non-empty run of non-terminator bytes (each run non-empty and free of
terminators, handed over as the C string held in its first 8191 bytes), and what is
printed is what `process_output_line` prints for these lines, each followed by a newline:
`\r\n` ends one line and blank lines are dropped. -/
theorem C24_no_empty_logical_line (line_map : List LineMapping) (total_lines : Int)
    (e stream : List Char) :
    (reassemble_byte line_map total_lines ⟨[], e⟩ '\n' = ⟨[], e⟩
        ∧ reassemble_byte line_map total_lines ⟨[], e⟩ '\r' = ⟨[], e⟩)
      ∧ (trace_flush (trace_chunk ⟨[], []⟩ stream)).calls
        = (byte_runs stream).map (fun run => c_str (run.take (MAX_LINE - 1)))
      ∧ (trace_flush (trace_chunk ⟨[], []⟩ stream)).calls.length = (byte_runs stream).length
      ∧ (final_flush line_map total_lines
            (feed_chunk line_map total_lines ⟨[], e⟩ stream)).emitted
        = e ++ printed line_map total_lines (trace_flush (trace_chunk ⟨[], []⟩ stream)).calls
      ∧ ∀ run ∈ byte_runs stream, run ≠ [] ∧ ∀ c ∈ run, is_terminator c = false := by
  refine ⟨⟨rfl, rfl⟩, trace_stream_runs stream, ?_, ?_, ?_⟩
  · rw [trace_stream_runs, List.length_map]
  · have h1 := feed_chunk_trace line_map total_lines e stream [] []
    have h0 : e ++ printed line_map total_lines [] = e := by simp [printed]
    rw [h0] at h1
    have h2 := final_flush_trace line_map total_lines e
      (trace_chunk ⟨[], []⟩ stream).line_buffer (trace_chunk ⟨[], []⟩ stream).calls
    rw [h1, h2]
  · intro run hrun
    simp only [byte_runs, List.mem_filter, Bool.not_eq_true', List.isEmpty_eq_false] at hrun
    exact ⟨hrun.2, splitOnP_pieces is_terminator stream run hrun.1⟩

theorem C24_no_empty_logical_line_witness :
    byte_runs "ab\r\n\n\ncd\rxy".toList = ["ab".toList, "cd".toList, "xy".toList]
      ∧ (trace_flush (trace_chunk ⟨[], []⟩ "ab\r\n\n\ncd\rxy".toList)).calls.length = 3
      ∧ (final_flush [] 0 (feed_chunk [] 0 ⟨[], []⟩ "ab\r\n\n\ncd\rxy".toList)).emitted
        = "ab\ncd\nxy\n".toList :=
  ⟨by decide,
    ((C24_no_empty_logical_line [] 0 [] "ab\r\n\n\ncd\rxy".toList).2.2.1).trans (by decide),
    by decide⟩

/-! ## C21: the bounded line buffer -/

theorem feed_chunk_of_trace (lm : List LineMapping) (total : Int) (e bytes : List Char) :
    feed_chunk lm total ⟨[], e⟩ bytes
      = ⟨(trace_chunk ⟨[], []⟩ bytes).line_buffer,
          e ++ printed lm total (trace_chunk ⟨[], []⟩ bytes).calls⟩ := by
  have h0 : e ++ printed lm total [] = e := by simp [printed]
  have h1 := feed_chunk_trace lm total e bytes [] []
  rw [h0] at h1
  exact h1

/-- A run without a terminator, fed to an empty line buffer, leaves its first 8191 bytes
there and prints nothing. -/
theorem feed_chunk_run (lm : List LineMapping) (total : Int) (e run : List Char)
    (hl : ∀ c ∈ run, is_terminator c = false) :
    feed_chunk lm total ⟨[], e⟩ run = ⟨run.take (MAX_LINE - 1), e⟩ := by
  have h1 := trace_chunk_run run [] [] hl
  simp only [List.take_nil, List.nil_append] at h1
  rw [feed_chunk_of_trace, h1]
  simp [printed]

/-- A non-empty line and its terminator: `process_output_line` prints the C string held in
the first 8191 bytes of the line, and the line buffer is empty again. -/
theorem feed_chunk_line (lm : List LineMapping) (total : Int) (e line : List Char) (t : Char)
    (hl : ∀ c ∈ line, is_terminator c = false) (ht : is_terminator t = true)
    (hne : line ≠ []) :
    feed_chunk lm total ⟨[], e⟩ (line ++ [t])
      = ⟨[], e ++ process_output_line lm total (c_str (line.take (MAX_LINE - 1)))
          ++ ['\n']⟩ := by
  rw [feed_chunk_of_trace, trace_chunk_line line t [] hl ht hne]
  simp [printed]

/-- C21: for every byte stream the accumulation position never exceeds
`MAX_LINE - 1 = 8191`, so the NUL written at that position is inside the line buffer and
every string handed to `process_output_line` fits, with its NUL, in the `MAX_LINE` bytes
of its copy. Of a logical line longer than 8191 bytes the line buffer holds exactly the
first 8191 bytes, and the line is emitted as these bytes are: the state after the line and
its terminator is the state after its first 8191 bytes and the terminator, with the line
buffer empty and what `process_output_line` prints for these bytes, and a newline,
printed. The bytes behind the first 8191, up to the terminator, leave no trace. -/
theorem C21_bounded_line_buffer (line_map : List LineMapping) (total_lines : Int)
    (e : List Char) :
    MAX_LINE - 1 = 8191
      ∧ (∀ bytes : List Char,
          (feed_chunk line_map total_lines ⟨[], e⟩ bytes).line_buffer.length ≤ MAX_LINE - 1
            ∧ (feed_chunk line_map total_lines ⟨[], e⟩ bytes).line_buffer.length < MAX_LINE)
      ∧ (∀ stream : List Char, ∀ line ∈ (trace_flush (trace_chunk ⟨[], []⟩ stream)).calls,
          line.length + 1 ≤ MAX_LINE)
      ∧ ∀ (line : List Char) (t : Char), (∀ c ∈ line, is_terminator c = false) →
          is_terminator t = true → MAX_LINE - 1 < line.length →
          feed_chunk line_map total_lines ⟨[], e⟩ line = ⟨line.take (MAX_LINE - 1), e⟩
            ∧ feed_chunk line_map total_lines ⟨[], e⟩ (line ++ [t])
              = ⟨[], e ++ process_output_line line_map total_lines
                  (c_str (line.take (MAX_LINE - 1))) ++ ['\n']⟩
            ∧ feed_chunk line_map total_lines ⟨[], e⟩ (line ++ [t])
              = feed_chunk line_map total_lines ⟨[], e⟩ (line.take (MAX_LINE - 1) ++ [t]) := by
  refine ⟨by decide, ?_, ?_, ?_⟩
  · intro bytes
    have hb := trace_chunk_buffer_le bytes ⟨[], []⟩ (Nat.zero_le _)
    rw [feed_chunk_of_trace]
    have hm : MAX_LINE - 1 < MAX_LINE := by decide
    exact ⟨hb, lt_of_le_of_lt hb hm⟩
  · intro stream line hline2
    rw [trace_stream_runs, List.mem_map] at hline2
    obtain ⟨run, -, rfl⟩ := hline2
    have h1 := c_str_length_le (run.take (MAX_LINE - 1))
    have h2 : (run.take (MAX_LINE - 1)).length ≤ MAX_LINE - 1 := by
      rw [List.length_take]
      omega
    have hm : MAX_LINE - 1 + 1 = MAX_LINE := by decide
    omega
  · intro line t hl ht hlong
    have hne : line ≠ [] := by
      intro h
      rw [h] at hlong
      simp at hlong
    have hne2 : line.take (MAX_LINE - 1) ≠ [] := by
      cases line with
      | nil => exact absurd rfl hne
      | cons x xs =>
        have hm : MAX_LINE - 1 = 8190 + 1 := by decide
        rw [hm, List.take_succ_cons]
        simp
    have h1 := feed_chunk_line line_map total_lines e line t hl ht hne
    have h2 := feed_chunk_line line_map total_lines e (line.take (MAX_LINE - 1)) t
      (fun c hc => hl c (List.mem_of_mem_take hc)) ht hne2
    rw [List.take_take, Nat.min_self] at h2
    exact ⟨feed_chunk_run line_map total_lines e line hl, h1, h1.trans h2.symm⟩

theorem C21_bounded_line_buffer_witness :
    feed_chunk [] 0 ⟨[], []⟩ long_line = ⟨long_line.take (MAX_LINE - 1), []⟩
      ∧ feed_chunk [] 0 ⟨[], []⟩ (long_line ++ ['\n'])
        = ⟨[], [] ++ process_output_line [] 0 (c_str (long_line.take (MAX_LINE - 1)))
            ++ ['\n']⟩
      ∧ feed_chunk [] 0 ⟨[], []⟩ (long_line ++ ['\n'])
        = feed_chunk [] 0 ⟨[], []⟩ (long_line.take (MAX_LINE - 1) ++ ['\n']) :=
  (C21_bounded_line_buffer [] 0 []).2.2.2 long_line '\n'
    (fun c hc => by rw [List.eq_of_mem_replicate hc]; decide) (by decide)
    (by rw [long_line, List.length_replicate]; decide)

theorem c_str_of_no_nul (buf : List Char) (h : NUL ∉ buf) : c_str buf = buf := by
  rw [c_str, List.takeWhile_eq_self_iff]
  intro c hc
  simp only [decide_eq_true_eq]
  exact fun e => h (e ▸ hc)

/-- When the first 8191 bytes of a long line hold no NUL byte and no marker, these bytes
are printed as they are, with a newline. -/
theorem long_line_printed_verbatim (lm : List LineMapping) (total : Int) (e line : List Char)
    (t : Char) (hl : ∀ c ∈ line, is_terminator c = false) (ht : is_terminator t = true)
    (hne : line ≠ []) (hnul : NUL ∉ line.take (MAX_LINE - 1))
    (hmark : ∀ pre post, line.take (MAX_LINE - 1) ≠ pre ++ output_pde_marker ++ post) :
    feed_chunk lm total ⟨[], e⟩ (line ++ [t])
      = ⟨[], e ++ line.take (MAX_LINE - 1) ++ ['\n']⟩ := by
  rw [feed_chunk_line lm total e line t hl ht hne, c_str_of_no_nul _ hnul]
  have : process_output_line lm total (line.take (MAX_LINE - 1)) = line.take (MAX_LINE - 1) :=
    process_scan_inert lm total _ (fun pre post h => absurd h (hmark pre post)) _ [] _ rfl
  rw [this]

/-! ## C22: the fragment ceiling -/

theorem add_file_length_le (files : List FileEntry) (f : FileEntry)
    (h : files.length ≤ MAX_FILES) : (add_file files f).length ≤ MAX_FILES := by
  simp only [add_file]
  split_ifs with h1
  · simp only [List.length_append, List.length_singleton]
    omega
  · exact h

theorem collect_directories_uncapped (ignore : List (List Char)) (fuel : Nat)
    (ds : List DirItem)
    (ih : ∀ d ∈ ds, ∀ (files ufiles r : List FileEntry),
      collect_files_fuel ignore fuel d.path d.relative d.listing files = Collected.ok r →
      ∃ seq : List FileEntry, r = seq.foldl add_file files
        ∧ collect_uncapped_fuel ignore fuel d.path d.relative d.listing ufiles
          = Collected.ok (ufiles ++ seq)) :
    ∀ (files ufiles r : List FileEntry),
      collect_directories (collect_files_fuel ignore fuel) ds files = Collected.ok r →
      ∃ seq : List FileEntry, r = seq.foldl add_file files
        ∧ collect_directories (collect_uncapped_fuel ignore fuel) ds ufiles
          = Collected.ok (ufiles ++ seq) := by
  induction ds with
  | nil =>
    intro files ufiles r h
    simp only [collect_directories, Collected.ok.injEq] at h
    exact ⟨[], by simp [h], by simp [collect_directories]⟩
  | cons d ds ihd =>
    intro files ufiles r h
    unfold collect_directories at h
    cases hc : collect_files_fuel ignore fuel d.path d.relative d.listing files with
    | ok r0 =>
      rw [hc] at h
      simp only at h
      obtain ⟨s0, hs0, hs0'⟩ := ih d (List.mem_cons_self _ _) files ufiles r0 hc
      obtain ⟨s1, hs1, hs1'⟩ := ihd (fun d' hd' => ih d' (List.mem_cons_of_mem _ hd'))
        r0 (ufiles ++ s0) r h
      refine ⟨s0 ++ s1, by rw [foldl_add_file_append, ← hs0, hs1], ?_⟩
      unfold collect_directories
      rw [hs0']
      simp only
      rw [hs1', List.append_assoc]
    | overflow => simp [hc] at h
    | out_of_fuel => simp [hc] at h

/-- A call that returns stores, as far as the ceiling lets it, the sequence that the
uncapped collection appends. -/
theorem collect_files_fuel_uncapped (ignore : List (List Char)) :
    ∀ (fuel : Nat) (dp rel : List Char) (listing : Option (List Node))
      (files ufiles r : List FileEntry),
      collect_files_fuel ignore fuel dp rel listing files = Collected.ok r →
      ∃ seq : List FileEntry, r = seq.foldl add_file files
        ∧ collect_uncapped_fuel ignore fuel dp rel listing ufiles
          = Collected.ok (ufiles ++ seq)
  | 0, _, _, _, _, _, _, h => by simp [collect_files_fuel] at h
  | fuel + 1, dp, rel, listing, files, ufiles, r, h => by
    unfold collect_files_fuel at h
    unfold collect_uncapped_fuel
    cases listing with
    | none =>
      simp only [Collected.ok.injEq] at h
      exact ⟨[], by simp [h], by simp⟩
    | some children =>
      simp only at h ⊢
      cases hs : scan_children ignore dp rel children [] [] with
      | none => simp [hs] at h
      | some sp =>
        obtain ⟨ds, ps⟩ := sp
        rw [hs] at h
        simp only at h ⊢
        cases hc : collect_directories (collect_files_fuel ignore fuel)
            (sort_directories ds) files with
        | ok r0 =>
          rw [hc] at h
          simp only [Collected.ok.injEq] at h
          obtain ⟨s0, hs0, hs0'⟩ := collect_directories_uncapped ignore fuel _
            (fun d _ f u r hr =>
              collect_files_fuel_uncapped ignore fuel d.path d.relative d.listing f u r hr)
            files ufiles r0 hc
          refine ⟨s0 ++ sort_pde_files ps, by rw [foldl_add_file_append, ← hs0, h], ?_⟩
          rw [hs0']
          simp only [List.append_assoc]
        | overflow => simp [hc] at h
        | out_of_fuel => simp [hc] at h

/-- Where `collect_files` returns, C22 holds: `file_count` stays within `MAX_FILES`, and
what is collected from an empty array is the first `MAX_FILES` entries of the sequence
of the uncapped collection, all of it when it is not longer. -/
theorem collect_files_ceiling (ignore : List (List Char)) (dp rel : List Char)
    (listing : Option (List Node)) (r : List FileEntry)
    (h : collect_files ignore dp rel listing [] = Collected.ok r) :
    r.length ≤ MAX_FILES
      ∧ ∃ u : List FileEntry, collect_uncapped ignore dp rel listing [] = Collected.ok u
        ∧ r = u.take MAX_FILES := by
  obtain ⟨seq, hr, hu⟩ := collect_files_fuel_uncapped ignore _ dp rel listing [] [] r h
  refine ⟨collect_files_length_le ignore dp rel listing r h, seq, ?_, ?_⟩
  · rw [collect_uncapped, hu, List.nil_append]
  · rw [hr, foldl_add_file]
    simp

theorem own_file_sketch (x : List Char) :
    own_file [] [] (Node.file (x ++ pde_suffix)) = true := by
  have h1 : ¬ (x ++ pde_suffix = ['.'] ∨ x ++ pde_suffix = ['.', '.']) := by
    rintro (h | h) <;>
    · have := congrArg List.length h
      simp [pde_suffix] at this
  simp [own_file, h1, should_ignore, ends_with_pde_suffix]

/-- C22 at its failing input: the directory `crowded_directory` holds 10001 eligible
sketches, more than `MAX_FILES`, and `collect_files` does not come back with the first
10000 of them: the enumeration loop stores the 1001st sketch past the end of the
1000-slot array `pde_files`, which no test guards. -/
theorem C22_crowded_directory_overruns :
    (eligible_listing [] ['C', ':'] [] (some crowded_directory)).length = 10001
      ∧ MAX_FILES < (eligible_listing [] ['C', ':'] [] (some crowded_directory)).length
      ∧ collect_files [] ['C', ':'] [] (some crowded_directory) [] = Collected.overflow := by
  have hlen : (eligible_listing [] ['C', ':'] [] (some crowded_directory)).length = 10001 := by
    simp only [eligible_listing, crowded_directory]
    rw [eligible_children_sketches ['C', ':'] [] (fun i => fmt_d (i : Int))]
    simp only [List.length_range]
  refine ⟨hlen, by rw [hlen]; decide, ?_⟩
  have hfilter : crowded_directory.filter (own_file [] []) = crowded_directory := by
    apply List.filter_eq_self.2
    intro n hn
    simp only [crowded_directory, List.mem_map] at hn
    obtain ⟨i, -, rfl⟩ := hn
    exact own_file_sketch _
  have hcount : (crowded_directory.filter (own_file [] [])).length = 10001 := by
    rw [hfilter]
    simp only [crowded_directory, List.length_map, List.length_range]
  rw [collect_files, depth_listing, collect_files_fuel_succ, if_neg]
  rw [hcount]
  simp only [DIR_SLOTS]
  omega

end Foldcessing
